import Mathlib

/-!
# Classic ECS (`src/classic-ecs/ecs.hpp`): generational-index entity/component store

Shallow embedding of `ecs::World` and of the helpers in `ecs::detail`.

* `assert(...)` is modelled as active: a failed assertion is the outcome
  `Fault.assertion` (the process is terminated, no state survives).
* `1 << component_id<T>()` is a shift of the `int` literal `1`; for a shift count
  of 32 or more the C++ standard gives the expression no meaning, which is the
  outcome `Fault.undefined_shift`.
* `std::array<EntityData, MaxEntities>` and the per-type static pools are total
  functions on slot indices; every access is guarded by the bounds assertions
  of the source.
* `std::priority_queue<usize>` is a list read through its maximum.
* A callback of `for_each` or `for_each_pair` is a function on its captured state and the
  world; the query loops return the list of their invocations of the callback, each with the
  world before and after it. A read of `entities_[i]` with `i >= MaxEntities` is the outcome
  `Fault.out_of_bounds`.
-/

namespace ecs

/-- Source: `using ComponentMask = u64`, a natural number below `2 ^ 64`. -/
abbrev ComponentMask := Nat

/-- Source: `constexpr usize MaxComponents = 64`. -/
def MaxComponents : Nat := 64

/-- Source: `constexpr usize MaxEntities = 1024`. -/
def MaxEntities : Nat := 1024

/-- Modelled from the spec: `pasta::CompositeId<EntityTag>` comes from the header
`cppasta/generational_index.hpp`, which is not in the repository. The spec gives
`EntityId = (index: unsigned, generation: unsigned)` with equality on both fields. -/
structure Entity where
  idx : Nat
  gen : Nat
deriving DecidableEq

/-- Modelled from the spec: `CompositeId::next_generation` is declared in the missing
header `cppasta/generational_index.hpp`; the spec says that destroy "increments that
slot's generation", the slot index being kept. -/
def Entity.next_generation (e : Entity) : Entity := ⟨e.idx, e.gen + 1⟩

/-- Outcomes that end the run: a failed `assert`, a shift the language leaves undefined, or a
read of `entities_[i]` past the end of the array. -/
inductive Fault where
  | assertion
  | undefined_shift
  | out_of_bounds
deriving DecidableEq

deriving instance DecidableEq for Except

/-- Source: `World::EntityData`. -/
structure EntityData where
  id : Entity
  cmask : ComponentMask
deriving DecidableEq

/-- Address of a pool cell: `&detail::component<T>(idx)` for the type with id `type_id`. -/
structure Cell where
  type_id : Nat
  idx : Nat
deriving DecidableEq

/-- The state of `World` together with the static pools of `detail::component<T>`
(`pool k i` is cell `i` of the pool of the type whose component id is `k`). -/
structure World (V : Type) where
  entities_ : Nat → EntityData
  free_list_ : List Nat
  next_entity_idx_ : Nat
  pool : Nat → Nat → V

/-- Conversion of an `int` to `u64` (return type of `component_mask`). -/
def to_u64 (i : Int) : Nat := (i % (2 : Int) ^ 64).toNat

/-- Operator `~` on a `u64`. -/
def u64_not (m : Nat) : Nat := 2 ^ 64 - 1 - m % 2 ^ 64

/-- The expression `1 << k` where `1` is an `int` of 32 bits: the value congruent to `2 ^ k` modulo
`2 ^ 32` in the range of `int`, undefined for `k >= 32`. -/
def shl_one (k : Nat) : Except Fault Int :=
  if k < 31 then .ok ((2 : Int) ^ k)
  else if k = 31 then .ok (-(2 : Int) ^ 31)
  else .error .undefined_shift

namespace detail

/-- Source: `detail::component_id<T>()`; `k` is the value of the static `id` of `T`. -/
def component_id (k : Nat) : Except Fault Nat :=
  if k < MaxComponents then .ok k else .error .assertion

/-- The `int` value of the fold `((1 << component_id<Ts>()) | ...)`. -/
def component_mask_int : List Nat → Except Fault Int
  | [] => .ok 0
  | [k] =>
    match component_id k with
    | .error f => .error f
    | .ok id => shl_one id
  | k :: ks =>
    match component_id k with
    | .error f => .error f
    | .ok id =>
      match shl_one id with
      | .error f => .error f
      | .ok a =>
        match component_mask_int ks with
        | .error f => .error f
        | .ok b => .ok (Int.lor a b)

/-- Source: `detail::component_mask<Ts...>()`, the fold converted to `u64`. -/
def component_mask (ks : List Nat) : Except Fault ComponentMask :=
  match component_mask_int ks with
  | .error f => .error f
  | .ok i => .ok (to_u64 i)

/-- Source: `detail::component<T>(idx)`, the reference to cell `idx` of the pool of type `k`. -/
def component (k idx : Nat) : Except Fault Cell :=
  if idx < MaxEntities then .ok ⟨k, idx⟩ else .error .assertion

end detail

/-- Source: `std::priority_queue<usize>::top`, the largest element. -/
def pq_top (l : List Nat) : Nat := l.foldl max 0

/-- Source: `std::priority_queue<usize>::pop`, which removes one copy of the top. -/
def pq_pop (l : List Nat) : List Nat := l.erase (pq_top l)

namespace World

variable {V : Type}

/-- Source: `World::World()`, with the zero-initialised static pools. -/
def fresh (zero : V) : World V :=
  { entities_ := fun i => ⟨⟨i, 1⟩, 0⟩
    free_list_ := []
    next_entity_idx_ := 0
    pool := fun _ _ => zero }

/-- Value stored in a pool cell. -/
def load (w : World V) (c : Cell) : V := w.pool c.type_id c.idx

/-- Source: `World::get_free_entity_idx`; returns the index and the changed world. -/
def get_free_entity_idx (w : World V) : Nat × World V :=
  if w.free_list_.isEmpty then
    (w.next_entity_idx_, { w with next_entity_idx_ := w.next_entity_idx_ + 1 })
  else
    (pq_top w.free_list_, { w with free_list_ := pq_pop w.free_list_ })

/-- Source: `World::create_entity`. -/
def create_entity (w : World V) : Except Fault (Entity × World V) :=
  let r := w.get_free_entity_idx
  if r.1 < MaxEntities then .ok ((r.2.entities_ r.1).id, r.2) else .error .assertion

/-- Source: `World::exists`. -/
def exists_ (w : World V) (entity : Entity) : Except Fault Bool :=
  if entity.idx < MaxEntities then
    .ok (decide ((w.entities_ entity.idx).id.gen = entity.gen))
  else .error .assertion

/-- Source: `World::destroy_entity`. -/
def destroy_entity (w : World V) (entity : Entity) : Except Fault (World V) :=
  match w.exists_ entity with
  | .error f => .error f
  | .ok false => .error .assertion
  | .ok true =>
    .ok { w with
      entities_ := Function.update w.entities_ entity.idx
        ⟨(w.entities_ entity.idx).id.next_generation, 0⟩
      free_list_ := entity.idx :: w.free_list_ }

/-- Source: `World::has_component<T>`, for the type with component id `k`; the right operand of
`&&` is evaluated only when `exists(entity)` is true. -/
def has_component (w : World V) (entity : Entity) (k : Nat) : Except Fault Bool :=
  if entity.idx < MaxEntities then
    match w.exists_ entity with
    | .error f => .error f
    | .ok false => .ok false
    | .ok true =>
      match detail.component_mask [k] with
      | .error f => .error f
      | .ok m => .ok (decide (((w.entities_ entity.idx).cmask &&& m) > 0))
  else .error .assertion

/-- Source: `World::add_component<T>`; returns the reference to the written cell and the new state. -/
def add_component (w : World V) (entity : Entity) (k : Nat) (v : V) :
    Except Fault (Cell × World V) :=
  match w.has_component entity k with
  | .error f => .error f
  | .ok true => .error .assertion
  | .ok false =>
    match detail.component_mask [k] with
    | .error f => .error f
    | .ok m =>
      match detail.component k entity.idx with
      | .error f => .error f
      | .ok c =>
        .ok (c, { w with
          entities_ := Function.update w.entities_ entity.idx
            ⟨(w.entities_ entity.idx).id, (w.entities_ entity.idx).cmask ||| m⟩
          pool := Function.update w.pool c.type_id (Function.update (w.pool c.type_id) c.idx v) })

/-- Source: `World::get_component<T>`; returns the reference to the cell. -/
def get_component (w : World V) (entity : Entity) (k : Nat) : Except Fault Cell :=
  match w.has_component entity k with
  | .error f => .error f
  | .ok false => .error .assertion
  | .ok true => detail.component k entity.idx

/-- Source: `World::try_get_component<T>`; `none` is `nullptr`. -/
def try_get_component (w : World V) (entity : Entity) (k : Nat) : Except Fault (Option Cell) :=
  match w.has_component entity k with
  | .error f => .error f
  | .ok false => .ok none
  | .ok true =>
    match detail.component k entity.idx with
    | .error f => .error f
    | .ok c => .ok (some c)

/-- Source: `World::remove_component<T>`. -/
def remove_component (w : World V) (entity : Entity) (k : Nat) : Except Fault (World V) :=
  match w.has_component entity k with
  | .error f => .error f
  | .ok false => .error .assertion
  | .ok true =>
    match detail.component_mask [k] with
    | .error f => .error f
    | .ok m =>
      .ok { w with
        entities_ := Function.update w.entities_ entity.idx
          ⟨(w.entities_ entity.idx).id, (w.entities_ entity.idx).cmask &&& u64_not m⟩ }

end World

/-- A call of the public interface: `create`, `destroy`, `add<T>`, `remove<T>`. -/
inductive Op (V : Type) where
  | create
  | destroy (entity : Entity)
  | add (entity : Entity) (k : Nat) (v : V)
  | remove (entity : Entity) (k : Nat)

/-- Effect of one call on the world; a fault ends the run. -/
def Op.step {V : Type} (w : World V) : Op V → Except Fault (World V)
  | .create =>
    match w.create_entity with
    | .error f => .error f
    | .ok r => .ok r.2
  | .destroy e => w.destroy_entity e
  | .add e k v =>
    match w.add_component e k v with
    | .error f => .error f
    | .ok r => .ok r.2
  | .remove e k => w.remove_component e k

/-- Effect of a sequence of calls, in order. -/
def run {V : Type} (w : World V) : List (Op V) → Except Fault (World V)
  | [] => .ok w
  | op :: ops =>
    match op.step w with
    | .error f => .error f
    | .ok w1 => run w1 ops

/-- States the program can be in: reached from the constructed world by a run of calls
none of which faulted. -/
def Reachable {V : Type} (zero : V) (w : World V) : Prop :=
  ∃ ops : List (Op V), run (World.fresh zero) ops = .ok w

/-- Slot `i` of the table stores an id whose index is `i`. -/
def SlotIdx {V : Type} (w : World V) : Prop := ∀ i, (w.entities_ i).id.idx = i

/-! ### Queries -/

/-- A callback `func(entity)` of `for_each`: it carries the state `S` it captured and may call
back into the world, so it maps the captured state and the world to new ones, or faults. -/
abbrev Callback (S V : Type) := Entity → S × World V → Except Fault (S × World V)

/-- A callback `func(a, b)` of `for_each_pair`. -/
abbrev PairCallback (S V : Type) := Entity → Entity → S × World V → Except Fault (S × World V)

/-- Record of one invocation `func(entities_[slot].id)` of a `for_each` pass, with the world
before and after it. -/
structure Visit (V : Type) where
  slot : Nat
  id : Entity
  before : World V
  after : World V

/-- Record of one invocation `func(entities_[first].id, entities_[second].id)` of a
`for_each_pair` pass, with the world before and after it. -/
structure PairVisit (V : Type) where
  first : Nat
  second : Nat
  first_id : Entity
  second_id : Entity
  before : World V
  after : World V

/-- The test `(entities_[i].cmask & mask) == mask` of both query loops. -/
def World.slot_matches {V : Type} (w : World V) (mask : ComponentMask) (i : Nat) : Bool :=
  (w.entities_ i).cmask &&& mask == mask

/-- The loop of `World::for_each_entity` from slot `i` on; the bound `next_entity_idx_` is read
in the current world at every step. The first argument counts the slots of the array from `i`
on (`i + fuel = MaxEntities`), so with no slot left a further step reads past the array. The
result lists the invocations of the callback in order. -/
def for_each_loop {S V : Type} (mask : ComponentMask) (func : Callback S V) :
    Nat → Nat → S × World V → Except Fault (List (Visit V) × S × World V)
  | 0, i, st => if i < st.2.next_entity_idx_ then .error .out_of_bounds else .ok ([], st)
  | fuel + 1, i, st =>
    if i < st.2.next_entity_idx_ then
      if st.2.slot_matches mask i then
        match func (st.2.entities_ i).id st with
        | .error f => .error f
        | .ok st1 =>
          match for_each_loop mask func fuel (i + 1) st1 with
          | .error f => .error f
          | .ok r => .ok (⟨i, (st.2.entities_ i).id, st.2, st1.2⟩ :: r.1, r.2)
      else for_each_loop mask func fuel (i + 1) st
    else .ok ([], st)

/-- Source: `World::for_each_entity<Components...>`, for the types with ids `ks`. -/
def World.for_each_entity {S V : Type} (w : World V) (ks : List Nat) (func : Callback S V)
    (s : S) : Except Fault (List (Visit V) × S × World V) :=
  match detail.component_mask ks with
  | .error f => .error f
  | .ok mask => for_each_loop mask func MaxEntities 0 (s, w)

/-- The inner loop of `World::for_each_entity_pair` for the outer slot `i`, from slot `j` on,
with the bound `last` fixed; `j + fuel = MaxEntities`. -/
def for_each_pair_inner {S V : Type} (mask : ComponentMask) (func : PairCallback S V)
    (last i : Nat) : Nat → Nat → S × World V → Except Fault (List (PairVisit V) × S × World V)
  | 0, j, st => if j < last then .error .out_of_bounds else .ok ([], st)
  | fuel + 1, j, st =>
    if j < last then
      if st.2.slot_matches mask j then
        match func (st.2.entities_ i).id (st.2.entities_ j).id st with
        | .error f => .error f
        | .ok st1 =>
          match for_each_pair_inner mask func last i fuel (j + 1) st1 with
          | .error f => .error f
          | .ok r =>
            .ok (⟨i, j, (st.2.entities_ i).id, (st.2.entities_ j).id, st.2, st1.2⟩ :: r.1, r.2)
      else for_each_pair_inner mask func last i fuel (j + 1) st
    else .ok ([], st)

/-- The outer loop of `World::for_each_entity_pair` from slot `i` on; `i + fuel =
MaxEntities`, which leaves `fuel - 1` slots for the inner loop that starts at `i + 1`. -/
def for_each_pair_outer {S V : Type} (mask : ComponentMask) (func : PairCallback S V)
    (last : Nat) : Nat → Nat → S × World V → Except Fault (List (PairVisit V) × S × World V)
  | 0, i, st => if i < last then .error .out_of_bounds else .ok ([], st)
  | fuel + 1, i, st =>
    if i < last then
      if st.2.slot_matches mask i then
        match for_each_pair_inner mask func last i fuel (i + 1) st with
        | .error f => .error f
        | .ok r1 =>
          match for_each_pair_outer mask func last fuel (i + 1) r1.2 with
          | .error f => .error f
          | .ok r2 => .ok (r1.1 ++ r2.1, r2.2)
      else for_each_pair_outer mask func last fuel (i + 1) st
    else .ok ([], st)

/-- Source: `World::for_each_entity_pair<Components...>`; `last` is read once, before the
loops. -/
def World.for_each_entity_pair {S V : Type} (w : World V) (ks : List Nat)
    (func : PairCallback S V) (s : S) : Except Fault (List (PairVisit V) × S × World V) :=
  match detail.component_mask ks with
  | .error f => .error f
  | .ok mask => for_each_pair_outer mask func w.next_entity_idx_ MaxEntities 0 (s, w)

/-- A callback that returns and leaves the world as it found it. -/
def ReadOnly {S V : Type} (func : Callback S V) : Prop :=
  ∀ e st, ∃ s1, func e st = .ok (s1, st.2)

/-- A pair callback that returns and leaves the world as it found it. -/
def PairReadOnly {S V : Type} (func : PairCallback S V) : Prop :=
  ∀ a b st, ∃ s1, func a b st = .ok (s1, st.2)

/-- The slots below `next_entity_idx_` that pass the test of the query loops, ascending. -/
def World.matching_slots {V : Type} (w : World V) (mask : ComponentMask) : List Nat :=
  (List.range w.next_entity_idx_).filter (fun i => w.slot_matches mask i)

/-- The pairs of a list in which the first member stands before the second, ordered by first
member and then by second member. -/
def ordered_pairs {α : Type} : List α → List (α × α)
  | [] => []
  | a :: l => l.map (fun b => (a, b)) ++ ordered_pairs l

/-- What the loop of `for_each` guarantees about its record, started at slot `i` in world `w`:
every recorded invocation is for the first slot from the current position on that passes the
test in the world the previous invocation left, it receives the current id of that slot, and
after the last invocation no slot up to `next_entity_idx_` passes the test. -/
def VisitsFrom {V : Type} (mask : ComponentMask) : Nat → World V → List (Visit V) → Prop
  | i, w, [] => ∀ k, i ≤ k → k < w.next_entity_idx_ → w.slot_matches mask k = false
  | i, w, v :: tr =>
    i ≤ v.slot ∧ v.slot < w.next_entity_idx_ ∧
    (∀ k, i ≤ k → k < v.slot → w.slot_matches mask k = false) ∧
    w.slot_matches mask v.slot = true ∧
    v.before = w ∧ v.id = (w.entities_ v.slot).id ∧
    VisitsFrom mask (v.slot + 1) v.after tr

/-- What the loops of `for_each_pair` guarantee about their record, started in world `w` and
ended in world `w_end`, when `cur` is the outer slot whose inner loop is running: every
invocation starts in the world the previous one left, its second slot passes the test in that
world, and its first slot either is the outer slot already running or passes the test too. -/
def PairChain {V : Type} (mask : ComponentMask) :
    Option Nat → World V → List (PairVisit V) → World V → Prop
  | _, w, [], w_end => w_end = w
  | cur, w, v :: tr, w_end =>
    v.before = w ∧ w.slot_matches mask v.second = true ∧
    (cur = some v.first ∨ w.slot_matches mask v.first = true) ∧
    PairChain mask (some v.first) v.after tr w_end

/-- The world after a run of calls on the constructed world (the constructed world itself
when the run faults); used to write down concrete scenarios. -/
def world_after {V : Type} (zero : V) (ops : List (Op V)) : World V :=
  match run (World.fresh zero) ops with
  | .ok w => w
  | .error _ => World.fresh zero

/-- A callback for concrete scenarios: invoked with the entity `trigger` it makes the calls
`ops`, in order; invoked with another entity it does nothing. -/
def run_on_visit {V : Type} (trigger : Entity) (ops : List (Op V)) : Callback Unit V :=
  fun a st =>
    if a = trigger then
      match run st.2 ops with
      | .ok w => .ok (st.1, w)
      | .error f => .error f
    else .ok st

/-- A pair callback for concrete scenarios: invoked with the pair `(first, second)` it makes
the calls `ops`, in order; invoked with another pair it does nothing. -/
def run_on_pair {V : Type} (first second : Entity) (ops : List (Op V)) : PairCallback Unit V :=
  fun a b st =>
    if a = first ∧ b = second then
      match run st.2 ops with
      | .ok w => .ok (st.1, w)
      | .error f => .error f
    else .ok st

/-- The result of `n` successive calls of `create()`: the ids returned, in order, and the
world after the last call. -/
def create_n {V : Type} : Nat → World V → Except Fault (List Entity × World V)
  | 0, w => .ok ([], w)
  | n + 1, w =>
    match w.create_entity with
    | .error f => .error f
    | .ok r =>
      match create_n n r.2 with
      | .error f => .error f
      | .ok r2 => .ok (r.1 :: r2.1, r2.2)

/-- The world at the moment `create_entity` returns or its assertion fails: the statement
`const auto idx = get_free_entity_idx();` has run, the assertion changes nothing. -/
def World.create_entity_state {V : Type} (w : World V) : World V := w.get_free_entity_idx.2

/-! ### Component type ids -/

/-- The static state behind `detail::component_id`: the counter of
`get_component_id_counter()` and, for each type, the static `id` of `component_id<T>()` once
its first call has initialised it. -/
structure Registry (T : Type) where
  counter : Nat
  id : T → Option Nat

/-- The registry at program start: the counter is 0 and no static `id` is initialised. -/
def Registry.fresh {T : Type} : Registry T := ⟨0, fun _ => none⟩

/-- Source: `detail::component_id<T>()` on the explicit static state: the first call for `T`
initialises `id` with `get_component_id_counter()++`; every call asserts `id < MaxComponents`
and returns `id`. -/
def Registry.component_id {T : Type} [DecidableEq T] (r : Registry T) (t : T) :
    Except Fault (Nat × Registry T) :=
  match r.id t with
  | some i => if i < MaxComponents then .ok (i, r) else .error .assertion
  | none =>
    if r.counter < MaxComponents then
      .ok (r.counter, ⟨r.counter + 1, Function.update r.id t (some r.counter)⟩)
    else .error .assertion

/-- The ids returned by successive calls of `component_id` for the types `calls`, in order,
and the registry after the last call. -/
def Registry.run {T : Type} [DecidableEq T] (r : Registry T) :
    List T → Except Fault (List Nat × Registry T)
  | [] => .ok ([], r)
  | t :: ts =>
    match r.component_id t with
    | .error f => .error f
    | .ok r1 =>
      match Registry.run r1.2 ts with
      | .error f => .error f
      | .ok r2 => .ok (r1.1 :: r2.1, r2.2)

/-- The types referenced so far, in the order of their first reference, after one more
reference. -/
def note_ref {T : Type} [DecidableEq T] (seen : List T) (t : T) : List T :=
  if t ∈ seen then seen else seen ++ [t]

/-- The distinct types of a list of references, in the order of their first reference. -/
def first_refs {T : Type} [DecidableEq T] (calls : List T) : List T :=
  calls.foldl note_ref []

/-- The registry `r` has served exactly the types `seen`, in this order of first reference:
the counter is their number and the static `id` of each is its position. -/
def Registry.Tracks {T : Type} [DecidableEq T] (r : Registry T) (seen : List T) : Prop :=
  r.counter = seen.length ∧ seen.Nodup ∧
  ∀ t, r.id t = if t ∈ seen then some (seen.indexOf t) else none

/-! ### Integer handles of the scripting binding (`src/hybrid-lua/main.cpp`) -/

/-- Modelled from the spec: `SlotMapKey<T> = pasta::CompositeId<T, uint16_t, uint16_t>`, whose
header `cppasta/generational_index.hpp` is not in the repository: an index and a generation,
both `uint16_t`, that the constructor stores and `idx()` and `gen()` return. -/
structure SlotMapKey where
  idx : Nat
  gen : Nat
deriving DecidableEq

/-- The constructor `SlotMapKey<T>(idx, gen)` called with two `uint32_t`: each argument is
converted to `uint16_t`. -/
def SlotMapKey.make (idx gen : Nat) : SlotMapKey := ⟨idx % 2 ^ 16, gen % 2 ^ 16⟩

/-- Conversion of an `int` to `uint32_t`. -/
def to_u32 (i : Int) : Nat := (i % (2 : Int) ^ 32).toNat

/-- The value an `int` expression takes when its mathematical value is `x`: the number
congruent to `x` modulo `2 ^ 32` in the range of `int`. -/
def wrap_int32 (x : Int) : Int := (x + (2 : Int) ^ 31) % (2 : Int) ^ 32 - (2 : Int) ^ 31

/-- Source: `key_to_int`, `return (v.gen() << 16) | v.idx();` with both operands promoted to
`int` and the result converted to `uint32_t`. -/
def key_to_int (v : SlotMapKey) : Nat :=
  to_u32 (Int.lor (wrap_int32 ((v.gen : Int) * (2 : Int) ^ 16)) (v.idx : Int))

/-- Source: `int_to_key`, `return SlotMapKey<T>(v & 0xffff, v >> 16);` on a `uint32_t`. -/
def int_to_key (v : Nat) : SlotMapKey := SlotMapKey.make (v &&& 0xffff) (v >>> 16)

/-! ### Runs on live entities -/

/-- The worlds reached from the constructed world by calls made only on live entities,
together with the list of the live entities: the ids `create()` has returned and that were not
destroyed since. -/
inductive LiveRun {V : Type} (zero : V) : World V → List Entity → Prop
  | fresh : LiveRun zero (World.fresh zero) []
  | create (w w1 : World V) (live : List Entity) (e : Entity) :
      LiveRun zero w live → w.create_entity = .ok (e, w1) → LiveRun zero w1 (e :: live)
  | destroy (w w1 : World V) (live : List Entity) (e : Entity) :
      LiveRun zero w live → e ∈ live → w.destroy_entity e = .ok w1 →
      LiveRun zero w1 (live.erase e)
  | add (w w1 : World V) (live : List Entity) (e : Entity) (k : Nat) (v : V) (c : Cell) :
      LiveRun zero w live → e ∈ live → w.add_component e k v = .ok (c, w1) →
      LiveRun zero w1 live
  | remove (w w1 : World V) (live : List Entity) (e : Entity) (k : Nat) :
      LiveRun zero w live → e ∈ live → w.remove_component e k = .ok w1 →
      LiveRun zero w1 live

/-- The bookkeeping a world keeps as long as every call is made on a live entity. -/
structure LiveInv {V : Type} (w : World V) (live : List Entity) : Prop where
  slot_idx : SlotIdx w
  next_le : w.next_entity_idx_ ≤ MaxEntities
  live_nodup : live.Nodup
  live_slot : ∀ e ∈ live, e.idx < w.next_entity_idx_ ∧ e.idx ∉ w.free_list_ ∧
    (w.entities_ e.idx).id = e
  free_nodup : w.free_list_.Nodup
  free_slot : ∀ j ∈ w.free_list_, j < w.next_entity_idx_ ∧ (w.entities_ j).cmask = 0
  unused_slot : ∀ i, w.next_entity_idx_ ≤ i → w.entities_ i = ⟨⟨i, 1⟩, 0⟩
  used_slot : ∀ i, i < w.next_entity_idx_ → i ∈ w.free_list_ ∨ (w.entities_ i).id ∈ live

end ecs

namespace ecs

variable {V : Type}

/-! ## Existence check -/

theorem exists_ok_true_iff (w : World V) (e : Entity) :
    w.exists_ e = .ok true ↔ e.idx < MaxEntities ∧ (w.entities_ e.idx).id.gen = e.gen := by
  unfold World.exists_
  by_cases h : e.idx < MaxEntities <;> simp [h]

theorem exists_ok_false_iff (w : World V) (e : Entity) :
    w.exists_ e = .ok false ↔ e.idx < MaxEntities ∧ (w.entities_ e.idx).id.gen ≠ e.gen := by
  unfold World.exists_
  by_cases h : e.idx < MaxEntities <;> simp [h]

theorem exists_error_iff (w : World V) (e : Entity) (f : Fault) :
    w.exists_ e = .error f ↔ MaxEntities ≤ e.idx ∧ f = .assertion := by
  unfold World.exists_
  by_cases h : e.idx < MaxEntities
  · simp [h]
  · simp [h, Nat.le_of_not_lt h, eq_comm]

/-! ## Effect of the operations on the entity table -/

theorem destroy_entity_ok (w w1 : World V) (e : Entity) (h : w.destroy_entity e = .ok w1) :
    w.exists_ e = .ok true ∧
    w1 = { w with
      entities_ := Function.update w.entities_ e.idx ⟨(w.entities_ e.idx).id.next_generation, 0⟩
      free_list_ := e.idx :: w.free_list_ } := by
  unfold World.destroy_entity at h
  split at h <;> simp_all

theorem add_component_ok (w w1 : World V) (e : Entity) (k : Nat) (v : V) (c : Cell)
    (h : w.add_component e k v = .ok (c, w1)) :
    w.has_component e k = .ok false ∧ c = ⟨k, e.idx⟩ ∧ e.idx < MaxEntities ∧
    ∃ m, detail.component_mask [k] = .ok m ∧
    w1 = { w with
      entities_ := Function.update w.entities_ e.idx
        ⟨(w.entities_ e.idx).id, (w.entities_ e.idx).cmask ||| m⟩
      pool := Function.update w.pool k (Function.update (w.pool k) e.idx v) } := by
  unfold World.add_component at h
  split at h
  · simp at h
  · simp at h
  · rename_i hh
    split at h
    · simp at h
    · rename_i m hm
      unfold detail.component at h
      by_cases hi : e.idx < MaxEntities
      · simp [hi] at h
        obtain ⟨hc, hw⟩ := h
        subst hc
        exact ⟨hh, rfl, hi, m, hm, hw.symm⟩
      · simp [hi] at h

theorem remove_component_ok (w w1 : World V) (e : Entity) (k : Nat)
    (h : w.remove_component e k = .ok w1) :
    w.has_component e k = .ok true ∧
    ∃ m, detail.component_mask [k] = .ok m ∧
    w1 = { w with
      entities_ := Function.update w.entities_ e.idx
        ⟨(w.entities_ e.idx).id, (w.entities_ e.idx).cmask &&& u64_not m⟩ } := by
  unfold World.remove_component at h
  split at h
  · simp at h
  · simp at h
  · rename_i hh
    split at h
    · simp at h
    · rename_i m hm
      simp at h
      exact ⟨hh, m, hm, h.symm⟩

theorem create_entity_ok (w w1 : World V) (e : Entity) (h : w.create_entity = .ok (e, w1)) :
    w1 = w.get_free_entity_idx.2 ∧ w.get_free_entity_idx.1 < MaxEntities ∧
    e = (w.entities_ w.get_free_entity_idx.1).id ∧ w1.entities_ = w.entities_ ∧
    w1.pool = w.pool := by
  unfold World.create_entity at h
  simp only at h
  split at h
  · rename_i hlt
    simp at h
    obtain ⟨he, hw⟩ := h
    subst hw
    refine ⟨rfl, hlt, ?_, ?_, ?_⟩
    · rw [← he]
      unfold World.get_free_entity_idx
      split <;> rfl
    · unfold World.get_free_entity_idx
      split <;> rfl
    · unfold World.get_free_entity_idx
      split <;> rfl
  · simp at h

theorem step_create_ok (w w1 : World V) (h : Op.step w (Op.create : Op V) = .ok w1) :
    ∃ e, w.create_entity = .ok (e, w1) := by
  simp only [Op.step] at h
  split at h
  · simp at h
  · rename_i r hr
    simp at h
    subst h
    exact ⟨r.1, hr⟩

theorem step_add_ok (w w1 : World V) (e : Entity) (k : Nat) (v : V)
    (h : Op.step w (Op.add e k v) = .ok w1) :
    ∃ c, w.add_component e k v = .ok (c, w1) := by
  simp only [Op.step] at h
  split at h
  · simp at h
  · rename_i r hr
    simp at h
    subst h
    exact ⟨r.1, hr⟩

/-- One call either keeps the id stored in slot `i`, or it is `destroy e` of the existing
entity `e` of that slot and the slot holds the next generation. -/
theorem step_id (w w1 : World V) (op : Op V) (h : op.step w = .ok w1) (i : Nat) :
    (w1.entities_ i).id = (w.entities_ i).id ∨
    (∃ e, op = .destroy e ∧ e.idx = i ∧ w.exists_ e = .ok true ∧
      (w1.entities_ i).id = (w.entities_ i).id.next_generation) := by
  cases op with
  | create =>
    obtain ⟨e, hc⟩ := step_create_ok w w1 h
    left
    rw [(create_entity_ok w w1 e hc).2.2.2.1]
  | destroy e =>
    have hd := destroy_entity_ok w w1 e h
    by_cases hi : e.idx = i
    · right
      refine ⟨e, rfl, hi, hd.1, ?_⟩
      rw [hd.2, ← hi]
      simp
    · left
      rw [hd.2]
      simp [Function.update, Ne.symm hi]
  | add e k v =>
    obtain ⟨c, ha⟩ := step_add_ok w w1 e k v h
    obtain ⟨-, -, -, m, -, hw⟩ := add_component_ok w w1 e k v c ha
    left
    rw [hw]
    by_cases hi : e.idx = i
    · subst hi
      simp
    · simp [Function.update, Ne.symm hi]
  | remove e k =>
    obtain ⟨-, m, -, hw⟩ := remove_component_ok w w1 e k h
    left
    rw [hw]
    by_cases hi : e.idx = i
    · subst hi
      simp
    · simp [Function.update, Ne.symm hi]

/-! ## Invariants along a run -/

theorem slotIdx_fresh (zero : V) : SlotIdx (World.fresh zero) := fun _ => rfl

theorem slotIdx_step (w w1 : World V) (op : Op V) (h : op.step w = .ok w1)
    (hw : SlotIdx w) : SlotIdx w1 := by
  intro i
  rcases step_id w w1 op h i with h1 | ⟨e, -, -, -, h1⟩
  · rw [h1]; exact hw i
  · rw [h1]; exact hw i

theorem run_cons_ok (w w2 : World V) (op : Op V) (ops : List (Op V))
    (h : run w (op :: ops) = .ok w2) : ∃ w1, op.step w = .ok w1 ∧ run w1 ops = .ok w2 := by
  simp only [run] at h
  split at h
  · simp at h
  · rename_i w1 h1
    exact ⟨w1, h1, h⟩

theorem run_append_ok (w w1 w2 : World V) (ops1 ops2 : List (Op V))
    (h1 : run w ops1 = .ok w1) (h2 : run w1 ops2 = .ok w2) : run w (ops1 ++ ops2) = .ok w2 := by
  induction ops1 generalizing w with
  | nil =>
    simp only [run] at h1
    cases h1
    simpa using h2
  | cons op ops ih =>
    obtain ⟨wm, hs, hr⟩ := run_cons_ok w w1 op ops h1
    simp only [List.cons_append, run, hs]
    exact ih wm hr

theorem slotIdx_run (w w2 : World V) (ops : List (Op V)) (h : run w ops = .ok w2)
    (hw : SlotIdx w) : SlotIdx w2 := by
  induction ops generalizing w with
  | nil =>
    simp only [run] at h
    cases h
    exact hw
  | cons op ops ih =>
    obtain ⟨w1, hs, hr⟩ := run_cons_ok w w2 op ops h
    exact ih w1 hr (slotIdx_step w w1 op hs hw)

theorem slotIdx_reachable (zero : V) (w : World V) (h : Reachable zero w) : SlotIdx w := by
  obtain ⟨ops, hr⟩ := h
  exact slotIdx_run _ w ops hr (slotIdx_fresh zero)

theorem reachable_run (zero : V) (w w2 : World V) (ops : List (Op V))
    (h : Reachable zero w) (hr : run w ops = .ok w2) : Reachable zero w2 := by
  obtain ⟨ops0, h0⟩ := h
  exact ⟨ops0 ++ ops, run_append_ok _ w w2 ops0 ops h0 hr⟩

/-- No call lowers the generation stored in a slot. -/
theorem step_gen_mono (w w1 : World V) (op : Op V) (h : op.step w = .ok w1) (i : Nat) :
    (w.entities_ i).id.gen ≤ (w1.entities_ i).id.gen := by
  rcases step_id w w1 op h i with h1 | ⟨e, -, -, -, h1⟩
  · rw [h1]
  · rw [h1]; exact Nat.le_succ _

theorem run_gen_mono (w w2 : World V) (ops : List (Op V)) (h : run w ops = .ok w2) (i : Nat) :
    (w.entities_ i).id.gen ≤ (w2.entities_ i).id.gen := by
  induction ops generalizing w with
  | nil =>
    simp only [run] at h
    cases h
    exact Nat.le_refl _
  | cons op ops ih =>
    obtain ⟨w1, hs, hr⟩ := run_cons_ok w w2 op ops h
    exact Nat.le_trans (step_gen_mono w w1 op hs i) (ih w1 hr)

/-- A call other than `destroy id` keeps the generation of the slot of an existing `id`. -/
theorem step_keeps_gen (w w1 : World V) (op : Op V) (id : Entity) (h : op.step w = .ok w1)
    (hne : op ≠ .destroy id) (hg : (w.entities_ id.idx).id.gen = id.gen) :
    (w1.entities_ id.idx).id.gen = id.gen := by
  rcases step_id w w1 op h id.idx with h1 | ⟨e, hop, hi, hex, -⟩
  · rw [h1]; exact hg
  · exfalso
    apply hne
    rw [hop]
    have hge := ((exists_ok_true_iff w e).1 hex).2
    rw [hi, hg] at hge
    cases e
    cases id
    simp_all

theorem run_keeps_gen (w w2 : World V) (ops : List (Op V)) (id : Entity)
    (h : run w ops = .ok w2) (hne : Op.destroy id ∉ ops)
    (hg : (w.entities_ id.idx).id.gen = id.gen) :
    (w2.entities_ id.idx).id.gen = id.gen := by
  induction ops generalizing w with
  | nil =>
    simp only [run] at h
    cases h
    exact hg
  | cons op ops ih =>
    obtain ⟨w1, hs, hr⟩ := run_cons_ok w w2 op ops h
    have h1 : op ≠ .destroy id := fun hh => hne (by simp [hh])
    have h2 : Op.destroy id ∉ ops := fun hh => hne (by simp [hh])
    exact ih w1 hr h2 (step_keeps_gen w w1 op id hs h1 hg)

/-! ## Free list -/

theorem le_foldl_max (l : List Nat) (a : Nat) : a ≤ l.foldl max a := by
  induction l generalizing a with
  | nil => exact Nat.le_refl _
  | cons b l ih => exact Nat.le_trans (Nat.le_max_left a b) (ih (max a b))

theorem foldl_max_eq (l : List Nat) (a : Nat) (h : ∀ j ∈ l, j ≤ a) : l.foldl max a = a := by
  induction l with
  | nil => rfl
  | cons b l ih =>
    have hb : b ≤ a := h b (by simp)
    simp only [List.foldl_cons, Nat.max_eq_left hb]
    exact ih (fun j hj => h j (by simp [hj]))

/-- An index pushed above every index of the free list is the top, and popping gives the
free list back. -/
theorem pq_push_above (l : List Nat) (a : Nat) (h : ∀ j ∈ l, j < a) :
    pq_top (a :: l) = a ∧ pq_pop (a :: l) = l := by
  have ht : pq_top (a :: l) = a := by
    unfold pq_top
    simp only [List.foldl_cons, Nat.zero_max]
    exact foldl_max_eq l a (fun j hj => Nat.le_of_lt (h j hj))
  refine ⟨ht, ?_⟩
  unfold pq_pop
  rw [ht]
  simp

/-! ## Entity lifecycle -/

/-- C1: in a reachable world, when `create()` succeeds and returns `id`, `exists(id)` is
true right afterwards, and it is still true after every run of create, add, remove and
destroy calls that contains no `destroy(id)`. -/
theorem created_id_exists_until_destroyed (zero : V) (w : World V) (hw : Reachable zero w)
    (id : Entity) (w1 : World V) (hc : w.create_entity = .ok (id, w1)) :
    w1.exists_ id = .ok true ∧
    ∀ (ops : List (Op V)) (w2 : World V), Op.destroy id ∉ ops → run w1 ops = .ok w2 →
      w2.exists_ id = .ok true := by
  obtain ⟨-, hlt, hid, hent, -⟩ := create_entity_ok w w1 id hc
  have hslot := slotIdx_reachable zero w hw
  have hidx : id.idx = w.get_free_entity_idx.1 := by rw [hid]; exact hslot _
  have hg : (w1.entities_ id.idx).id.gen = id.gen := by
    rw [hent, hidx, ← hid]
  have hin : id.idx < MaxEntities := by rw [hidx]; exact hlt
  refine ⟨(exists_ok_true_iff w1 id).2 ⟨hin, hg⟩, ?_⟩
  intro ops w2 hne hr
  exact (exists_ok_true_iff w2 id).2 ⟨hin, run_keeps_gen w1 w2 ops id hr hne hg⟩

/-- C2: after `destroy(id)` has succeeded, `exists(id)` is false, and it is false in every
state reached afterwards by any run of create, destroy, add and remove calls, however often
the slot is reused. -/
theorem destroyed_id_never_exists_again (w w1 : World V) (id : Entity)
    (hd : w.destroy_entity id = .ok w1) :
    w1.exists_ id = .ok false ∧
    ∀ (ops : List (Op V)) (w2 : World V), run w1 ops = .ok w2 → w2.exists_ id = .ok false := by
  obtain ⟨hex, hw1⟩ := destroy_entity_ok w w1 id hd
  obtain ⟨hin, hg⟩ := (exists_ok_true_iff w id).1 hex
  have hg1 : (w1.entities_ id.idx).id.gen = id.gen + 1 := by
    rw [hw1]
    simp [Entity.next_generation, hg]
  refine ⟨(exists_ok_false_iff w1 id).2 ⟨hin, by omega⟩, ?_⟩
  intro ops w2 hr
  have := run_gen_mono w1 w2 ops hr id.idx
  exact (exists_ok_false_iff w2 id).2 ⟨hin, by omega⟩

/-- C3: when `id` has been destroyed in a reachable world, every later successful `create()`
whose result has the slot index of `id` returns a generation greater than `id.gen`. -/
theorem reused_slot_has_greater_generation (zero : V) (w w1 w2 w3 : World V)
    (hw : Reachable zero w) (id id2 : Entity) (hd : w.destroy_entity id = .ok w1)
    (ops : List (Op V)) (hr : run w1 ops = .ok w2)
    (hc : w2.create_entity = .ok (id2, w3)) (hidx : id2.idx = id.idx) :
    id.gen < id2.gen := by
  obtain ⟨hex, hw1⟩ := destroy_entity_ok w w1 id hd
  obtain ⟨-, hg⟩ := (exists_ok_true_iff w id).1 hex
  have hg1 : (w1.entities_ id.idx).id.gen = id.gen + 1 := by
    rw [hw1]
    simp [Entity.next_generation, hg]
  have hmono := run_gen_mono w1 w2 ops hr id.idx
  have hreach1 : Reachable zero w1 :=
    reachable_run zero w w1 [Op.destroy id] hw (by simp [run, Op.step, hd])
  have hslot2 := slotIdx_reachable zero w2 (reachable_run zero w1 w2 ops hreach1 hr)
  obtain ⟨-, -, hid, -, -⟩ := create_entity_ok w2 w3 id2 hc
  have h2 : id2.idx = w2.get_free_entity_idx.1 := by rw [hid]; exact hslot2 _
  have h3 : id2.gen = (w2.entities_ id.idx).id.gen := by
    rw [← hidx, h2, ← hid]
  omega

/-- C4: in a reachable world, when `destroy(id)` succeeds and `id.idx` is larger than every
index of the free list, the next `create()` returns the id `(id.idx, id.gen + 1)`; then
`exists` of the new id is true and `exists(id)` is false. -/
theorem destroy_then_create_reuses_slot (zero : V) (w w1 : World V) (hw : Reachable zero w)
    (id : Entity) (habove : ∀ j ∈ w.free_list_, j < id.idx)
    (hd : w.destroy_entity id = .ok w1) :
    ∃ w2, w1.create_entity = .ok (⟨id.idx, id.gen + 1⟩, w2) ∧
      w2.exists_ ⟨id.idx, id.gen + 1⟩ = .ok true ∧ w2.exists_ id = .ok false := by
  obtain ⟨hex, hw1⟩ := destroy_entity_ok w w1 id hd
  obtain ⟨hin, hg⟩ := (exists_ok_true_iff w id).1 hex
  have hslot := slotIdx_reachable zero w hw id.idx
  obtain ⟨htop, hpop⟩ := pq_push_above w.free_list_ id.idx habove
  have hfl : w1.free_list_ = id.idx :: w.free_list_ := by rw [hw1]
  have hfree : w1.get_free_entity_idx = (id.idx, { w1 with free_list_ := w.free_list_ }) := by
    unfold World.get_free_entity_idx
    rw [hfl, htop, hpop]
    simp
  have hstored : (w1.entities_ id.idx).id = ⟨id.idx, id.gen + 1⟩ := by
    rw [hw1]
    simp [Entity.next_generation, hg, hslot]
  refine ⟨{ w1 with free_list_ := w.free_list_ }, ?_, ?_, ?_⟩
  · unfold World.create_entity
    simp only [hfree, hin, if_true, hstored]
  · exact (exists_ok_true_iff _ _).2 ⟨hin, by simp [hstored]⟩
  · exact (exists_ok_false_iff _ _).2 ⟨hin, by simp [hstored]⟩

/-- C5 (as amended): `exists(id)` returns true exactly when `id.idx < MaxEntities` and the
generation stored in slot `id.idx` equals `id.gen`; it returns false exactly when the index is
in range and the generations differ; for an index `>= MaxEntities` the bounds assertion fails
and no value is returned. -/
theorem exists_result (w : World V) (id : Entity) :
    (w.exists_ id = .ok true ↔ id.idx < MaxEntities ∧ (w.entities_ id.idx).id.gen = id.gen) ∧
    (w.exists_ id = .ok false ↔ id.idx < MaxEntities ∧ (w.entities_ id.idx).id.gen ≠ id.gen) ∧
    (w.exists_ id = .error .assertion ↔ MaxEntities ≤ id.idx) := by
  refine ⟨exists_ok_true_iff w id, exists_ok_false_iff w id, ?_⟩
  rw [exists_error_iff]
  simp

/-- C5 fails as stated: on the constructed world, `exists` of the id `(1024, 1)`, whose index
is `MaxEntities`, does not return false; the assertion on the index fails. -/
theorem exists_out_of_range_asserts :
    (World.fresh (0 : Nat)).exists_ ⟨1024, 1⟩ = .error .assertion ∧
    ¬ ((1024 : Nat) ≥ MaxEntities → (World.fresh (0 : Nat)).exists_ ⟨1024, 1⟩ = .ok false) := by
  decide

/-- Witness of C1: the first `create()` on the constructed world returns `(0, 1)`. -/
theorem created_id_exists_until_destroyed_witness :
    Reachable (0 : Nat) (World.fresh 0) ∧
    (World.fresh (0 : Nat)).create_entity
      = .ok (⟨0, 1⟩, (World.fresh (0 : Nat)).get_free_entity_idx.2) ∧
    ((World.fresh (0 : Nat)).get_free_entity_idx.2.exists_ ⟨0, 1⟩ = .ok true ∧
      ∀ (ops : List (Op Nat)) (w2 : World Nat), Op.destroy ⟨0, 1⟩ ∉ ops →
        run (World.fresh (0 : Nat)).get_free_entity_idx.2 ops = .ok w2 →
        w2.exists_ ⟨0, 1⟩ = .ok true) :=
  ⟨⟨[], rfl⟩, rfl,
    created_id_exists_until_destroyed 0 (World.fresh 0) ⟨[], rfl⟩ ⟨0, 1⟩ _ rfl⟩

/-- Witness of C2: destroying the first entity of the constructed world. -/
theorem destroyed_id_never_exists_again_witness :
    ∃ w1 : World Nat,
      (World.fresh (0 : Nat)).get_free_entity_idx.2.destroy_entity ⟨0, 1⟩ = .ok w1 ∧
      (w1.exists_ ⟨0, 1⟩ = .ok false ∧
        ∀ (ops : List (Op Nat)) (w2 : World Nat), run w1 ops = .ok w2 →
          w2.exists_ ⟨0, 1⟩ = .ok false) :=
  ⟨_, rfl,
    destroyed_id_never_exists_again (World.fresh (0 : Nat)).get_free_entity_idx.2 _ ⟨0, 1⟩ rfl⟩

/-- Witness of C3: slot 0 is destroyed, reused as `(0, 2)`, destroyed again, and the next
`create()` returns `(0, 3)`. -/
theorem reused_slot_has_greater_generation_witness :
    ∃ w1 w2 w3 : World Nat,
      Reachable (0 : Nat) (World.fresh (0 : Nat)).get_free_entity_idx.2 ∧
      (World.fresh (0 : Nat)).get_free_entity_idx.2.destroy_entity ⟨0, 1⟩ = .ok w1 ∧
      run w1 [Op.create, Op.destroy ⟨0, 2⟩] = .ok w2 ∧
      w2.create_entity = .ok (⟨0, 3⟩, w3) ∧
      (⟨0, 1⟩ : Entity).gen < (⟨0, 3⟩ : Entity).gen :=
  ⟨_, _, _, ⟨[Op.create], rfl⟩, rfl, rfl, rfl,
    reused_slot_has_greater_generation 0 (World.fresh (0 : Nat)).get_free_entity_idx.2 _ _ _
      ⟨[Op.create], rfl⟩ ⟨0, 1⟩ ⟨0, 3⟩ rfl [Op.create, Op.destroy ⟨0, 2⟩] rfl rfl rfl⟩

/-- Witness of C4: two entities are created, the first is destroyed, and the next `create()`
returns `(0, 2)`. -/
theorem destroy_then_create_reuses_slot_witness :
    ∃ w1 : World Nat,
      Reachable (0 : Nat) (World.fresh (0 : Nat)).get_free_entity_idx.2.get_free_entity_idx.2 ∧
      (∀ j ∈ (World.fresh (0 : Nat)).get_free_entity_idx.2.get_free_entity_idx.2.free_list_,
        j < (⟨0, 1⟩ : Entity).idx) ∧
      (World.fresh (0 : Nat)).get_free_entity_idx.2.get_free_entity_idx.2.destroy_entity ⟨0, 1⟩
        = .ok w1 ∧
      ∃ w2, w1.create_entity = .ok (⟨0, 2⟩, w2) ∧
        w2.exists_ ⟨0, 2⟩ = .ok true ∧ w2.exists_ ⟨0, 1⟩ = .ok false :=
  ⟨_, ⟨[Op.create, Op.create], rfl⟩, by simp [World.get_free_entity_idx, World.fresh], rfl,
    destroy_then_create_reuses_slot 0
      (World.fresh (0 : Nat)).get_free_entity_idx.2.get_free_entity_idx.2 _
      ⟨[Op.create, Op.create], rfl⟩ ⟨0, 1⟩
      (by simp [World.get_free_entity_idx, World.fresh]) rfl⟩

/-! ## Component masks -/

/-- The mask of a single type: bit `k` for `k < 31`, bits 31 to 63 for `k = 31`; no other
type id has a mask. -/
theorem component_mask_single (k : Nat) (m : ComponentMask)
    (h : detail.component_mask [k] = .ok m) :
    (k < 31 ∧ m = 2 ^ k) ∨ (k = 31 ∧ m = 2 ^ 64 - 2 ^ 31) := by
  by_cases hk : k < 32
  · interval_cases k <;> simp [detail.component_mask, detail.component_mask_int,
      detail.component_id, MaxComponents, shl_one, to_u64] at h <;> subst h <;> decide
  · exfalso
    by_cases hk2 : k < 64
    · have h31 : ¬ k < 31 := by omega
      have h31b : ¬ k = 31 := by omega
      simp [detail.component_mask, detail.component_mask_int, detail.component_id,
        MaxComponents, shl_one, hk2, h31, h31b] at h
    · simp [detail.component_mask, detail.component_mask_int, detail.component_id,
        MaxComponents, hk2] at h

theorem component_mask_pos (k : Nat) (m : ComponentMask)
    (h : detail.component_mask [k] = .ok m) : 0 < m := by
  rcases component_mask_single k m h with ⟨-, hm⟩ | ⟨-, hm⟩
  · rw [hm]; exact Nat.pow_pos (by decide)
  · rw [hm]; decide

theorem component_mask_lt (k : Nat) (m : ComponentMask)
    (h : detail.component_mask [k] = .ok m) : m < 2 ^ 64 := by
  rcases component_mask_single k m h with ⟨hk, hm⟩ | ⟨-, hm⟩
  · rw [hm]; exact Nat.pow_lt_pow_right (by decide) (by omega)
  · rw [hm]; decide

theorem lor_land_self_pos (a m : Nat) (hm : 0 < m) : 0 < (a ||| m) &&& m := by
  rw [Nat.and_distrib_right, Nat.and_self]
  rcases Nat.eq_zero_or_pos ((a &&& m) ||| m) with h0 | hp
  · exfalso
    have : m = 0 := by
      apply Nat.eq_of_testBit_eq
      intro i
      have := congrArg (fun x => x.testBit i) h0
      simp at this
      simp [this.2]
    omega
  · exact hp

theorem land_not_land_self (a m : Nat) (hm : m < 2 ^ 64) : (a &&& u64_not m) &&& m = 0 := by
  apply Nat.eq_of_testBit_eq
  intro i
  have h1 : u64_not m = 2 ^ 64 - (m + 1) := by
    unfold u64_not
    rw [Nat.mod_eq_of_lt hm]
    omega
  rw [h1]
  simp only [Nat.testBit_and, Nat.testBit_two_pow_sub_succ hm, Nat.zero_testBit]
  cases Nat.testBit m i <;> simp

/-! ## Component operations -/

theorem has_component_ok_true (w : World V) (e : Entity) (k : Nat)
    (h : w.has_component e k = .ok true) :
    w.exists_ e = .ok true ∧ e.idx < MaxEntities ∧
    ∃ m, detail.component_mask [k] = .ok m ∧ 0 < (w.entities_ e.idx).cmask &&& m := by
  unfold World.has_component at h
  split at h
  · rename_i hi
    split at h
    · simp at h
    · simp at h
    · rename_i hex
      split at h
      · simp at h
      · rename_i m hm
        simp at h
        exact ⟨hex, hi, m, hm, h⟩
  · simp at h

theorem has_component_of_not_exists (w : World V) (e : Entity) (k : Nat)
    (h : w.exists_ e = .ok false) : w.has_component e k = .ok false := by
  have hi := ((exists_ok_false_iff w e).1 h).1
  unfold World.has_component
  simp [hi, h]

theorem has_component_of_exists (w : World V) (e : Entity) (k : Nat)
    (h : w.exists_ e = .ok true) :
    w.has_component e k =
      match detail.component_mask [k] with
      | .error f => .error f
      | .ok m => .ok (decide (((w.entities_ e.idx).cmask &&& m) > 0)) := by
  have hi := ((exists_ok_true_iff w e).1 h).1
  unfold World.has_component
  simp [hi, h]

/-- For an in-range id, `try_get_component` and `get_component` are decided by
`has_component` alone and name the same cell. -/
theorem try_get_component_eq (w : World V) (e : Entity) (k : Nat) (hi : e.idx < MaxEntities) :
    (w.try_get_component e k =
      match w.has_component e k with
      | .error f => .error f
      | .ok false => .ok none
      | .ok true => .ok (some ⟨k, e.idx⟩)) ∧
    (w.get_component e k =
      match w.has_component e k with
      | .error f => .error f
      | .ok false => .error .assertion
      | .ok true => .ok ⟨k, e.idx⟩) := by
  unfold World.try_get_component World.get_component detail.component
  simp only [hi, if_true]
  exact ⟨trivial, trivial⟩

/-- What a successful `remove_component` leaves behind: the mask of the slot loses the bits
of the mask of the type, and nothing else of the world differs. -/
theorem remove_component_frame (w : World V) (e : Entity) (k : Nat)
    (hh : w.has_component e k = .ok true) :
    ∃ m w1, detail.component_mask [k] = .ok m ∧ w.remove_component e k = .ok w1 ∧
      w1.has_component e k = .ok false ∧
      (w1.entities_ e.idx).id = (w.entities_ e.idx).id ∧
      (w1.entities_ e.idx).cmask = (w.entities_ e.idx).cmask &&& u64_not m ∧
      (∀ i, i ≠ e.idx → w1.entities_ i = w.entities_ i) ∧
      w1.pool = w.pool ∧ w1.free_list_ = w.free_list_ ∧
      w1.next_entity_idx_ = w.next_entity_idx_ := by
  obtain ⟨hex, hi, m, hm, -⟩ := has_component_ok_true w e k hh
  obtain ⟨-, hg⟩ := (exists_ok_true_iff w e).1 hex
  obtain ⟨w1, hrem⟩ : ∃ w1, w.remove_component e k = .ok w1 := by
    unfold World.remove_component
    simp [hh, hm]
  obtain ⟨-, m2, hm2, hw1⟩ := remove_component_ok w w1 e k hrem
  have hmm : m2 = m := by
    rw [hm] at hm2
    cases hm2
    rfl
  subst hmm
  have hid : (w1.entities_ e.idx).id = (w.entities_ e.idx).id := by rw [hw1]; simp
  have hmask : (w1.entities_ e.idx).cmask = (w.entities_ e.idx).cmask &&& u64_not m2 := by
    rw [hw1]; simp
  have hex1 : w1.exists_ e = .ok true :=
    (exists_ok_true_iff w1 e).2 ⟨hi, by rw [hid]; exact hg⟩
  refine ⟨m2, w1, hm, hrem, ?_, hid, hmask, ?_, ?_, ?_, ?_⟩
  · rw [has_component_of_exists w1 e k hex1, hm, hmask]
    simp [land_not_land_self _ m2 (component_mask_lt k m2 hm)]
  · intro i hne
    rw [hw1]
    simp [Function.update, hne]
  · rw [hw1]
  · rw [hw1]
  · rw [hw1]

/-- For a type id below 31, `remove_component` clears bit `k` of the slot and keeps each of
the other 63 bits of its mask. -/
theorem remove_component_keeps_other_bits (w w1 : World V) (e : Entity) (k : Nat)
    (hk : k < 31) (h : w.remove_component e k = .ok w1) (j : Nat) (hj : j < 64)
    (hjk : j ≠ k) :
    (w1.entities_ e.idx).cmask.testBit j = (w.entities_ e.idx).cmask.testBit j := by
  obtain ⟨-, m, hm, hw1⟩ := remove_component_ok w w1 e k h
  have hm2 : m = 2 ^ k := by
    rcases component_mask_single k m hm with ⟨-, h1⟩ | ⟨h1, -⟩
    · exact h1
    · omega
  have hlt : 2 ^ k < 2 ^ 64 := Nat.pow_lt_pow_right (by decide) (by omega)
  have hnot : u64_not m = 2 ^ 64 - (2 ^ k + 1) := by
    unfold u64_not
    rw [hm2, Nat.mod_eq_of_lt hlt]
    omega
  rw [hw1]
  simp only [Function.update_same, Nat.testBit_and, hnot, Nat.testBit_two_pow_sub_succ hlt,
    Nat.testBit_two_pow, hj, decide_True, Bool.true_and]
  have : ¬ k = j := fun hh => hjk hh.symm
  simp [this]

/-- C6: for an existing `id` and a type `k` with `has<T>(id)` false, `add<T>(id, v)` succeeds;
afterwards `has<T>(id)` is true and `get<T>(id)` is the cell just written, which holds `v`. -/
theorem add_then_has_and_get (w : World V) (id : Entity) (k : Nat) (v : V)
    (hex : w.exists_ id = .ok true) (hh : w.has_component id k = .ok false) :
    ∃ c w1, w.add_component id k v = .ok (c, w1) ∧ w1.has_component id k = .ok true ∧
      w1.get_component id k = .ok c ∧ w1.load c = v := by
  obtain ⟨hi, hg⟩ := (exists_ok_true_iff w id).1 hex
  have hh2 := hh
  rw [has_component_of_exists w id k hex] at hh2
  cases hm : detail.component_mask [k] with
  | error f => rw [hm] at hh2; simp at hh2
  | ok m =>
    have hex1 : World.exists_ { w with
        entities_ := Function.update w.entities_ id.idx
          ⟨(w.entities_ id.idx).id, (w.entities_ id.idx).cmask ||| m⟩
        pool := Function.update w.pool k (Function.update (w.pool k) id.idx v) } id
        = .ok true :=
      (exists_ok_true_iff _ id).2 ⟨hi, by simp [hg]⟩
    have hhas1 : World.has_component { w with
        entities_ := Function.update w.entities_ id.idx
          ⟨(w.entities_ id.idx).id, (w.entities_ id.idx).cmask ||| m⟩
        pool := Function.update w.pool k (Function.update (w.pool k) id.idx v) } id k
        = .ok true := by
      rw [has_component_of_exists _ id k hex1, hm]
      simp [lor_land_self_pos _ m (component_mask_pos k m hm)]
    refine ⟨⟨k, id.idx⟩, _, ?_, hhas1, ?_, ?_⟩
    · unfold World.add_component detail.component
      simp [hh, hm, hi]
    · rw [(try_get_component_eq _ id k hi).2, hhas1]
    · simp [World.load]

/-- Witness of C6: a component of type 0 is added to the first entity of the constructed
world. -/
theorem add_then_has_and_get_witness :
    (World.fresh (0 : Nat)).get_free_entity_idx.2.exists_ ⟨0, 1⟩ = .ok true ∧
    (World.fresh (0 : Nat)).get_free_entity_idx.2.has_component ⟨0, 1⟩ 0 = .ok false ∧
    ∃ c w1, (World.fresh (0 : Nat)).get_free_entity_idx.2.add_component ⟨0, 1⟩ 0 7 = .ok (c, w1) ∧
      w1.has_component ⟨0, 1⟩ 0 = .ok true ∧ w1.get_component ⟨0, 1⟩ 0 = .ok c ∧
      w1.load c = 7 :=
  ⟨rfl, rfl,
    add_then_has_and_get (World.fresh (0 : Nat)).get_free_entity_idx.2 ⟨0, 1⟩ 0 7 rfl rfl⟩

/-- C7 at the type with id 31: after `create()` and `add<T>` on the new entity, `has<T>` is
true and bit 32 of the mask of the slot is set; `remove<T>` then clears bit 32 as well, a bit
that is not the bit of `T`. -/
theorem remove_type_31_clears_bit_32 :
    ∃ w w1 : World Nat,
      run (World.fresh 0) [Op.create, Op.add ⟨0, 1⟩ 31 5] = .ok w ∧
      w.has_component ⟨0, 1⟩ 31 = .ok true ∧
      (w.entities_ 0).cmask.testBit 32 = true ∧
      w.remove_component ⟨0, 1⟩ 31 = .ok w1 ∧
      (w1.entities_ 0).cmask.testBit 32 = false :=
  ⟨_, _, rfl, by decide, by decide, rfl, by decide⟩

/-- C8 at the type with id 32: on the existing entity `(0, 1)` the call `try_get<T>` has no
defined result, because `has_component` evaluates `1 << 32` on an `int`. -/
theorem try_get_type_32_undefined :
    ∃ w : World Nat,
      run (World.fresh 0) [Op.create] = .ok w ∧
      (⟨0, 1⟩ : Entity).idx < MaxEntities ∧
      w.exists_ ⟨0, 1⟩ = .ok true ∧
      w.try_get_component ⟨0, 1⟩ 32 = .error .undefined_shift :=
  ⟨_, rfl, by decide, by decide, by decide⟩

/-- C9 on a stale id: slot 0 is created, destroyed and created again, so `(0, 1)` does not
exist and `(0, 2)` does; `add<T>((0, 1), 7)` for the type with id 0 does not fail: it sets
the bit in slot 0 and writes the cell, so that `has<T>((0, 2))` becomes true. -/
theorem add_on_stale_id_succeeds :
    ∃ (w w1 : World Nat) (c : Cell),
      run (World.fresh 0) [Op.create, Op.destroy ⟨0, 1⟩, Op.create] = .ok w ∧
      (⟨0, 1⟩ : Entity).idx < MaxEntities ∧
      w.exists_ ⟨0, 1⟩ = .ok false ∧
      w.has_component ⟨0, 2⟩ 0 = .ok false ∧
      w.add_component ⟨0, 1⟩ 0 7 = .ok (c, w1) ∧
      (w1.entities_ 0).cmask = 1 ∧
      w1.load c = 7 ∧
      w1.has_component ⟨0, 2⟩ 0 = .ok true :=
  ⟨_, _, _, rfl, by decide, by decide, by decide, rfl, by decide, by decide, by decide⟩

/-- After a successful `destroy(id)`, `exists(id)` is false in every later state. -/
theorem missing_after_destroy_run (w w1 w2 : World V) (id : Entity) (ops : List (Op V))
    (hd : w.destroy_entity id = .ok w1) (hr : run w1 ops = .ok w2) :
    w2.exists_ id = .ok false := by
  obtain ⟨hex, hw1⟩ := destroy_entity_ok w w1 id hd
  obtain ⟨hin, hg⟩ := (exists_ok_true_iff w id).1 hex
  have hg1 : (w1.entities_ id.idx).id.gen = id.gen + 1 := by
    rw [hw1]
    simp [Entity.next_generation, hg]
  have := run_gen_mono w1 w2 ops hr id.idx
  exact (exists_ok_false_iff w2 id).2 ⟨hin, by omega⟩

/-- C10: on an in-range id for which `exists` is false, `destroy`, `get<T>` and `remove<T>`
each fail their assertion; in particular, after a successful `destroy(id)` a second
`destroy(id)` fails, also after any run of further calls. -/
theorem calls_on_missing_id_assert (w : World V) (id : Entity) :
    (id.idx < MaxEntities → w.exists_ id = .ok false →
      w.destroy_entity id = .error .assertion ∧
      ∀ k, w.get_component id k = .error .assertion ∧
        w.remove_component id k = .error .assertion) ∧
    (∀ w1, w.destroy_entity id = .ok w1 →
      w1.destroy_entity id = .error .assertion ∧
      ∀ (ops : List (Op V)) (w2 : World V), run w1 ops = .ok w2 →
        w2.destroy_entity id = .error .assertion) := by
  have key : ∀ (u : World V), u.exists_ id = .ok false →
      u.destroy_entity id = .error .assertion := by
    intro u hu
    unfold World.destroy_entity
    simp [hu]
  refine ⟨?_, ?_⟩
  · intro _ hne
    refine ⟨key w hne, ?_⟩
    intro k
    have hh := has_component_of_not_exists w id k hne
    unfold World.get_component World.remove_component
    simp [hh]
  · intro w1 hd
    exact ⟨key w1 (missing_after_destroy_run w w1 w1 id [] hd rfl),
      fun ops w2 hr => key w2 (missing_after_destroy_run w w1 w2 id ops hd hr)⟩

/-- Witness of C10: `(0, 2)` is in range and does not exist in the constructed world after
one `create()`, and `(0, 1)` is destroyed twice. -/
theorem calls_on_missing_id_assert_witness :
    ((⟨0, 2⟩ : Entity).idx < MaxEntities ∧
      (World.fresh (0 : Nat)).get_free_entity_idx.2.exists_ ⟨0, 2⟩ = .ok false ∧
      (World.fresh (0 : Nat)).get_free_entity_idx.2.destroy_entity ⟨0, 2⟩ = .error .assertion ∧
      ∀ k, (World.fresh (0 : Nat)).get_free_entity_idx.2.get_component ⟨0, 2⟩ k
          = .error .assertion ∧
        (World.fresh (0 : Nat)).get_free_entity_idx.2.remove_component ⟨0, 2⟩ k
          = .error .assertion) ∧
    ∃ w1 : World Nat,
      (World.fresh (0 : Nat)).get_free_entity_idx.2.destroy_entity ⟨0, 1⟩ = .ok w1 ∧
      w1.destroy_entity ⟨0, 1⟩ = .error .assertion :=
  ⟨⟨by decide, rfl,
      (calls_on_missing_id_assert (World.fresh (0 : Nat)).get_free_entity_idx.2 ⟨0, 2⟩).1
        (by decide) rfl⟩,
    _, rfl,
      ((calls_on_missing_id_assert (World.fresh (0 : Nat)).get_free_entity_idx.2 ⟨0, 1⟩).2
        _ rfl).1⟩

/-! ## Slot allocation -/

theorem foldl_max_mem (l : List Nat) (a : Nat) : l.foldl max a = a ∨ l.foldl max a ∈ l := by
  induction l generalizing a with
  | nil => left; rfl
  | cons b l ih =>
    simp only [List.foldl_cons, List.mem_cons]
    rcases ih (max a b) with h | h
    · rw [h]
      rcases Nat.le_total a b with hab | hab
      · right; left; exact Nat.max_eq_right hab
      · left; exact Nat.max_eq_left hab
    · right; right; exact h

theorem mem_le_foldl_max (l : List Nat) (a j : Nat) (hj : j ∈ l) : j ≤ l.foldl max a := by
  induction l generalizing a with
  | nil => simp at hj
  | cons b l ih =>
    simp only [List.foldl_cons]
    rcases List.mem_cons.1 hj with h | h
    · subst h
      exact Nat.le_trans (Nat.le_max_right a j) (le_foldl_max l (max a j))
    · exact ih (max a b) h

/-- The top of a non-empty queue is one of its elements and bounds all of them. -/
theorem pq_top_spec (l : List Nat) (hne : l ≠ []) :
    pq_top l ∈ l ∧ ∀ j ∈ l, j ≤ pq_top l := by
  refine ⟨?_, fun j hj => mem_le_foldl_max l 0 j hj⟩
  rcases foldl_max_mem l 0 with h | h
  · cases l with
    | nil => exact absurd rfl hne
    | cons b l =>
      have hb : b ≤ pq_top (b :: l) := mem_le_foldl_max (b :: l) 0 b (by simp)
      unfold pq_top at hb ⊢
      rw [h] at hb ⊢
      have : b = 0 := by omega
      simp [this]
  · exact h

/-- The top depends on the elements of the queue only, not on their order. -/
theorem pq_top_perm (l l2 : List Nat) (h : l2.Perm l) : pq_top l2 = pq_top l := by
  by_cases hne : l = []
  · subst hne
    rw [List.Perm.eq_nil h]
  · have hne2 : l2 ≠ [] := fun h2 => hne (by rw [h2] at h; exact List.Perm.eq_nil h.symm)
    obtain ⟨hm, hb⟩ := pq_top_spec l hne
    obtain ⟨hm2, hb2⟩ := pq_top_spec l2 hne2
    exact Nat.le_antisymm (hb _ (h.subset hm2)) (hb2 _ (h.symm.subset hm))

theorem get_free_entity_idx_nil (w : World V) (h : w.free_list_ = []) :
    w.get_free_entity_idx =
      (w.next_entity_idx_, { w with next_entity_idx_ := w.next_entity_idx_ + 1 }) := by
  unfold World.get_free_entity_idx
  simp [h]

theorem get_free_entity_idx_ne_nil (w : World V) (h : w.free_list_ ≠ []) :
    w.get_free_entity_idx =
      (pq_top w.free_list_, { w with free_list_ := pq_pop w.free_list_ }) := by
  unfold World.get_free_entity_idx
  cases hl : w.free_list_ with
  | nil => exact absurd hl h
  | cons a l => simp

/-- The bounds every reached world keeps: the high-water mark does not pass the capacity and
every free index is a slot of the array. -/
theorem step_bounds (w w1 : World V) (op : Op V) (h : op.step w = .ok w1)
    (hb : w.next_entity_idx_ ≤ MaxEntities ∧ ∀ j ∈ w.free_list_, j < MaxEntities) :
    w1.next_entity_idx_ ≤ MaxEntities ∧ ∀ j ∈ w1.free_list_, j < MaxEntities := by
  cases op with
  | create =>
    obtain ⟨e, hc⟩ := step_create_ok w w1 h
    obtain ⟨hw1, hlt, -, -, -⟩ := create_entity_ok w w1 e hc
    by_cases hf : w.free_list_ = []
    · rw [get_free_entity_idx_nil w hf] at hw1 hlt
      subst hw1
      simp only at hlt ⊢
      exact ⟨hlt, by simp [hf]⟩
    · rw [get_free_entity_idx_ne_nil w hf] at hw1
      subst hw1
      refine ⟨hb.1, fun j hj => hb.2 j ?_⟩
      exact List.mem_of_mem_erase hj
  | destroy e =>
    obtain ⟨hex, hw1⟩ := destroy_entity_ok w w1 e h
    have hi := ((exists_ok_true_iff w e).1 hex).1
    subst hw1
    refine ⟨hb.1, fun j hj => ?_⟩
    rcases List.mem_cons.1 hj with h1 | h1
    · rw [h1]; exact hi
    · exact hb.2 j h1
  | add e k v =>
    obtain ⟨c, ha⟩ := step_add_ok w w1 e k v h
    obtain ⟨-, -, -, m, -, hw1⟩ := add_component_ok w w1 e k v c ha
    subst hw1
    exact hb
  | remove e k =>
    obtain ⟨-, m, -, hw1⟩ := remove_component_ok w w1 e k h
    subst hw1
    exact hb

theorem run_bounds (w w2 : World V) (ops : List (Op V)) (h : run w ops = .ok w2)
    (hb : w.next_entity_idx_ ≤ MaxEntities ∧ ∀ j ∈ w.free_list_, j < MaxEntities) :
    w2.next_entity_idx_ ≤ MaxEntities ∧ ∀ j ∈ w2.free_list_, j < MaxEntities := by
  induction ops generalizing w with
  | nil =>
    simp only [run] at h
    cases h
    exact hb
  | cons op ops ih =>
    obtain ⟨w1, hs, hr⟩ := run_cons_ok w w2 op ops h
    exact ih w1 hr (step_bounds w w1 op hs hb)

theorem reachable_bounds (zero : V) (w : World V) (h : Reachable zero w) :
    w.next_entity_idx_ ≤ MaxEntities ∧ ∀ j ∈ w.free_list_, j < MaxEntities := by
  obtain ⟨ops, hr⟩ := h
  refine run_bounds _ w ops hr ⟨Nat.zero_le _, ?_⟩
  intro j hj
  simp [World.fresh] at hj

/-- Free indices stay below the high-water mark under every call, provided `destroy` is called
on ids of allocated slots only (every id `create()` has returned is one). -/
theorem step_free_below_next (w w1 : World V) (op : Op V) (h : op.step w = .ok w1)
    (hfree : ∀ j ∈ w.free_list_, j < w.next_entity_idx_)
    (hop : ∀ e, op = Op.destroy e → e.idx < w.next_entity_idx_) :
    ∀ j ∈ w1.free_list_, j < w1.next_entity_idx_ := by
  cases op with
  | create =>
    obtain ⟨e, hc⟩ := step_create_ok w w1 h
    obtain ⟨hw1, -, -, -, -⟩ := create_entity_ok w w1 e hc
    by_cases hf : w.free_list_ = []
    · rw [get_free_entity_idx_nil w hf] at hw1
      subst hw1
      intro j hj
      simp [hf] at hj
    · rw [get_free_entity_idx_ne_nil w hf] at hw1
      subst hw1
      intro j hj
      exact hfree j (List.mem_of_mem_erase hj)
  | destroy e =>
    obtain ⟨-, hw1⟩ := destroy_entity_ok w w1 e h
    subst hw1
    intro j hj
    rcases List.mem_cons.1 hj with h1 | h1
    · rw [h1]; exact hop e rfl
    · exact hfree j h1
  | add e k v =>
    obtain ⟨c, ha⟩ := step_add_ok w w1 e k v h
    obtain ⟨-, -, -, m, -, hw1⟩ := add_component_ok w w1 e k v c ha
    subst hw1
    exact hfree
  | remove e k =>
    obtain ⟨-, m, -, hw1⟩ := remove_component_ok w w1 e k h
    subst hw1
    exact hfree

/-- C19: in a reachable world with a non-empty free list, `create()` succeeds and returns the
current id of the largest index of the free list, removes one occurrence of that index from
the free list and changes nothing else, `next_entity_idx_` included; the same id is returned
for every other order of the free list. -/
theorem create_reuses_largest_free_index (zero : V) (w : World V) (hw : Reachable zero w)
    (hne : w.free_list_ ≠ []) :
    ∃ top w1, top ∈ w.free_list_ ∧ (∀ j ∈ w.free_list_, j ≤ top) ∧
      w.create_entity = .ok ((w.entities_ top).id, w1) ∧
      w1.free_list_ = w.free_list_.erase top ∧
      w1.next_entity_idx_ = w.next_entity_idx_ ∧
      w1.entities_ = w.entities_ ∧ w1.pool = w.pool ∧
      ∀ l : List Nat, l.Perm w.free_list_ →
        ∃ w2, World.create_entity { w with free_list_ := l } = .ok ((w.entities_ top).id, w2) ∧
          w2.free_list_.Perm w1.free_list_ ∧ w2.next_entity_idx_ = w.next_entity_idx_ := by
  obtain ⟨hmem, hmax⟩ := pq_top_spec w.free_list_ hne
  have hb := (reachable_bounds zero w hw).2
  refine ⟨pq_top w.free_list_, { w with free_list_ := pq_pop w.free_list_ }, hmem, hmax, ?_,
    rfl, rfl, rfl, rfl, ?_⟩
  · unfold World.create_entity
    simp only [get_free_entity_idx_ne_nil w hne]
    rw [if_pos (hb _ hmem)]
  · intro l hl
    have hne2 : l ≠ [] := fun h2 => hne (by rw [h2] at hl; exact List.Perm.eq_nil hl.symm)
    have htop := pq_top_perm w.free_list_ l hl
    refine ⟨{ w with free_list_ := pq_pop l }, ?_, ?_, rfl⟩
    · unfold World.create_entity
      have hg : World.get_free_entity_idx { w with free_list_ := l }
          = (pq_top l, { w with free_list_ := pq_pop l }) :=
        get_free_entity_idx_ne_nil { w with free_list_ := l } hne2
      simp only [hg]
      rw [htop, if_pos (hb _ hmem)]
    · show (pq_pop l).Perm (pq_pop w.free_list_)
      unfold pq_pop
      rw [htop]
      exact List.Perm.erase _ hl

/-- Witness of C19: slots 0, 1 and 2 are created, slots 0 and 2 are freed in that order, and
`create()` returns the current id `(2, 2)` of slot 2. -/
theorem create_reuses_largest_free_index_witness :
    ∃ w : World Nat,
      run (World.fresh 0) [Op.create, Op.create, Op.create, Op.destroy ⟨2, 1⟩,
        Op.destroy ⟨0, 1⟩] = .ok w ∧
      w.free_list_ = [0, 2] ∧
      ∃ top w1, top ∈ w.free_list_ ∧ (∀ j ∈ w.free_list_, j ≤ top) ∧
        w.create_entity = .ok ((w.entities_ top).id, w1) ∧
        w1.free_list_ = w.free_list_.erase top ∧
        w1.next_entity_idx_ = w.next_entity_idx_ ∧
        w1.entities_ = w.entities_ ∧ w1.pool = w.pool ∧
        ∀ l : List Nat, l.Perm w.free_list_ →
          ∃ w2, World.create_entity { w with free_list_ := l }
              = .ok ((w.entities_ top).id, w2) ∧
            w2.free_list_.Perm w1.free_list_ ∧ w2.next_entity_idx_ = w.next_entity_idx_ :=
  ⟨_, rfl, rfl,
    create_reuses_largest_free_index 0 _
      ⟨[Op.create, Op.create, Op.create, Op.destroy ⟨2, 1⟩, Op.destroy ⟨0, 1⟩], rfl⟩
      (by decide)⟩

theorem create_n_fresh (zero : V) (n : Nat) (a : Nat) (h : a + n ≤ MaxEntities) :
    create_n n { World.fresh zero with next_entity_idx_ := a } =
      .ok ((List.range' a n).map (fun i => (⟨i, 1⟩ : Entity)),
        { World.fresh zero with next_entity_idx_ := a + n }) := by
  induction n generalizing a with
  | zero => rfl
  | succ n ih =>
    have hlt : a < MaxEntities := by omega
    have hc : World.create_entity { World.fresh zero with next_entity_idx_ := a }
        = .ok (⟨a, 1⟩, { World.fresh zero with next_entity_idx_ := a + 1 }) := by
      unfold World.create_entity World.get_free_entity_idx
      simp [World.fresh, hlt]
    simp only [create_n, hc]
    rw [ih (a + 1) (by omega)]
    simp [List.range'_succ, Nat.add_assoc, Nat.add_comm 1 n]

/-- C20: in a reachable world `create()` fails, on its capacity assertion, exactly when
`next_entity_idx_ = MaxEntities` and the free list is empty, and it returns an id otherwise;
on the constructed world `MaxEntities` calls of `create()` succeed and return the ids
`(0, 1)` to `(MaxEntities - 1, 1)` in this order, and the call after them fails. -/
theorem create_fails_iff_full (zero : V) :
    (∀ w : World V, Reachable zero w →
      (w.create_entity = .error .assertion ↔
        w.next_entity_idx_ = MaxEntities ∧ w.free_list_ = []) ∧
      (¬ (w.next_entity_idx_ = MaxEntities ∧ w.free_list_ = []) →
        ∃ e w1, w.create_entity = .ok (e, w1))) ∧
    ∃ w : World V,
      create_n MaxEntities (World.fresh zero)
        = .ok ((List.range MaxEntities).map (fun i => (⟨i, 1⟩ : Entity)), w) ∧
      w.create_entity = .error .assertion := by
  constructor
  · intro w hw
    obtain ⟨hnext, hfree⟩ := reachable_bounds zero w hw
    by_cases hf : w.free_list_ = []
    · have hc : w.create_entity =
          if w.next_entity_idx_ < MaxEntities then
            .ok ((w.entities_ w.next_entity_idx_).id,
              { w with next_entity_idx_ := w.next_entity_idx_ + 1 })
          else .error .assertion := by
        unfold World.create_entity
        simp only [get_free_entity_idx_nil w hf]
      by_cases hlt : w.next_entity_idx_ < MaxEntities
      · rw [hc, if_pos hlt]
        refine ⟨⟨fun h => by simp at h, fun h => by omega⟩, fun _ => ⟨_, _, rfl⟩⟩
      · rw [hc, if_neg hlt]
        have heq : w.next_entity_idx_ = MaxEntities := by omega
        exact ⟨⟨fun _ => ⟨heq, hf⟩, fun _ => rfl⟩, fun h => absurd ⟨heq, hf⟩ h⟩
    · have hc : w.create_entity = .ok ((w.entities_ (pq_top w.free_list_)).id,
          { w with free_list_ := pq_pop w.free_list_ }) := by
        unfold World.create_entity
        simp only [get_free_entity_idx_ne_nil w hf]
        rw [if_pos (hfree _ (pq_top_spec w.free_list_ hf).1)]
      rw [hc]
      exact ⟨⟨fun h => by simp at h, fun h => absurd h.2 hf⟩, fun _ => ⟨_, _, rfl⟩⟩
  · refine ⟨{ World.fresh zero with next_entity_idx_ := MaxEntities }, ?_, ?_⟩
    · have := create_n_fresh zero MaxEntities 0 (by omega)
      simpa [List.range_eq_range'] using this
    · unfold World.create_entity World.get_free_entity_idx
      simp [World.fresh]

/-- Witness of C20: the constructed world is neither full nor has it a free slot, and its
first `create()` does not fail. -/
theorem create_fails_iff_full_witness :
    Reachable (0 : Nat) (World.fresh 0) ∧
    ¬ ((World.fresh (0 : Nat)).next_entity_idx_ = MaxEntities ∧
      (World.fresh (0 : Nat)).free_list_ = []) ∧
    ∃ e w1, (World.fresh (0 : Nat)).create_entity = .ok (e, w1) :=
  ⟨⟨[], rfl⟩, by decide,
    ((create_fails_iff_full (0 : Nat)).1 (World.fresh 0) ⟨[], rfl⟩).2 (by decide)⟩

/-! ## Mask isolation -/

/-- The masks of two distinct types share no bit, when both are defined. -/
theorem component_mask_disjoint (k1 k2 : Nat) (m1 m2 : ComponentMask) (hne : k1 ≠ k2)
    (h1 : detail.component_mask [k1] = .ok m1) (h2 : detail.component_mask [k2] = .ok m2) :
    m1 &&& m2 = 0 := by
  rcases component_mask_single k1 m1 h1 with ⟨hk1, e1⟩ | ⟨hk1, e1⟩ <;>
    rcases component_mask_single k2 m2 h2 with ⟨hk2, e2⟩ | ⟨hk2, e2⟩
  · subst e1 e2
    apply Nat.eq_of_testBit_eq
    intro i
    simp only [Nat.testBit_and, Nat.testBit_two_pow, Nat.zero_testBit]
    by_cases ha : k1 = i
    · have hb : ¬ k2 = i := fun hb => hne (ha.trans hb.symm)
      simp [hb]
    · simp [ha]
  · subst e1 e2
    interval_cases k1 <;> decide
  · subst e1 e2
    interval_cases k2 <;> decide
  · omega

/-- The result of `has_component` is decided by the id of the slot and by the bits of the
mask of the slot under the mask of the type. -/
theorem has_component_congr (w w1 : World V) (e : Entity) (k : Nat)
    (hid : (w1.entities_ e.idx).id = (w.entities_ e.idx).id)
    (hmask : ∀ m, detail.component_mask [k] = .ok m →
      (w1.entities_ e.idx).cmask &&& m = (w.entities_ e.idx).cmask &&& m) :
    w1.has_component e k = w.has_component e k := by
  unfold World.has_component World.exists_
  rw [hid]
  split
  · split
    · rfl
    · rfl
    · cases hm : detail.component_mask [k] with
      | error f => rfl
      | ok m => simp only [hmask m hm]
  · rfl

/-- In every run in which `add<T1>(e, v)` returns, the result of `has<T2>(e2)` for another
type is the same before and after the call. -/
theorem add_component_keeps_other_has (w w1 : World V) (e e2 : Entity) (k1 k2 : Nat) (v : V)
    (c : Cell) (hne : k1 ≠ k2) (h : w.add_component e k1 v = .ok (c, w1)) :
    w1.has_component e2 k2 = w.has_component e2 k2 := by
  obtain ⟨-, -, -, m1, hm1, hw1⟩ := add_component_ok w w1 e k1 v c h
  apply has_component_congr
  · rw [hw1]
    by_cases hi : e.idx = e2.idx
    · rw [hi]; simp
    · simp [Function.update, Ne.symm hi]
  · intro m2 hm2
    rw [hw1]
    by_cases hi : e.idx = e2.idx
    · rw [hi]
      simp only [Function.update_same]
      rw [Nat.and_distrib_right, component_mask_disjoint k1 k2 m1 m2 hne hm1 hm2]
      simp
    · simp [Function.update, Ne.symm hi]

/-- C11 at the types with ids 32 and 0, both below `MaxComponents`: the entity `(0, 1)` exists
and has no component, so `add<T1>` is a valid call; it has no defined result, because
`has_component` and `component_mask` evaluate `1 << 32` on an `int`, and neither has
`has<T1>` on that entity. -/
theorem add_type_32_undefined :
    ∃ w : World Nat,
      run (World.fresh 0) [Op.create] = .ok w ∧
      (32 : Nat) < MaxComponents ∧ (0 : Nat) < MaxComponents ∧
      w.exists_ ⟨0, 1⟩ = .ok true ∧
      (w.entities_ 0).cmask = 0 ∧
      w.has_component ⟨0, 1⟩ 0 = .ok false ∧
      w.add_component ⟨0, 1⟩ 32 7 = .error .undefined_shift ∧
      w.has_component ⟨0, 1⟩ 32 = .error .undefined_shift :=
  ⟨_, rfl, by decide, by decide, by decide, by decide, by decide, rfl, by decide⟩

/-! ## Queries with a callback that leaves the world alone -/

theorem for_each_loop_read_only {S : Type} (mask : ComponentMask) (func : Callback S V)
    (hf : ReadOnly func) (w : World V) (fuel i : Nat) (s : S)
    (hfuel : w.next_entity_idx_ ≤ i + fuel) :
    ∃ s1, for_each_loop mask func fuel i (s, w) =
      .ok (((List.range' i (w.next_entity_idx_ - i)).filter
          (fun k => w.slot_matches mask k)).map
            (fun k => (⟨k, (w.entities_ k).id, w, w⟩ : Visit V)), s1, w) := by
  induction fuel generalizing i s with
  | zero =>
    have h0 : w.next_entity_idx_ - i = 0 := by omega
    have hlt : ¬ i < w.next_entity_idx_ := by omega
    exact ⟨s, by simp [for_each_loop, hlt, h0]⟩
  | succ fuel ih =>
    by_cases hlt : i < w.next_entity_idx_
    · have hr : w.next_entity_idx_ - i = (w.next_entity_idx_ - (i + 1)) + 1 := by omega
      by_cases hmt : w.slot_matches mask i = true
      · obtain ⟨s1, hs1⟩ := hf (w.entities_ i).id (s, w)
        obtain ⟨s2, hs2⟩ := ih (i + 1) s1 (by omega)
        refine ⟨s2, ?_⟩
        simp only [for_each_loop, hlt, if_true, hmt, hs1, hs2]
        rw [hr, List.range'_succ]
        simp [List.filter_cons, hmt]
      · obtain ⟨s2, hs2⟩ := ih (i + 1) s (by omega)
        refine ⟨s2, ?_⟩
        simp only [for_each_loop, hlt, if_true, hmt, hs2]
        rw [hr, List.range'_succ]
        simp [List.filter_cons, hmt]
    · have h0 : w.next_entity_idx_ - i = 0 := by omega
      exact ⟨s, by simp [for_each_loop, hlt, h0]⟩

theorem matching_slots_spec (w : World V) (mask : ComponentMask) :
    List.Pairwise (· < ·) (w.matching_slots mask) ∧
    ∀ i, i ∈ w.matching_slots mask ↔
      i < w.next_entity_idx_ ∧ w.slot_matches mask i = true := by
  unfold World.matching_slots
  refine ⟨List.Pairwise.filter _ (List.pairwise_lt_range _), fun i => ?_⟩
  simp [List.mem_filter]

/-- C12: in a reachable world, for a callback that leaves the world alone, `for_each<T1..Tn>`
returns, and its invocations are, in this order, one for each slot `i < next_entity_idx_` whose
mask contains the required mask, ascending, each with the current id of its slot; the list of
these slots is strictly ascending, so no slot is visited twice, and holds no other slot. -/
theorem for_each_visits_matching_slots {S : Type} (zero : V) (w : World V)
    (hw : Reachable zero w) (ks : List Nat) (mask : ComponentMask)
    (hm : detail.component_mask ks = .ok mask) (func : Callback S V) (hf : ReadOnly func)
    (s : S) :
    (∃ s1, w.for_each_entity ks func s =
      .ok ((w.matching_slots mask).map
        (fun i => (⟨i, (w.entities_ i).id, w, w⟩ : Visit V)), s1, w)) ∧
    List.Pairwise (· < ·) (w.matching_slots mask) ∧
    ∀ i, i ∈ w.matching_slots mask ↔
      i < w.next_entity_idx_ ∧ (w.entities_ i).cmask &&& mask = mask := by
  have hb := (reachable_bounds zero w hw).1
  obtain ⟨s1, hs1⟩ := for_each_loop_read_only mask func hf w MaxEntities 0 s (by omega)
  refine ⟨⟨s1, ?_⟩, (matching_slots_spec w mask).1, fun i => ?_⟩
  · unfold World.for_each_entity
    rw [hm]
    simp only [hs1, World.matching_slots, List.range_eq_range', Nat.sub_zero]
  · rw [(matching_slots_spec w mask).2 i]
    simp [World.slot_matches]

/-- Witness of C12: three entities are created and a component of type 0 is added to the first
two; `for_each` for type 0 visits `(0, 1)` and then `(1, 1)`. -/
theorem for_each_visits_matching_slots_witness :
    ∃ w : World Nat,
      run (World.fresh 0) [Op.create, Op.create, Op.create, Op.add ⟨0, 1⟩ 0 5,
        Op.add ⟨1, 1⟩ 0 6] = .ok w ∧
      Reachable 0 w ∧ detail.component_mask [0] = .ok 1 ∧
      ReadOnly (fun _ st => .ok st : Callback Unit Nat) ∧
      (w.matching_slots 1).map (fun i => (w.entities_ i).id) = [⟨0, 1⟩, ⟨1, 1⟩] ∧
      ((∃ s1, w.for_each_entity [0] (fun _ st => .ok st : Callback Unit Nat) () =
        .ok ((w.matching_slots 1).map
          (fun i => (⟨i, (w.entities_ i).id, w, w⟩ : Visit Nat)), s1, w)) ∧
      List.Pairwise (· < ·) (w.matching_slots 1) ∧
      ∀ i, i ∈ w.matching_slots 1 ↔
        i < w.next_entity_idx_ ∧ (w.entities_ i).cmask &&& 1 = 1) := by
  refine ⟨_, rfl, ?_⟩
  have hr : Reachable (0 : Nat) _ :=
    ⟨[Op.create, Op.create, Op.create, Op.add ⟨0, 1⟩ 0 5, Op.add ⟨1, 1⟩ 0 6], rfl⟩
  exact ⟨hr, by decide, fun _ st => ⟨st.1, rfl⟩, by decide,
    for_each_visits_matching_slots 0 _ hr [0] 1 (by decide) _ (fun _ st => ⟨st.1, rfl⟩) ()⟩

theorem for_each_pair_inner_read_only {S : Type} (mask : ComponentMask)
    (func : PairCallback S V) (hf : PairReadOnly func) (w : World V) (last i fuel j : Nat)
    (s : S) (hfuel : last ≤ j + fuel) :
    ∃ s1, for_each_pair_inner mask func last i fuel j (s, w) =
      .ok (((List.range' j (last - j)).filter (fun k => w.slot_matches mask k)).map
        (fun k => (⟨i, k, (w.entities_ i).id, (w.entities_ k).id, w, w⟩ : PairVisit V)),
        s1, w) := by
  induction fuel generalizing j s with
  | zero =>
    have h0 : last - j = 0 := by omega
    have hlt : ¬ j < last := by omega
    exact ⟨s, by simp [for_each_pair_inner, hlt, h0]⟩
  | succ fuel ih =>
    by_cases hlt : j < last
    · have hr : last - j = (last - (j + 1)) + 1 := by omega
      by_cases hmt : w.slot_matches mask j = true
      · obtain ⟨s1, hs1⟩ := hf (w.entities_ i).id (w.entities_ j).id (s, w)
        obtain ⟨s2, hs2⟩ := ih (j + 1) s1 (by omega)
        refine ⟨s2, ?_⟩
        simp only [for_each_pair_inner, hlt, if_true, hmt, hs1, hs2]
        rw [hr, List.range'_succ]
        simp [List.filter_cons, hmt]
      · obtain ⟨s2, hs2⟩ := ih (j + 1) s (by omega)
        refine ⟨s2, ?_⟩
        simp only [for_each_pair_inner, hlt, if_true, hmt, hs2]
        rw [hr, List.range'_succ]
        simp [List.filter_cons, hmt]
    · have h0 : last - j = 0 := by omega
      exact ⟨s, by simp [for_each_pair_inner, hlt, h0]⟩

theorem for_each_pair_outer_read_only {S : Type} (mask : ComponentMask)
    (func : PairCallback S V) (hf : PairReadOnly func) (w : World V) (last fuel i : Nat)
    (s : S) (hfuel : last ≤ i + fuel) :
    ∃ s1, for_each_pair_outer mask func last fuel i (s, w) =
      .ok ((ordered_pairs ((List.range' i (last - i)).filter
          (fun k => w.slot_matches mask k))).map
        (fun p => (⟨p.1, p.2, (w.entities_ p.1).id, (w.entities_ p.2).id, w, w⟩ :
          PairVisit V)), s1, w) := by
  induction fuel generalizing i s with
  | zero =>
    have h0 : last - i = 0 := by omega
    have hlt : ¬ i < last := by omega
    exact ⟨s, by simp [for_each_pair_outer, hlt, h0, ordered_pairs]⟩
  | succ fuel ih =>
    by_cases hlt : i < last
    · have hr : last - i = (last - (i + 1)) + 1 := by omega
      by_cases hmt : w.slot_matches mask i = true
      · obtain ⟨s1, hs1⟩ :=
          for_each_pair_inner_read_only mask func hf w last i fuel (i + 1) s (by omega)
        obtain ⟨s2, hs2⟩ := ih (i + 1) s1 (by omega)
        refine ⟨s2, ?_⟩
        simp only [for_each_pair_outer, hlt, if_true, hmt, hs1, hs2]
        rw [hr, List.range'_succ]
        simp [List.filter_cons, hmt, ordered_pairs, List.map_append, Function.comp_def]
      · obtain ⟨s2, hs2⟩ := ih (i + 1) s (by omega)
        refine ⟨s2, ?_⟩
        simp only [for_each_pair_outer, hlt, if_true, hmt, hs2]
        rw [hr, List.range'_succ]
        simp [List.filter_cons, hmt]
    · have h0 : last - i = 0 := by omega
      exact ⟨s, by simp [for_each_pair_outer, hlt, h0, ordered_pairs]⟩

theorem mem_ordered_pairs {α : Type} (l : List α) (p : α × α) (h : p ∈ ordered_pairs l) :
    p.1 ∈ l ∧ p.2 ∈ l := by
  induction l with
  | nil => simp [ordered_pairs] at h
  | cons a l ih =>
    simp only [ordered_pairs, List.mem_append, List.mem_map] at h
    rcases h with ⟨b, hb, rfl⟩ | h
    · simp [hb]
    · have := ih h
      simp [this.1, this.2]

/-- On a strictly ascending list, the ordered pairs are the pairs of two members with the
first below the second. -/
theorem mem_ordered_pairs_iff (l : List Nat) (hl : List.Pairwise (· < ·) l) (x y : Nat) :
    (x, y) ∈ ordered_pairs l ↔ x ∈ l ∧ y ∈ l ∧ x < y := by
  induction l with
  | nil => simp [ordered_pairs]
  | cons a l ih =>
    obtain ⟨ha, hl2⟩ := List.pairwise_cons.1 hl
    simp only [ordered_pairs, List.mem_append, List.mem_map, Prod.mk.injEq, ih hl2,
      List.mem_cons]
    constructor
    · rintro (⟨b, hb, rfl, rfl⟩ | ⟨hx, hy, hxy⟩)
      · exact ⟨Or.inl rfl, Or.inr hb, ha _ hb⟩
      · exact ⟨Or.inr hx, Or.inr hy, hxy⟩
    · rintro ⟨hx | hx, hy | hy, hxy⟩
      · omega
      · left; exact ⟨y, hy, hx.symm, rfl⟩
      · have := ha _ hx
        omega
      · right; exact ⟨hx, hy, hxy⟩

/-- On a strictly ascending list, the ordered pairs come ordered by first member and then by
second member; in particular no pair comes twice. -/
theorem ordered_pairs_sorted (l : List Nat) (hl : List.Pairwise (· < ·) l) :
    List.Pairwise (fun p q : Nat × Nat => p.1 < q.1 ∨ (p.1 = q.1 ∧ p.2 < q.2))
      (ordered_pairs l) := by
  induction l with
  | nil => simp [ordered_pairs]
  | cons a l ih =>
    obtain ⟨ha, hl2⟩ := List.pairwise_cons.1 hl
    simp only [ordered_pairs]
    rw [List.pairwise_append]
    refine ⟨?_, ih hl2, ?_⟩
    · rw [List.pairwise_map]
      exact hl2.imp (fun h => Or.inr ⟨rfl, h⟩)
    · intro p hp q hq
      obtain ⟨b, -, rfl⟩ := List.mem_map.1 hp
      exact Or.inl (ha _ (mem_ordered_pairs l q hq).1)

theorem length_ordered_pairs {α : Type} (l : List α) :
    (ordered_pairs l).length = l.length * (l.length - 1) / 2 := by
  induction l with
  | nil => simp [ordered_pairs]
  | cons a l ih =>
    simp only [ordered_pairs, List.length_append, List.length_map, ih, List.length_cons,
      Nat.add_sub_cancel]
    have h2 : 2 ∣ l.length * (l.length - 1) := by
      rcases Nat.even_or_odd l.length with h | h
      · exact Dvd.dvd.mul_right h.two_dvd _
      · have : Even (l.length - 1) := by
          obtain ⟨c, hc⟩ := h
          exact ⟨c, by omega⟩
        exact Dvd.dvd.mul_left this.two_dvd _
    obtain ⟨c, hc⟩ := h2
    have h3 : (l.length + 1) * l.length = 2 * (l.length + c) := by
      cases hl : l.length with
      | zero => simp [hl] at hc; omega
      | succ n =>
        rw [hl] at hc
        simp only [Nat.add_sub_cancel] at hc
        have : (n + 1 + 1) * (n + 1) = (n + 1) * n + 2 * (n + 1) := by ring
        rw [this, hc]
        ring
    rw [hc, h3]
    simp

theorem for_each_entity_pair_read_only {S : Type} (w : World V)
    (hb : w.next_entity_idx_ ≤ MaxEntities) (ks : List Nat) (mask : ComponentMask)
    (hm : detail.component_mask ks = .ok mask) (func : PairCallback S V)
    (hf : PairReadOnly func) (s : S) :
    ∃ s1, w.for_each_entity_pair ks func s =
      .ok ((ordered_pairs (w.matching_slots mask)).map
        (fun p => (⟨p.1, p.2, (w.entities_ p.1).id, (w.entities_ p.2).id, w, w⟩ :
          PairVisit V)), s1, w) := by
  obtain ⟨s1, hs1⟩ := for_each_pair_outer_read_only mask func hf w w.next_entity_idx_
    MaxEntities 0 s (by omega)
  refine ⟨s1, ?_⟩
  unfold World.for_each_entity_pair
  rw [hm]
  simp only [hs1, World.matching_slots, List.range_eq_range', Nat.sub_zero]

/-- C14: in a reachable world, for a callback that leaves the world alone,
`for_each_pair<T1..Tn>` returns, and its invocations are, in this order, the ordered pairs of
the ascending list of matching slots, each with the current ids of its two slots; these pairs
are exactly the pairs `(i, j)` with `i < j < next_entity_idx_` whose two masks contain the
required mask (so never a swapped pair), and they come ordered by `i` and then by `j`, each
once. -/
theorem for_each_pair_visits_ordered_pairs {S : Type} (zero : V) (w : World V)
    (hw : Reachable zero w) (ks : List Nat) (mask : ComponentMask)
    (hm : detail.component_mask ks = .ok mask) (func : PairCallback S V)
    (hf : PairReadOnly func) (s : S) :
    (∃ s1, w.for_each_entity_pair ks func s =
      .ok ((ordered_pairs (w.matching_slots mask)).map
        (fun p => (⟨p.1, p.2, (w.entities_ p.1).id, (w.entities_ p.2).id, w, w⟩ :
          PairVisit V)), s1, w)) ∧
    (∀ i j, (i, j) ∈ ordered_pairs (w.matching_slots mask) ↔
      i < j ∧ j < w.next_entity_idx_ ∧ (w.entities_ i).cmask &&& mask = mask ∧
        (w.entities_ j).cmask &&& mask = mask) ∧
    List.Pairwise (fun p q : Nat × Nat => p.1 < q.1 ∨ (p.1 = q.1 ∧ p.2 < q.2))
      (ordered_pairs (w.matching_slots mask)) := by
  obtain ⟨hsorted, hmem⟩ := matching_slots_spec w mask
  refine ⟨for_each_entity_pair_read_only w (reachable_bounds zero w hw).1 ks mask hm func hf s,
    fun i j => ?_, ordered_pairs_sorted _ hsorted⟩
  rw [mem_ordered_pairs_iff _ hsorted, hmem, hmem]
  simp only [World.slot_matches, beq_iff_eq]
  constructor
  · rintro ⟨⟨-, h1⟩, ⟨h2, h3⟩, h4⟩
    exact ⟨h4, h2, h1, h3⟩
  · rintro ⟨h4, h2, h1, h3⟩
    exact ⟨⟨by omega, h1⟩, ⟨h2, h3⟩, h4⟩

/-- Witness of C14: three entities with a component of type 0; the pairs are `(0, 1)`,
`(0, 2)` and `(1, 2)`. -/
theorem for_each_pair_visits_ordered_pairs_witness :
    ∃ w : World Nat,
      run (World.fresh 0) [Op.create, Op.create, Op.create, Op.add ⟨0, 1⟩ 0 5,
        Op.add ⟨1, 1⟩ 0 6, Op.add ⟨2, 1⟩ 0 7] = .ok w ∧
      Reachable 0 w ∧ detail.component_mask [0] = .ok 1 ∧
      PairReadOnly (fun _ _ st => .ok st : PairCallback Unit Nat) ∧
      ordered_pairs (w.matching_slots 1) = [(0, 1), (0, 2), (1, 2)] ∧
      ((∃ s1, w.for_each_entity_pair [0] (fun _ _ st => .ok st : PairCallback Unit Nat) () =
        .ok ((ordered_pairs (w.matching_slots 1)).map
          (fun p => (⟨p.1, p.2, (w.entities_ p.1).id, (w.entities_ p.2).id, w, w⟩ :
            PairVisit Nat)), s1, w)) ∧
      (∀ i j, (i, j) ∈ ordered_pairs (w.matching_slots 1) ↔
        i < j ∧ j < w.next_entity_idx_ ∧ (w.entities_ i).cmask &&& 1 = 1 ∧
          (w.entities_ j).cmask &&& 1 = 1) ∧
      List.Pairwise (fun p q : Nat × Nat => p.1 < q.1 ∨ (p.1 = q.1 ∧ p.2 < q.2))
        (ordered_pairs (w.matching_slots 1))) := by
  refine ⟨_, rfl, ?_⟩
  have hr : Reachable (0 : Nat) _ :=
    ⟨[Op.create, Op.create, Op.create, Op.add ⟨0, 1⟩ 0 5, Op.add ⟨1, 1⟩ 0 6,
      Op.add ⟨2, 1⟩ 0 7], rfl⟩
  exact ⟨hr, by decide, fun _ _ st => ⟨st.1, rfl⟩, by decide,
    for_each_pair_visits_ordered_pairs 0 _ hr [0] 1 (by decide) _
      (fun _ _ st => ⟨st.1, rfl⟩) ()⟩

/-- C15: in a reachable world in which exactly `n` slots below `next_entity_idx_` match the
required components, for a callback that leaves the world alone, `for_each_pair` returns
after exactly `n * (n - 1) / 2` invocations of the callback. -/
theorem for_each_pair_invocation_count {S : Type} (zero : V) (w : World V)
    (hw : Reachable zero w) (ks : List Nat) (mask : ComponentMask)
    (hm : detail.component_mask ks = .ok mask) (func : PairCallback S V)
    (hf : PairReadOnly func) (s : S) (n : Nat)
    (hn : ((List.range w.next_entity_idx_).filter
      (fun i => (w.entities_ i).cmask &&& mask = mask)).length = n) :
    ∃ tr s1, w.for_each_entity_pair ks func s = .ok (tr, s1, w) ∧
      tr.length = n * (n - 1) / 2 := by
  obtain ⟨s1, hs1⟩ :=
    for_each_entity_pair_read_only w (reachable_bounds zero w hw).1 ks mask hm func hf s
  refine ⟨_, s1, hs1, ?_⟩
  have hlen : (w.matching_slots mask).length = n := by
    rw [← hn]
    unfold World.matching_slots World.slot_matches
    congr 1
  rw [List.length_map, length_ordered_pairs, hlen]

/-- Witness of C15: four entities of which three have a component of type 0, so the callback
is invoked `3 * 2 / 2 = 3` times. -/
theorem for_each_pair_invocation_count_witness :
    ∃ w : World Nat,
      run (World.fresh 0) [Op.create, Op.create, Op.create, Op.create, Op.add ⟨0, 1⟩ 0 5,
        Op.add ⟨2, 1⟩ 0 6, Op.add ⟨3, 1⟩ 0 7] = .ok w ∧
      Reachable 0 w ∧ detail.component_mask [0] = .ok 1 ∧
      PairReadOnly (fun _ _ st => .ok st : PairCallback Unit Nat) ∧
      ((List.range w.next_entity_idx_).filter
        (fun i => (w.entities_ i).cmask &&& 1 = 1)).length = 3 ∧
      ∃ tr s1, w.for_each_entity_pair [0] (fun _ _ st => .ok st : PairCallback Unit Nat) ()
          = .ok (tr, s1, w) ∧
        tr.length = 3 * (3 - 1) / 2 := by
  refine ⟨_, rfl, ?_⟩
  have hr : Reachable (0 : Nat) _ :=
    ⟨[Op.create, Op.create, Op.create, Op.create, Op.add ⟨0, 1⟩ 0 5, Op.add ⟨2, 1⟩ 0 6,
      Op.add ⟨3, 1⟩ 0 7], rfl⟩
  exact ⟨hr, by decide, fun _ _ st => ⟨st.1, rfl⟩, by decide,
    for_each_pair_invocation_count 0 _ hr [0] 1 (by decide) _
      (fun _ _ st => ⟨st.1, rfl⟩) () 3 (by decide)⟩

/-! ## The mask of several types -/

/-- Bit `n` of the `u64` an `int` converts to is bit `n` of the `int`, for `n < 64`. -/
theorem testBit_to_u64 (a : Int) (n : Nat) :
    (to_u64 a).testBit n = (decide (n < 64) && a.testBit n) := by
  unfold to_u64
  cases a with
  | ofNat m =>
    have h1 : (Int.ofNat m % (2 : Int) ^ 64).toNat = m % 2 ^ 64 := by
      have : (Int.ofNat m % (2 : Int) ^ 64) = ((m % 2 ^ 64 : Nat) : Int) := by
        simp [Int.ofNat_eq_coe]
      rw [this]
      exact Int.toNat_ofNat _
    rw [h1, Nat.testBit_mod_two_pow]
    rfl
  | negSucc m =>
    have h1 : (Int.negSucc m % (2 : Int) ^ 64).toNat = 2 ^ 64 - (m % 2 ^ 64 + 1) := by
      rw [Int.negSucc_emod m (by decide)]
      have hlt : m % 2 ^ 64 < 2 ^ 64 := Nat.mod_lt _ (by decide)
      have : ((2 : Int) ^ 64 - 1 - (m : Int) % (2 : Int) ^ 64)
          = ((2 ^ 64 - (m % 2 ^ 64 + 1) : Nat) : Int) := by
        push_cast
        omega
      rw [this]
      simp
    rw [h1, Nat.testBit_two_pow_sub_succ (Nat.mod_lt _ (by decide)), Nat.testBit_mod_two_pow]
    simp only [Int.testBit]
    by_cases hn : n < 64 <;> simp [hn]

theorem shl_one_testBit (k : Nat) (a : Int) (h : shl_one k = .ok a) :
    k < 32 ∧ a.testBit k = true := by
  unfold shl_one at h
  by_cases hk : k < 32
  · refine ⟨hk, ?_⟩
    interval_cases k <;> simp at h <;> subst h <;> decide
  · have h1 : ¬ k < 31 := by omega
    have h2 : ¬ k = 31 := by omega
    simp [h1, h2] at h

theorem component_mask_int_testBit (k : Nat) (ks : List Nat) (a : Int)
    (h : detail.component_mask_int (k :: ks) = .ok a) : k < 32 ∧ a.testBit k = true := by
  cases ks with
  | nil =>
    simp only [detail.component_mask_int, detail.component_id] at h
    split at h
    · simp at h
    · rename_i id hid
      split at hid
      · cases hid
        exact shl_one_testBit k a h
      · simp at hid
  | cons k2 ks =>
    simp only [detail.component_mask_int, detail.component_id] at h
    split at h
    · simp at h
    · rename_i id hid
      split at hid
      · cases hid
        split at h
        · simp at h
        · rename_i a1 ha1
          split at h
          · simp at h
          · rename_i b hb
            cases h
            obtain ⟨hk, ht⟩ := shl_one_testBit k a1 ha1
            exact ⟨hk, by rw [Int.testBit_lor, ht]; rfl⟩
      · simp at hid

/-- The mask of a non-empty list of types, when it is defined, is not zero: it holds the bit
of the first type. -/
theorem component_mask_pos_of_ne_nil (ks : List Nat) (mask : ComponentMask)
    (hks : ks ≠ []) (h : detail.component_mask ks = .ok mask) : 0 < mask := by
  cases ks with
  | nil => exact absurd rfl hks
  | cons k ks =>
    unfold detail.component_mask at h
    split at h
    · simp at h
    · rename_i a ha
      cases h
      obtain ⟨hk, ht⟩ := component_mask_int_testBit k ks a ha
      have hk64 : k < 64 := by omega
      have hb : (to_u64 a).testBit k = true := by
        rw [testBit_to_u64, ht]
        simp [hk64]
      rcases Nat.eq_zero_or_pos (to_u64 a) with h0 | hp
      · rw [h0] at hb
        simp at hb
      · exact hp

/-- A slot without components does not pass the test of the query loops, for a mask that is
not zero. -/
theorem not_slot_matches_of_mask_zero (w : World V) (mask : ComponentMask) (j : Nat)
    (hmask : 0 < mask) (hz : (w.entities_ j).cmask = 0) : w.slot_matches mask j = false := by
  unfold World.slot_matches
  rw [hz]
  have hne : (0 : Nat) ≠ mask := Nat.ne_of_lt hmask
  simpa using hne

theorem destroy_entity_clears_mask (w w1 : World V) (e : Entity)
    (h : w.destroy_entity e = .ok w1) : (w1.entities_ e.idx).cmask = 0 := by
  rw [(destroy_entity_ok w w1 e h).2]
  simp

/-! ## Queries with a callback that changes the world -/

/-- The record of the loop of `for_each` satisfies `VisitsFrom`. -/
theorem for_each_loop_visits {S : Type} (mask : ComponentMask) (func : Callback S V)
    (fuel i : Nat) (st : S × World V) (tr : List (Visit V)) (fin : S × World V)
    (h : for_each_loop mask func fuel i st = .ok (tr, fin)) :
    VisitsFrom mask i st.2 tr := by
  induction fuel generalizing i st tr fin with
  | zero =>
    simp only [for_each_loop] at h
    split at h
    · simp at h
    · rename_i hlt
      simp only [Except.ok.injEq, Prod.mk.injEq] at h
      obtain ⟨h1, -⟩ := h
      subst h1
      intro k hk hk2
      omega
  | succ fuel ih =>
    simp only [for_each_loop] at h
    split at h
    · rename_i hlt
      split at h
      · rename_i hmt
        split at h
        · simp at h
        · rename_i st1 hst1
          split at h
          · simp at h
          · rename_i r hr
            simp only [Except.ok.injEq, Prod.mk.injEq] at h
            obtain ⟨h1, h2⟩ := h
            subst h1
            exact ⟨Nat.le_refl _, hlt, fun k hk hk2 => absurd hk (Nat.not_le.2 hk2), hmt,
              rfl, rfl, ih (i + 1) st1 r.1 r.2 hr⟩
      · rename_i hmt
        have hrec := ih (i + 1) st tr fin h
        have hmf : st.2.slot_matches mask i = false := by simpa using hmt
        cases tr with
        | nil =>
          intro k hk hk2
          rcases Nat.eq_or_lt_of_le hk with h1 | h1
          · rw [← h1]; exact hmf
          · exact hrec k h1 hk2
        | cons v tr =>
          obtain ⟨h1, h2, h3, h4, h5, h6, h7⟩ := hrec
          refine ⟨by omega, h2, fun k hk hk2 => ?_, h4, h5, h6, h7⟩
          rcases Nat.eq_or_lt_of_le hk with hh | hh
          · rw [← hh]; exact hmf
          · exact h3 k hh hk2
    · rename_i hlt
      simp only [Except.ok.injEq, Prod.mk.injEq] at h
      obtain ⟨h1, -⟩ := h
      subst h1
      intro k hk hk2
      omega

/-- A later part of a record that satisfies `VisitsFrom` satisfies it too, from the slot after
the invocation before it and in the world that invocation left. -/
theorem visitsFrom_suffix (mask : ComponentMask) (pre : List (Visit V)) (v : Visit V)
    (post : List (Visit V)) (i : Nat) (w : World V)
    (h : VisitsFrom mask i w (pre ++ v :: post)) :
    i ≤ v.slot ∧ VisitsFrom mask (v.slot + 1) v.after post := by
  induction pre generalizing i w with
  | nil =>
    obtain ⟨h1, -, -, -, -, -, h7⟩ := h
    exact ⟨h1, h7⟩
  | cons u pre ih =>
    obtain ⟨h1, -, -, -, -, -, h7⟩ := h
    obtain ⟨h8, h9⟩ := ih (u.slot + 1) u.after h7
    exact ⟨by omega, h9⟩

/-- The slots of a record that satisfies `VisitsFrom` are at least the start slot. -/
theorem visitsFrom_slot_ge (mask : ComponentMask) (tr : List (Visit V)) (i : Nat)
    (w : World V) (h : VisitsFrom mask i w tr) : ∀ v ∈ tr, i ≤ v.slot := by
  induction tr generalizing i w with
  | nil => intro v hv; simp at hv
  | cons u tr ih =>
    obtain ⟨h1, -, -, -, -, -, h7⟩ := h
    intro v hv
    rcases List.mem_cons.1 hv with hh | hh
    · rw [hh]; exact h1
    · have := ih (u.slot + 1) u.after h7 v hh
      omega

/-- A slot that has no components at the start, and after every recorded invocation, is not
among the recorded slots. -/
theorem visitsFrom_skips_empty_slot (mask : ComponentMask) (hmask : 0 < mask)
    (tr : List (Visit V)) (i j : Nat) (w : World V) (h : VisitsFrom mask i w tr)
    (hz : (w.entities_ j).cmask = 0) (hkeep : ∀ v ∈ tr, (v.after.entities_ j).cmask = 0) :
    ∀ v ∈ tr, v.slot ≠ j := by
  induction tr generalizing i w with
  | nil => intro v hv; simp at hv
  | cons u tr ih =>
    obtain ⟨-, -, -, h4, -, -, h7⟩ := h
    intro v hv
    rcases List.mem_cons.1 hv with hh | hh
    · rw [hh]
      intro hj
      rw [hj, not_slot_matches_of_mask_zero w mask j hmask hz] at h4
      simp at h4
    · exact ih (u.slot + 1) u.after h7 (hkeep u (by simp))
        (fun x hx => hkeep x (by simp [hx])) v hh

/-- C17: in a `for_each` pass, when the callback destroys an entity `e` during its invocation
for some slot and leaves the slot of `e` as `destroy` left it, and the slot of `e` has no
components after every later invocation of the pass, then no later invocation of the pass is
for the slot of `e` (whatever its index, so in particular when it is greater than the slot
being visited). -/
theorem for_each_skips_destroyed_slot {S : Type} (w : World V) (ks : List Nat)
    (mask : ComponentMask) (hks : ks ≠ []) (hm : detail.component_mask ks = .ok mask)
    (func : Callback S V) (s : S) (tr : List (Visit V)) (fin : S × World V)
    (hpass : w.for_each_entity ks func s = .ok (tr, fin))
    (pre post : List (Visit V)) (v : Visit V) (htr : tr = pre ++ v :: post)
    (e : Entity) (wd wd1 : World V) (hdes : wd.destroy_entity e = .ok wd1)
    (hleft : v.after.entities_ e.idx = wd1.entities_ e.idx)
    (hkeep : ∀ v2 ∈ post, (v2.after.entities_ e.idx).cmask = 0) :
    ∀ v2 ∈ post, v2.slot ≠ e.idx := by
  have hmask := component_mask_pos_of_ne_nil ks mask hks hm
  unfold World.for_each_entity at hpass
  rw [hm] at hpass
  have hv := for_each_loop_visits mask func MaxEntities 0 (s, w) tr fin hpass
  rw [htr] at hv
  obtain ⟨-, hpost⟩ := visitsFrom_suffix mask pre v post 0 w hv
  have hz : (v.after.entities_ e.idx).cmask = 0 := by
    rw [hleft]
    exact destroy_entity_clears_mask wd wd1 e hdes
  exact visitsFrom_skips_empty_slot mask hmask post (v.slot + 1) e.idx v.after hpost hz hkeep

/-- Witness of C17: three entities with a component of type 0; the callback destroys `(2, 1)`
while it visits `(0, 1)`, and the rest of the pass visits slot 1 only. -/
theorem for_each_skips_destroyed_slot_witness :
    ∃ (wd1 : World Nat) (tr post : List (Visit Nat)) (v : Visit Nat) (fin : Unit × World Nat),
      (world_after (0 : Nat) [Op.create, Op.create, Op.create, Op.add ⟨0, 1⟩ 0 5,
        Op.add ⟨1, 1⟩ 0 6, Op.add ⟨2, 1⟩ 0 7]).for_each_entity [0]
          (run_on_visit ⟨0, 1⟩ [Op.destroy ⟨2, 1⟩]) () = .ok (tr, fin) ∧
      tr = [] ++ v :: post ∧
      tr.map (fun x => x.slot) = [0, 1] ∧
      v.before.destroy_entity ⟨2, 1⟩ = .ok wd1 ∧
      v.after.entities_ (⟨2, 1⟩ : Entity).idx = wd1.entities_ (⟨2, 1⟩ : Entity).idx ∧
      (∀ v2 ∈ post, (v2.after.entities_ (⟨2, 1⟩ : Entity).idx).cmask = 0) ∧
      ∀ v2 ∈ post, v2.slot ≠ (⟨2, 1⟩ : Entity).idx := by
  have hkeep : ∀ (post : List (Visit Nat)) (u : Visit Nat), post = [u] →
      (u.after.entities_ 2).cmask = 0 →
      ∀ v2 ∈ post, (v2.after.entities_ (⟨2, 1⟩ : Entity).idx).cmask = 0 := by
    intro post u hp hu v2 hv2
    rw [hp, List.mem_singleton] at hv2
    rw [hv2]
    exact hu
  refine ⟨_, _, _, _, _, rfl, rfl, by decide, rfl, rfl, hkeep _ _ rfl rfl, ?_⟩
  exact for_each_skips_destroyed_slot
    (world_after (0 : Nat) [Op.create, Op.create, Op.create, Op.add ⟨0, 1⟩ 0 5,
      Op.add ⟨1, 1⟩ 0 6, Op.add ⟨2, 1⟩ 0 7])
    [0] 1 (by decide) (by decide) (run_on_visit ⟨0, 1⟩ [Op.destroy ⟨2, 1⟩]) () _ _ rfl [] _ _
    rfl ⟨2, 1⟩
    (world_after (0 : Nat) [Op.create, Op.create, Op.create, Op.add ⟨0, 1⟩ 0 5,
      Op.add ⟨1, 1⟩ 0 6, Op.add ⟨2, 1⟩ 0 7])
    _ rfl rfl (hkeep _ _ rfl rfl)

/-- When the invocations before `v` left the world alone, `v` starts in the world of the start
of the pass. -/
theorem visitsFrom_before_eq (mask : ComponentMask) (pre : List (Visit V)) (v : Visit V)
    (post : List (Visit V)) (i : Nat) (w : World V)
    (h : VisitsFrom mask i w (pre ++ v :: post)) (hun : ∀ u ∈ pre, u.after = u.before) :
    v.before = w := by
  induction pre generalizing i with
  | nil =>
    obtain ⟨-, -, -, -, h5, -, -⟩ := h
    exact h5
  | cons u pre ih =>
    obtain ⟨-, -, -, -, h5, -, h7⟩ := h
    have hu : u.after = w := by rw [hun u (by simp), h5]
    rw [hu] at h7
    exact ih (u.slot + 1) h7 (fun x hx => hun x (by simp [hx]))

/-- When no recorded invocation changes the world, every slot from the start slot on that
passes the test is visited, with its id. -/
theorem visitsFrom_complete (mask : ComponentMask) (tr : List (Visit V)) (i : Nat)
    (w : World V) (h : VisitsFrom mask i w tr) (hun : ∀ u ∈ tr, u.after = u.before)
    (k : Nat) (hik : i ≤ k) (hk : k < w.next_entity_idx_)
    (hmt : w.slot_matches mask k = true) :
    ∃ u ∈ tr, u.slot = k ∧ u.id = (w.entities_ k).id := by
  induction tr generalizing i with
  | nil =>
    have := h k hik hk
    rw [hmt] at this
    simp at this
  | cons u tr ih =>
    obtain ⟨-, -, h3, -, h5, h6, h7⟩ := h
    rcases Nat.lt_trichotomy k u.slot with hlt | heq | hgt
    · have := h3 k hik hlt
      rw [hmt] at this
      simp at this
    · exact ⟨u, by simp, heq.symm, by rw [h6, heq]⟩
    · have hu : u.after = w := by rw [hun u (by simp), h5]
      rw [hu] at h7
      obtain ⟨x, hx, hx2⟩ := ih (u.slot + 1) h7 (fun x hx => hun x (by simp [hx])) (by omega)
      exact ⟨x, by simp [hx], hx2⟩

/-- A run of `add` calls keeps the high-water mark, the free list and the id of every slot. -/
theorem run_adds_frame (w w2 : World V) (adds : List (Op V))
    (hadds : ∀ op ∈ adds, ∃ e k val, op = Op.add e k val) (h : run w adds = .ok w2) :
    w2.next_entity_idx_ = w.next_entity_idx_ ∧ w2.free_list_ = w.free_list_ ∧
    ∀ i, (w2.entities_ i).id = (w.entities_ i).id := by
  induction adds generalizing w with
  | nil =>
    simp only [run] at h
    cases h
    exact ⟨rfl, rfl, fun _ => rfl⟩
  | cons op adds ih =>
    obtain ⟨w1, hs, hr⟩ := run_cons_ok w w2 op adds h
    obtain ⟨e, k, val, hop⟩ := hadds op (by simp)
    subst hop
    obtain ⟨c, ha⟩ := step_add_ok w w1 e k val hs
    obtain ⟨-, -, -, m, -, hw1⟩ := add_component_ok w w1 e k val c ha
    obtain ⟨h1, h2, h3⟩ := ih w1 (fun op hop => hadds op (by simp [hop])) hr
    have hid : ∀ i, (w1.entities_ i).id = (w.entities_ i).id := by
      intro i
      rcases step_id w w1 (Op.add e k val) hs i with hh | ⟨e2, hh, -⟩
      · exact hh
      · cases hh
    refine ⟨?_, ?_, fun i => ?_⟩
    · rw [h1, hw1]
    · rw [h2, hw1]
    · rw [h3 i, hid i]

/-- The slot `create()` hands out is below the high-water mark afterwards, in a world whose
free indices are below the mark, and the id returned is the id of that slot. -/
theorem create_entity_slot (w wc : World V) (e : Entity) (hslot : SlotIdx w)
    (hfree : ∀ j ∈ w.free_list_, j < w.next_entity_idx_)
    (h : w.create_entity = .ok (e, wc)) :
    e.idx < wc.next_entity_idx_ ∧ (wc.entities_ e.idx).id = e := by
  obtain ⟨hwc, -, hid, hent, -⟩ := create_entity_ok w wc e h
  have hidx : e.idx = w.get_free_entity_idx.1 := by rw [hid]; exact hslot _
  refine ⟨?_, by rw [hent, hidx, ← hid]⟩
  rw [hidx, hwc]
  by_cases hf : w.free_list_ = []
  · rw [get_free_entity_idx_nil w hf]
    exact Nat.lt_succ_self _
  · rw [get_free_entity_idx_ne_nil w hf]
    exact hfree _ (pq_top_spec w.free_list_ hf).1

/-- C13: in a reachable world whose free indices are below `next_entity_idx_`, take a
`for_each` pass in which the invocation `v` of the callback creates one entity and adds
components to it so that its mask contains the required mask, and in which no other invocation
changes the world. Then the new entity is visited by a later invocation of the pass if and
only if its slot index is greater than the slot of `v`. -/
theorem for_each_visits_created_entity {S : Type} (zero : V) (w : World V)
    (hw : Reachable zero w) (hfree : ∀ j ∈ w.free_list_, j < w.next_entity_idx_)
    (ks : List Nat) (mask : ComponentMask) (hm : detail.component_mask ks = .ok mask)
    (func : Callback S V) (s : S) (tr : List (Visit V)) (fin : S × World V)
    (hpass : w.for_each_entity ks func s = .ok (tr, fin))
    (pre post : List (Visit V)) (v : Visit V) (htr : tr = pre ++ v :: post)
    (enew : Entity) (wc : World V) (adds : List (Op V))
    (hcreate : v.before.create_entity = .ok (enew, wc))
    (hadds : ∀ op ∈ adds, ∃ k val, op = Op.add enew k val)
    (hrun : run wc adds = .ok v.after)
    (hall : (v.after.entities_ enew.idx).cmask &&& mask = mask)
    (hother : ∀ v2 ∈ pre ++ post, v2.after = v2.before) :
    (∃ v2 ∈ post, v2.slot = enew.idx ∧ v2.id = enew) ↔ v.slot < enew.idx := by
  unfold World.for_each_entity at hpass
  rw [hm] at hpass
  have hv := for_each_loop_visits mask func MaxEntities 0 (s, w) tr fin hpass
  rw [htr] at hv
  obtain ⟨-, hpost⟩ := visitsFrom_suffix mask pre v post 0 w hv
  have hbefore : v.before = w :=
    visitsFrom_before_eq mask pre v post 0 w hv (fun u hu => hother u (by simp [hu]))
  constructor
  · rintro ⟨v2, hv2, hslot, -⟩
    have := visitsFrom_slot_ge mask post (v.slot + 1) v.after hpost v2 hv2
    omega
  · intro hlt
    rw [hbefore] at hcreate
    obtain ⟨hnext, hid⟩ :=
      create_entity_slot w wc enew (slotIdx_reachable zero w hw) hfree hcreate
    obtain ⟨h1, -, h3⟩ := run_adds_frame wc v.after adds
      (fun op hop => by
        obtain ⟨k, val, h⟩ := hadds op hop
        exact ⟨enew, k, val, h⟩) hrun
    have hmt : v.after.slot_matches mask enew.idx = true := by
      unfold World.slot_matches
      simp [hall]
    obtain ⟨u, hu, hu1, hu2⟩ := visitsFrom_complete mask post (v.slot + 1) v.after hpost
      (fun u hu => hother u (by simp [hu])) enew.idx (by omega) (by rw [h1]; exact hnext) hmt
    exact ⟨u, hu, hu1, by rw [hu2, h3, hid]⟩

/-- Witness of C13: two entities with a component of type 0; while it visits `(0, 1)` the
callback creates an entity, which gets the fresh slot 2, and adds the component to it; the
pass then visits slot 1 and the new entity `(2, 1)`. -/
theorem for_each_visits_created_entity_witness :
    ∃ (tr post : List (Visit Nat)) (v : Visit Nat) (fin : Unit × World Nat) (wc : World Nat),
      (world_after (0 : Nat) [Op.create, Op.create, Op.add ⟨0, 1⟩ 0 5,
        Op.add ⟨1, 1⟩ 0 6]).for_each_entity [0]
          (run_on_visit ⟨0, 1⟩ [Op.create, Op.add ⟨2, 1⟩ 0 9]) () = .ok (tr, fin) ∧
      tr = [] ++ v :: post ∧
      tr.map (fun x => (x.slot, x.id)) = [(0, ⟨0, 1⟩), (1, ⟨1, 1⟩), (2, ⟨2, 1⟩)] ∧
      Reachable (0 : Nat) (world_after (0 : Nat) [Op.create, Op.create, Op.add ⟨0, 1⟩ 0 5,
        Op.add ⟨1, 1⟩ 0 6]) ∧
      v.before.create_entity = .ok (⟨2, 1⟩, wc) ∧
      run wc [Op.add ⟨2, 1⟩ 0 9] = .ok v.after ∧
      (v.after.entities_ (⟨2, 1⟩ : Entity).idx).cmask &&& 1 = 1 ∧
      (∀ v2 ∈ [] ++ post, v2.after = v2.before) ∧
      ((∃ v2 ∈ post, v2.slot = (⟨2, 1⟩ : Entity).idx ∧ v2.id = ⟨2, 1⟩) ↔
        v.slot < (⟨2, 1⟩ : Entity).idx) := by
  have hother : ∀ (post : List (Visit Nat)) (a b : Visit Nat), post = [a, b] →
      a.after = a.before → b.after = b.before → ∀ v2 ∈ [] ++ post, v2.after = v2.before := by
    intro post a b hp ha hb v2 hv2
    rw [hp] at hv2
    simp only [List.nil_append, List.mem_cons, List.mem_singleton, List.not_mem_nil,
      or_false] at hv2
    rcases hv2 with h | h
    · rw [h]; exact ha
    · rw [h]; exact hb
  have hr : Reachable (0 : Nat) (world_after (0 : Nat) [Op.create, Op.create,
      Op.add ⟨0, 1⟩ 0 5, Op.add ⟨1, 1⟩ 0 6]) :=
    ⟨[Op.create, Op.create, Op.add ⟨0, 1⟩ 0 5, Op.add ⟨1, 1⟩ 0 6], rfl⟩
  refine ⟨_, _, _, _, _, rfl, rfl, by decide, hr, rfl, rfl, by decide,
    hother _ _ _ rfl rfl rfl, ?_⟩
  exact for_each_visits_created_entity (0 : Nat)
    (world_after (0 : Nat) [Op.create, Op.create, Op.add ⟨0, 1⟩ 0 5, Op.add ⟨1, 1⟩ 0 6])
    hr (by decide) [0] 1 (by decide) (run_on_visit ⟨0, 1⟩ [Op.create, Op.add ⟨2, 1⟩ 0 9]) ()
    _ _ rfl [] _ _ rfl ⟨2, 1⟩ _ [Op.add ⟨2, 1⟩ 0 9] rfl
    (fun op hop => ⟨0, 9, by simpa using hop⟩) rfl (by decide) (hother _ _ _ rfl rfl rfl)

/-! ## The pair query with a callback that changes the world -/

theorem pairChain_of_matches (mask : ComponentMask) (i : Nat) (w w_end : World V)
    (tr : List (PairVisit V)) (h : PairChain mask (some i) w tr w_end)
    (hmt : w.slot_matches mask i = true) : ∀ cur, PairChain mask cur w tr w_end := by
  intro cur
  cases tr with
  | nil => exact h
  | cons v tr =>
    obtain ⟨h1, h2, h3, h4⟩ := h
    refine ⟨h1, h2, Or.inr ?_, h4⟩
    rcases h3 with h3 | h3
    · cases h3
      exact hmt
    · exact h3

theorem pairChain_append (mask : ComponentMask) (tr1 tr2 : List (PairVisit V))
    (cur : Option Nat) (w w1 w2 : World V) (h1 : PairChain mask cur w tr1 w1)
    (h2 : ∀ cur2, PairChain mask cur2 w1 tr2 w2) : PairChain mask cur w (tr1 ++ tr2) w2 := by
  induction tr1 generalizing cur w with
  | nil =>
    have : w1 = w := h1
    subst this
    exact h2 cur
  | cons v tr1 ih =>
    obtain ⟨a, b, c, d⟩ := h1
    exact ⟨a, b, c, ih (some v.first) v.after d⟩

/-- The record of the inner loop of `for_each_pair` satisfies `PairChain` for its outer
slot. -/
theorem for_each_pair_inner_chain {S : Type} (mask : ComponentMask) (func : PairCallback S V)
    (last i fuel j : Nat) (st : S × World V) (tr : List (PairVisit V)) (fin : S × World V)
    (h : for_each_pair_inner mask func last i fuel j st = .ok (tr, fin)) :
    PairChain mask (some i) st.2 tr fin.2 := by
  induction fuel generalizing j st tr fin with
  | zero =>
    simp only [for_each_pair_inner] at h
    split at h
    · simp at h
    · simp only [Except.ok.injEq, Prod.mk.injEq] at h
      obtain ⟨h1, h2⟩ := h
      subst h1 h2
      rfl
  | succ fuel ih =>
    simp only [for_each_pair_inner] at h
    split at h
    · split at h
      · rename_i hmt
        split at h
        · simp at h
        · rename_i st1 hst1
          split at h
          · simp at h
          · rename_i r hr
            simp only [Except.ok.injEq, Prod.mk.injEq] at h
            obtain ⟨h1, h2⟩ := h
            subst h1 h2
            exact ⟨rfl, hmt, Or.inl rfl, ih (j + 1) st1 r.1 r.2 hr⟩
      · exact ih (j + 1) st tr fin h
    · simp only [Except.ok.injEq, Prod.mk.injEq] at h
      obtain ⟨h1, h2⟩ := h
      subst h1 h2
      rfl

/-- The record of the outer loop of `for_each_pair` satisfies `PairChain`, whatever outer slot
ran before. -/
theorem for_each_pair_outer_chain {S : Type} (mask : ComponentMask) (func : PairCallback S V)
    (last fuel i : Nat) (st : S × World V) (tr : List (PairVisit V)) (fin : S × World V)
    (h : for_each_pair_outer mask func last fuel i st = .ok (tr, fin)) :
    ∀ cur, PairChain mask cur st.2 tr fin.2 := by
  induction fuel generalizing i st tr fin with
  | zero =>
    simp only [for_each_pair_outer] at h
    split at h
    · simp at h
    · simp only [Except.ok.injEq, Prod.mk.injEq] at h
      obtain ⟨h1, h2⟩ := h
      subst h1 h2
      intro cur
      rfl
  | succ fuel ih =>
    simp only [for_each_pair_outer] at h
    split at h
    · split at h
      · rename_i hmt
        split at h
        · simp at h
        · rename_i r1 hr1
          split at h
          · simp at h
          · rename_i r2 hr2
            simp only [Except.ok.injEq, Prod.mk.injEq] at h
            obtain ⟨h1, h2⟩ := h
            subst h1 h2
            intro cur
            have hin := for_each_pair_inner_chain mask func last i fuel (i + 1) st r1.1 r1.2 hr1
            exact pairChain_append mask r1.1 r2.1 cur st.2 r1.2.2 r2.2.2
              (pairChain_of_matches mask i st.2 r1.2.2 r1.1 hin hmt cur)
              (ih (i + 1) r1.2 r2.1 r2.2 hr2)
      · exact ih (i + 1) st tr fin h
    · simp only [Except.ok.injEq, Prod.mk.injEq] at h
      obtain ⟨h1, h2⟩ := h
      subst h1 h2
      intro cur
      rfl

theorem pairChain_suffix (mask : ComponentMask) (pre : List (PairVisit V)) (v : PairVisit V)
    (post : List (PairVisit V)) (cur : Option Nat) (w w_end : World V)
    (h : PairChain mask cur w (pre ++ v :: post) w_end) :
    PairChain mask (some v.first) v.after post w_end := by
  induction pre generalizing cur w with
  | nil => exact h.2.2.2
  | cons u pre ih => exact ih (some u.first) u.after h.2.2.2

/-- A slot that has no components at the start, and after every recorded invocation, is never
the second slot of a recorded invocation, and it is the first slot only when it is the outer
slot that was already running. -/
theorem pairChain_skips_empty_slot (mask : ComponentMask) (hmask : 0 < mask)
    (tr : List (PairVisit V)) (c j : Nat) (w w_end : World V)
    (h : PairChain mask (some c) w tr w_end) (hz : (w.entities_ j).cmask = 0)
    (hkeep : ∀ u ∈ tr, (u.after.entities_ j).cmask = 0) :
    ∀ u ∈ tr, u.second ≠ j ∧ (u.first = j → c = j) := by
  induction tr generalizing c w with
  | nil => intro u hu; simp at hu
  | cons x tr ih =>
    obtain ⟨-, h2, h3, h4⟩ := h
    have hx : x.second ≠ j ∧ (x.first = j → c = j) := by
      constructor
      · intro hj
        rw [hj, not_slot_matches_of_mask_zero w mask j hmask hz] at h2
        simp at h2
      · intro hj
        rcases h3 with h3 | h3
        · cases h3
          exact hj
        · rw [hj, not_slot_matches_of_mask_zero w mask j hmask hz] at h3
          simp at h3
    intro u hu
    rcases List.mem_cons.1 hu with hh | hh
    · rw [hh]; exact hx
    · obtain ⟨a, b⟩ := ih x.first x.after h4 (hkeep x (by simp))
        (fun y hy => hkeep y (by simp [hy])) u hh
      exact ⟨a, fun hj => hx.2 (b hj)⟩

/-- C18 (as amended): in a `for_each_pair` pass, when the callback destroys an entity `e`
during the invocation `v` and leaves the slot of `e` as `destroy` left it, and the slot of `e`
has no components after every later invocation of the pass, then no later invocation of the
pass receives the slot of `e` as second member, and a later invocation receives it as first
member only if it was the first member of `v` already, that is, in the rest of the outer step
that was running when `e` was destroyed. -/
theorem for_each_pair_skips_destroyed_slot {S : Type} (w : World V) (ks : List Nat)
    (mask : ComponentMask) (hks : ks ≠ []) (hm : detail.component_mask ks = .ok mask)
    (func : PairCallback S V) (s : S) (tr : List (PairVisit V)) (fin : S × World V)
    (hpass : w.for_each_entity_pair ks func s = .ok (tr, fin))
    (pre post : List (PairVisit V)) (v : PairVisit V) (htr : tr = pre ++ v :: post)
    (e : Entity) (wd wd1 : World V) (hdes : wd.destroy_entity e = .ok wd1)
    (hleft : v.after.entities_ e.idx = wd1.entities_ e.idx)
    (hkeep : ∀ v2 ∈ post, (v2.after.entities_ e.idx).cmask = 0) :
    ∀ v2 ∈ post, v2.second ≠ e.idx ∧ (v2.first = e.idx → v.first = e.idx) := by
  have hmask := component_mask_pos_of_ne_nil ks mask hks hm
  unfold World.for_each_entity_pair at hpass
  rw [hm] at hpass
  have hc := for_each_pair_outer_chain mask func w.next_entity_idx_ MaxEntities 0 (s, w) tr fin
    hpass none
  rw [htr] at hc
  have hpost := pairChain_suffix mask pre v post none w fin.2 hc
  have hz : (v.after.entities_ e.idx).cmask = 0 := by
    rw [hleft]
    exact destroy_entity_clears_mask wd wd1 e hdes
  exact pairChain_skips_empty_slot mask hmask post v.first e.idx v.after fin.2 hpost hz hkeep

/-- Witness of C18 (as amended): three entities with a component of type 0; the callback
destroys `(1, 1)` when it is invoked on the pair of slots 0 and 1; the only later invocation
is for the slots 0 and 2. -/
theorem for_each_pair_skips_destroyed_slot_witness :
    ∃ (tr post : List (PairVisit Nat)) (v : PairVisit Nat) (fin : Unit × World Nat)
      (wd1 : World Nat),
      (world_after (0 : Nat) [Op.create, Op.create, Op.create, Op.add ⟨0, 1⟩ 0 5,
        Op.add ⟨1, 1⟩ 0 6, Op.add ⟨2, 1⟩ 0 7]).for_each_entity_pair [0]
          (run_on_pair ⟨0, 1⟩ ⟨1, 1⟩ [Op.destroy ⟨1, 1⟩]) () = .ok (tr, fin) ∧
      tr = [] ++ v :: post ∧
      tr.map (fun x => (x.first, x.second)) = [(0, 1), (0, 2)] ∧
      v.before.destroy_entity ⟨1, 1⟩ = .ok wd1 ∧
      v.after.entities_ (⟨1, 1⟩ : Entity).idx = wd1.entities_ (⟨1, 1⟩ : Entity).idx ∧
      (∀ v2 ∈ post, (v2.after.entities_ (⟨1, 1⟩ : Entity).idx).cmask = 0) ∧
      ∀ v2 ∈ post, v2.second ≠ (⟨1, 1⟩ : Entity).idx ∧
        (v2.first = (⟨1, 1⟩ : Entity).idx → v.first = (⟨1, 1⟩ : Entity).idx) := by
  have hkeep : ∀ (post : List (PairVisit Nat)) (u : PairVisit Nat), post = [u] →
      (u.after.entities_ 1).cmask = 0 →
      ∀ v2 ∈ post, (v2.after.entities_ (⟨1, 1⟩ : Entity).idx).cmask = 0 := by
    intro post u hp hu v2 hv2
    rw [hp, List.mem_singleton] at hv2
    rw [hv2]
    exact hu
  refine ⟨_, _, _, _, _, rfl, rfl, by decide, rfl, rfl, hkeep _ _ rfl rfl, ?_⟩
  exact for_each_pair_skips_destroyed_slot
    (world_after (0 : Nat) [Op.create, Op.create, Op.create, Op.add ⟨0, 1⟩ 0 5,
      Op.add ⟨1, 1⟩ 0 6, Op.add ⟨2, 1⟩ 0 7])
    [0] 1 (by decide) (by decide) (run_on_pair ⟨0, 1⟩ ⟨1, 1⟩ [Op.destroy ⟨1, 1⟩]) () _ _ rfl
    [] _ _ rfl ⟨1, 1⟩
    (world_after (0 : Nat) [Op.create, Op.create, Op.create, Op.add ⟨0, 1⟩ 0 5,
      Op.add ⟨1, 1⟩ 0 6, Op.add ⟨2, 1⟩ 0 7])
    _ rfl rfl (hkeep _ _ rfl rfl)

/-- C18 fails as stated: three entities with a component of type 0; the callback destroys
`(0, 1)`, the first member, when it is invoked on the pair of slots 0 and 1, and slot 0 has
no components from then on; the next invocation still receives slot 0 as first member, with
the id `(0, 2)` the slot holds after the destruction. -/
theorem for_each_pair_passes_destroyed_first_slot :
    ∃ (tr post : List (PairVisit Nat)) (v : PairVisit Nat) (fin : Unit × World Nat)
      (wd1 : World Nat),
      (world_after (0 : Nat) [Op.create, Op.create, Op.create, Op.add ⟨0, 1⟩ 0 5,
        Op.add ⟨1, 1⟩ 0 6, Op.add ⟨2, 1⟩ 0 7]).for_each_entity_pair [0]
          (run_on_pair ⟨0, 1⟩ ⟨1, 1⟩ [Op.destroy ⟨0, 1⟩]) () = .ok (tr, fin) ∧
      tr = [] ++ v :: post ∧
      tr.map (fun x => (x.first, x.second, x.first_id, x.second_id)) =
        [(0, 1, ⟨0, 1⟩, ⟨1, 1⟩), (0, 2, ⟨0, 2⟩, ⟨2, 1⟩), (1, 2, ⟨1, 1⟩, ⟨2, 1⟩)] ∧
      v.before.destroy_entity ⟨0, 1⟩ = .ok wd1 ∧
      v.after.entities_ (⟨0, 1⟩ : Entity).idx = wd1.entities_ (⟨0, 1⟩ : Entity).idx ∧
      (∀ v2 ∈ post, (v2.after.entities_ (⟨0, 1⟩ : Entity).idx).cmask = 0) ∧
      ¬ (∀ v2 ∈ post, v2.first ≠ (⟨0, 1⟩ : Entity).idx ∧
        v2.second ≠ (⟨0, 1⟩ : Entity).idx) := by
  have hkeep : ∀ (post : List (PairVisit Nat)) (a b : PairVisit Nat), post = [a, b] →
      (a.after.entities_ 0).cmask = 0 → (b.after.entities_ 0).cmask = 0 →
      ∀ v2 ∈ post, (v2.after.entities_ (⟨0, 1⟩ : Entity).idx).cmask = 0 := by
    intro post a b hp ha hb v2 hv2
    rw [hp] at hv2
    simp only [List.mem_cons, List.mem_singleton, List.not_mem_nil, or_false] at hv2
    rcases hv2 with h | h
    · rw [h]; exact ha
    · rw [h]; exact hb
  have hnot : ∀ (post : List (PairVisit Nat)) (a b : PairVisit Nat), post = [a, b] →
      a.first = 0 →
      ¬ (∀ v2 ∈ post, v2.first ≠ (⟨0, 1⟩ : Entity).idx ∧
        v2.second ≠ (⟨0, 1⟩ : Entity).idx) := by
    intro post a b hp ha hall
    exact (hall a (by rw [hp]; simp)).1 ha
  exact ⟨_, _, _, _, _, rfl, rfl, by decide, rfl, rfl, hkeep _ _ _ rfl rfl rfl,
    hnot _ _ _ rfl rfl⟩

/-- C16 on a world with a free slot: slots 0 to 3 are created, slots 0, 1 and 3 get a
component of type 0 and the entity of slot 2 is destroyed, so `last` is 4. Invoked on the pair
of slots 0 and 1 the callback creates an entity, which gets the free slot 2 and the id
`(2, 2)`, and adds the component to it. The same pass then passes `(2, 2)` to the callback,
as second member with slots 0 and 1 and as first member with slot 3. -/
theorem for_each_pair_visits_entity_created_in_free_slot :
    ∃ (tr : List (PairVisit Nat)) (fin : Unit × World Nat) (wc : World Nat),
      Reachable (0 : Nat) (world_after (0 : Nat) [Op.create, Op.create, Op.create, Op.create,
        Op.add ⟨0, 1⟩ 0 5, Op.add ⟨1, 1⟩ 0 6, Op.add ⟨3, 1⟩ 0 7, Op.destroy ⟨2, 1⟩]) ∧
      (world_after (0 : Nat) [Op.create, Op.create, Op.create, Op.create,
        Op.add ⟨0, 1⟩ 0 5, Op.add ⟨1, 1⟩ 0 6, Op.add ⟨3, 1⟩ 0 7,
        Op.destroy ⟨2, 1⟩]).create_entity = .ok (⟨2, 2⟩, wc) ∧
      (world_after (0 : Nat) [Op.create, Op.create, Op.create, Op.create,
        Op.add ⟨0, 1⟩ 0 5, Op.add ⟨1, 1⟩ 0 6, Op.add ⟨3, 1⟩ 0 7,
        Op.destroy ⟨2, 1⟩]).for_each_entity_pair [0]
          (run_on_pair ⟨0, 1⟩ ⟨1, 1⟩ [Op.create, Op.add ⟨2, 2⟩ 0 9]) () = .ok (tr, fin) ∧
      tr.map (fun x => (x.first_id, x.second_id)) =
        [(⟨0, 1⟩, ⟨1, 1⟩), (⟨0, 1⟩, ⟨2, 2⟩), (⟨0, 1⟩, ⟨3, 1⟩), (⟨1, 1⟩, ⟨2, 2⟩),
          (⟨1, 1⟩, ⟨3, 1⟩), (⟨2, 2⟩, ⟨3, 1⟩)] :=
  ⟨_, _, _,
    ⟨[Op.create, Op.create, Op.create, Op.create, Op.add ⟨0, 1⟩ 0 5, Op.add ⟨1, 1⟩ 0 6,
      Op.add ⟨3, 1⟩ 0 7, Op.destroy ⟨2, 1⟩], rfl⟩, rfl, rfl, by decide⟩

/-! ## Effects of `destroy`, `create` and `add` on the whole world -/

/-- C24: `destroy(id)` on an existing id succeeds and changes exactly this: slot `id.idx`
holds the id `(id.idx, id.gen + 1)` and the mask 0, and `id.idx` is put once on the free list;
every other slot, `next_entity_idx_` and every pool cell, those of slot `id.idx` included, are
as before. -/
theorem destroy_entity_frame (zero : V) (w : World V) (hw : Reachable zero w) (id : Entity)
    (hex : w.exists_ id = .ok true) :
    ∃ w1, w.destroy_entity id = .ok w1 ∧
      w1.entities_ id.idx = ⟨⟨id.idx, id.gen + 1⟩, 0⟩ ∧
      w1.free_list_ = id.idx :: w.free_list_ ∧
      (∀ j, List.count j w1.free_list_ =
        List.count j w.free_list_ + if j = id.idx then 1 else 0) ∧
      (∀ i, i ≠ id.idx → w1.entities_ i = w.entities_ i) ∧
      w1.next_entity_idx_ = w.next_entity_idx_ ∧
      w1.pool = w.pool := by
  obtain ⟨-, hg⟩ := (exists_ok_true_iff w id).1 hex
  have hslot := slotIdx_reachable zero w hw id.idx
  refine ⟨{ w with
      entities_ := Function.update w.entities_ id.idx
        ⟨(w.entities_ id.idx).id.next_generation, 0⟩
      free_list_ := id.idx :: w.free_list_ }, ?_, ?_, rfl, ?_, ?_, rfl, rfl⟩
  · unfold World.destroy_entity
    simp [hex]
  · simp [Entity.next_generation, hg, hslot]
  · intro j
    by_cases hj : j = id.idx
    · subst hj
      simp
    · simp [hj, List.count_cons, Ne.symm hj]
  · intro i hi
    simp [Function.update, hi]

/-- Witness of C24: the first entity of the constructed world is destroyed. -/
theorem destroy_entity_frame_witness :
    Reachable (0 : Nat) (world_after (0 : Nat) [Op.create]) ∧
    (world_after (0 : Nat) [Op.create]).exists_ ⟨0, 1⟩ = .ok true ∧
    ∃ w1, (world_after (0 : Nat) [Op.create]).destroy_entity ⟨0, 1⟩ = .ok w1 ∧
      w1.entities_ (⟨0, 1⟩ : Entity).idx
        = ⟨⟨(⟨0, 1⟩ : Entity).idx, (⟨0, 1⟩ : Entity).gen + 1⟩, 0⟩ ∧
      w1.free_list_ = (⟨0, 1⟩ : Entity).idx :: (world_after (0 : Nat) [Op.create]).free_list_ ∧
      (∀ j, List.count j w1.free_list_ =
        List.count j (world_after (0 : Nat) [Op.create]).free_list_ +
          if j = (⟨0, 1⟩ : Entity).idx then 1 else 0) ∧
      (∀ i, i ≠ (⟨0, 1⟩ : Entity).idx →
        w1.entities_ i = (world_after (0 : Nat) [Op.create]).entities_ i) ∧
      w1.next_entity_idx_ = (world_after (0 : Nat) [Op.create]).next_entity_idx_ ∧
      w1.pool = (world_after (0 : Nat) [Op.create]).pool :=
  ⟨⟨[Op.create], rfl⟩, by decide,
    destroy_entity_frame (0 : Nat) (world_after (0 : Nat) [Op.create]) ⟨[Op.create], rfl⟩
      ⟨0, 1⟩ (by decide)⟩

/-- C25 at the type ids 31 and 32, both below `MaxComponents`: the mask of the type with
id 31 is `2 ^ 64 - 2 ^ 31`, the bits 31 to 63, not `2 ^ 31`, and the mask of the type with
id 32 is not defined. -/
theorem component_mask_31_and_32 :
    (31 : Nat) < MaxComponents ∧ (32 : Nat) < MaxComponents ∧
    detail.component_mask [31] = .ok (2 ^ 64 - 2 ^ 31) ∧
    detail.component_mask [31] ≠ .ok (2 ^ 31) ∧
    (∀ j, 31 ≤ j → j < 64 → Nat.testBit (2 ^ 64 - 2 ^ 31) j = true) ∧
    detail.component_mask [32] = .error .undefined_shift := by
  refine ⟨by decide, by decide, by decide, by decide, ?_, by decide⟩
  intro j h1 h2
  interval_cases j <;> decide

/-- C29 after an `add` on a stale id: slot 0 is created and destroyed, then `add<T>` for the
type with id 0 is called on the stale id `(0, 1)`; every assertion passes. The next `create()`
returns `(0, 2)`, and `has<T>` of it is true. -/
theorem created_id_has_component_after_stale_add :
    ∃ (w w1 : World Nat),
      run (World.fresh 0) [Op.create, Op.destroy ⟨0, 1⟩, Op.add ⟨0, 1⟩ 0 7] = .ok w ∧
      w.create_entity = .ok (⟨0, 2⟩, w1) ∧
      w1.has_component ⟨0, 2⟩ 0 = .ok true :=
  ⟨_, _, rfl, rfl, by decide⟩

/-- What `add<T>(id, v)` on an existing id leaves alone: `exists` gives the same result for
every id, and for every type `U` and entity `e` other than the pair of `T` and `id` with
`has<U>(e)` true, `get<U>(e)` is the same cell with the same value. -/
theorem add_component_frame (w w1 : World V) (id : Entity) (k : Nat) (v : V) (c : Cell)
    (hex : w.exists_ id = .ok true) (h : w.add_component id k v = .ok (c, w1)) :
    (∀ e, w1.exists_ e = w.exists_ e) ∧
    ∀ (u : Nat) (e : Entity), (u, e) ≠ (k, id) → w.has_component e u = .ok true →
      ∃ c2, w.get_component e u = .ok c2 ∧ w1.get_component e u = .ok c2 ∧
        w1.load c2 = w.load c2 := by
  obtain ⟨-, -, -, m, hm, hw1⟩ := add_component_ok w w1 id k v c h
  have hid : ∀ i, (w1.entities_ i).id = (w.entities_ i).id := by
    intro i
    rw [hw1]
    by_cases hi : id.idx = i
    · subst hi; simp
    · simp [Function.update, Ne.symm hi]
  constructor
  · intro e
    unfold World.exists_
    rw [hid]
  · intro u e hne hhas
    obtain ⟨hexe, hie, mu, hmu, -⟩ := has_component_ok_true w e u hhas
    have hcell : u ≠ k ∨ e.idx ≠ id.idx := by
      by_cases hu : u = k
      · right
        intro hidx
        apply hne
        obtain ⟨-, hg1⟩ := (exists_ok_true_iff w e).1 hexe
        obtain ⟨-, hg2⟩ := (exists_ok_true_iff w id).1 hex
        rw [hidx, hg2] at hg1
        have : e = id := by
          cases e
          cases id
          simp_all
        rw [hu, this]
      · left; exact hu
    have hhas1 : w1.has_component e u = .ok true := by
      rcases hcell with hu | hidx
      · rw [add_component_keeps_other_has w w1 id e k u v c (Ne.symm hu) h]
        exact hhas
      · rw [← hhas]
        apply has_component_congr
        · exact hid _
        · intro _ _
          rw [hw1]
          simp [Function.update, hidx]
    refine ⟨⟨u, e.idx⟩, ?_, ?_, ?_⟩
    · rw [(try_get_component_eq w e u hie).2, hhas]
    · rw [(try_get_component_eq w1 e u hie).2, hhas1]
    · rw [hw1]
      simp only [World.load]
      rcases hcell with hu | hidx
      · simp [Function.update, hu]
      · by_cases hu : u = k
        · subst hu
          simp [Function.update, hidx]
        · simp [Function.update, hu]

/-- C30 on a stale id: slot 0 is created, destroyed and created again, and the live entity
`(0, 2)` gets a component of the type with id 0 and value 5. `add<T>` of the same type on the
stale id `(0, 1)` passes its assertion and writes 9 to the cell of slot 0: `get<T>((0, 2))`
returns the same cell, which now holds 9. -/
theorem add_on_stale_id_overwrites_live_component :
    ∃ (w w1 : World Nat) (c c2 : Cell),
      run (World.fresh 0) [Op.create, Op.destroy ⟨0, 1⟩, Op.create, Op.add ⟨0, 2⟩ 0 5]
        = .ok w ∧
      w.exists_ ⟨0, 2⟩ = .ok true ∧ w.exists_ ⟨0, 1⟩ = .ok false ∧
      w.has_component ⟨0, 2⟩ 0 = .ok true ∧
      w.get_component ⟨0, 2⟩ 0 = .ok c2 ∧ w.load c2 = 5 ∧
      w.add_component ⟨0, 1⟩ 0 9 = .ok (c, w1) ∧
      w1.get_component ⟨0, 2⟩ 0 = .ok c2 ∧ w1.load c2 = 9 :=
  ⟨_, _, _, _, rfl, by decide, by decide, by decide, rfl, by decide, rfl, rfl, by decide⟩

/-- C21 (as amended): when `create()` fails in a reachable world, it fails on the capacity
assertion, the free list is empty and `next_entity_idx_ = MaxEntities` before the call; at the
failed assertion every slot, the free list and the pools are as before the call, and
`next_entity_idx_` has been incremented to `MaxEntities + 1`. -/
theorem create_entity_failure_state (zero : V) (w : World V) (hw : Reachable zero w)
    (f : Fault) (hfail : w.create_entity = .error f) :
    f = .assertion ∧ w.free_list_ = [] ∧ w.next_entity_idx_ = MaxEntities ∧
    w.create_entity_state.entities_ = w.entities_ ∧
    w.create_entity_state.free_list_ = w.free_list_ ∧
    w.create_entity_state.pool = w.pool ∧
    w.create_entity_state.next_entity_idx_ = MaxEntities + 1 := by
  obtain ⟨hnext, hfree⟩ := reachable_bounds zero w hw
  by_cases hf : w.free_list_ = []
  · have hg := get_free_entity_idx_nil w hf
    unfold World.create_entity at hfail
    simp only [hg] at hfail
    by_cases hlt : w.next_entity_idx_ < MaxEntities
    · rw [if_pos hlt] at hfail
      simp at hfail
    · rw [if_neg hlt] at hfail
      have heq : w.next_entity_idx_ = MaxEntities := by omega
      refine ⟨?_, hf, heq, ?_, ?_, ?_, ?_⟩
      · cases hfail; rfl
      · unfold World.create_entity_state; rw [hg]
      · unfold World.create_entity_state; rw [hg]
      · unfold World.create_entity_state; rw [hg]
      · unfold World.create_entity_state; rw [hg]; simp [heq]
  · exfalso
    unfold World.create_entity at hfail
    simp only [get_free_entity_idx_ne_nil w hf] at hfail
    rw [if_pos (hfree _ (pq_top_spec w.free_list_ hf).1)] at hfail
    simp at hfail

/-- A run of `n` calls of `create()` on a world with no free slot and no component moves
`next_entity_idx_` by `n`, as long as the table has room. -/
theorem run_create_fresh (zero : V) (n : Nat) (a : Nat) (h : a + n ≤ MaxEntities) :
    run { World.fresh zero with next_entity_idx_ := a } (List.replicate n Op.create) =
      .ok { World.fresh zero with next_entity_idx_ := a + n } := by
  induction n generalizing a with
  | zero => rfl
  | succ n ih =>
    have hlt : a < MaxEntities := by omega
    have hs : Op.step { World.fresh zero with next_entity_idx_ := a } (Op.create : Op V) =
        .ok { World.fresh zero with next_entity_idx_ := a + 1 } := by
      unfold Op.step World.create_entity World.get_free_entity_idx
      simp [World.fresh, hlt]
    rw [List.replicate_succ]
    simp only [run, hs]
    rw [ih (a + 1) (by omega)]
    simp [Nat.add_assoc, Nat.add_comm 1 n]

/-- The world with every slot allocated is reachable. -/
theorem reachable_full (zero : V) :
    Reachable zero { World.fresh zero with next_entity_idx_ := MaxEntities } := by
  refine ⟨List.replicate MaxEntities Op.create, ?_⟩
  have := run_create_fresh zero MaxEntities 0 (by omega)
  simpa [World.fresh] using this

/-- Counterexample to C21 as stated: after `MaxEntities` calls of `create()` the next call
fails on the capacity assertion, and at that assertion `next_entity_idx_` is
`MaxEntities + 1`, not the `MaxEntities` it was before the call. -/
theorem create_failure_increments_next_entity_idx :
    ∃ w : World Nat,
      run (World.fresh 0) (List.replicate MaxEntities Op.create) = .ok w ∧
      w.create_entity = .error .assertion ∧
      w.next_entity_idx_ = MaxEntities ∧
      w.create_entity_state.next_entity_idx_ = MaxEntities + 1 ∧
      w.create_entity_state.next_entity_idx_ ≠ w.next_entity_idx_ := by
  refine ⟨{ World.fresh 0 with next_entity_idx_ := MaxEntities }, ?_, ?_, rfl, ?_, ?_⟩
  · have := run_create_fresh (0 : Nat) MaxEntities 0 (by omega)
    simpa [World.fresh] using this
  · unfold World.create_entity World.get_free_entity_idx
    simp [World.fresh]
  · unfold World.create_entity_state World.get_free_entity_idx
    simp [World.fresh]
  · unfold World.create_entity_state World.get_free_entity_idx
    simp [World.fresh, MaxEntities]

/-- Witness of C21 (as amended): the world with every slot allocated. -/
theorem create_entity_failure_state_witness :
    Reachable (0 : Nat) { World.fresh 0 with next_entity_idx_ := MaxEntities } ∧
    World.create_entity { World.fresh (0 : Nat) with next_entity_idx_ := MaxEntities }
      = .error .assertion ∧
    (World.create_entity_state
      { World.fresh (0 : Nat) with next_entity_idx_ := MaxEntities }).next_entity_idx_
      = MaxEntities + 1 :=
  have hfail : World.create_entity
      { World.fresh (0 : Nat) with next_entity_idx_ := MaxEntities } = .error .assertion := by
    unfold World.create_entity World.get_free_entity_idx
    simp [World.fresh]
  ⟨reachable_full 0, hfail,
    (create_entity_failure_state (0 : Nat) _ (reachable_full 0) .assertion hfail).2.2.2.2.2.2⟩

/-! ## Integer handles -/

/-- Bit `n` of the `uint32_t` an `int` converts to is bit `n` of the `int`, for `n < 32`. -/
theorem testBit_to_u32 (a : Int) (n : Nat) :
    (to_u32 a).testBit n = (decide (n < 32) && a.testBit n) := by
  unfold to_u32
  cases a with
  | ofNat m =>
    have h1 : (Int.ofNat m % (2 : Int) ^ 32).toNat = m % 2 ^ 32 := by
      have : (Int.ofNat m % (2 : Int) ^ 32) = ((m % 2 ^ 32 : Nat) : Int) := by
        simp [Int.ofNat_eq_coe]
      rw [this]
      exact Int.toNat_ofNat _
    rw [h1, Nat.testBit_mod_two_pow]
    rfl
  | negSucc m =>
    have h1 : (Int.negSucc m % (2 : Int) ^ 32).toNat = 2 ^ 32 - (m % 2 ^ 32 + 1) := by
      rw [Int.negSucc_emod m (by decide)]
      have hlt : m % 2 ^ 32 < 2 ^ 32 := Nat.mod_lt _ (by decide)
      have : ((2 : Int) ^ 32 - 1 - (m : Int) % (2 : Int) ^ 32)
          = ((2 ^ 32 - (m % 2 ^ 32 + 1) : Nat) : Int) := by
        push_cast
        omega
      rw [this]
      simp
    rw [h1, Nat.testBit_two_pow_sub_succ (Nat.mod_lt _ (by decide)), Nat.testBit_mod_two_pow]
    simp only [Int.testBit]
    by_cases hn : n < 32 <;> simp [hn]

/-- The wrap of a shift result to the range of `int` keeps the value modulo `2 ^ 32`. -/
theorem to_u32_wrap_int32 (x : Int) : to_u32 (wrap_int32 x) = to_u32 x := by
  unfold to_u32 wrap_int32
  congr 1
  omega

theorem wrap_int32_testBit (x : Int) (n : Nat) (hn : n < 32) :
    (wrap_int32 x).testBit n = x.testBit n := by
  have h := testBit_to_u32 (wrap_int32 x) n
  rw [to_u32_wrap_int32, testBit_to_u32] at h
  simpa [hn] using h.symm

/-- The integer of a key with a 16-bit generation: `(gen << 16) | idx` on naturals. -/
theorem key_to_int_eq (v : SlotMapKey) (hg : v.gen < 2 ^ 16) (hi : v.idx < 2 ^ 16) :
    key_to_int v = v.gen <<< 16 ||| v.idx := by
  apply Nat.eq_of_testBit_eq
  intro i
  unfold key_to_int
  rw [testBit_to_u32, Int.testBit_lor, Nat.testBit_or]
  have hcast : ((v.gen : Int) * (2 : Int) ^ 16) = ((v.gen <<< 16 : Nat) : Int) := by
    rw [Nat.shiftLeft_eq]
    push_cast
    rfl
  have hidx : (v.idx : Int).testBit i = v.idx.testBit i := rfl
  by_cases h32 : i < 32
  · rw [wrap_int32_testBit _ _ h32, hcast, hidx]
    have : ((v.gen <<< 16 : Nat) : Int).testBit i = (v.gen <<< 16).testBit i := rfl
    rw [this]
    simp [h32]
  · have h1 : v.gen <<< 16 < 2 ^ i := by
      rw [Nat.shiftLeft_eq]
      calc v.gen * 2 ^ 16 < 2 ^ 16 * 2 ^ 16 := by omega
        _ = 2 ^ 32 := by norm_num
        _ ≤ 2 ^ i := Nat.pow_le_pow_right (by decide) (by omega)
    have h2 : v.idx < 2 ^ i :=
      lt_of_lt_of_le hi (Nat.pow_le_pow_right (by decide) (by omega))
    rw [Nat.testBit_lt_two_pow h1, Nat.testBit_lt_two_pow h2]
    simp [h32]

theorem shiftLeft_or_eq_add (g i : Nat) (hi : i < 2 ^ 16) :
    g <<< 16 ||| i = g * 65536 + i := by
  rw [Nat.shiftLeft_eq, Nat.mul_comm, ← Nat.mul_add_lt_is_or hi]

theorem int_to_key_eq (v : Nat) : int_to_key v = ⟨v % 65536, v / 65536 % 65536⟩ := by
  unfold int_to_key SlotMapKey.make
  have h1 : v &&& 0xffff = v % 65536 := Nat.and_pow_two_sub_one_eq_mod v 16
  rw [h1, Nat.shiftRight_eq_div_pow]
  norm_num

/-- C23: `key_to_int` and `int_to_key` are mutually inverse: for every key with an index and
a generation below `2 ^ 16`, `int_to_key (key_to_int key) = key`; for every `v < 2 ^ 32`,
`key_to_int (int_to_key v) = v`; and `key_to_int key` is `(gen << 16) | idx`, which is
`gen * 2 ^ 16 + idx`, below `2 ^ 32`. -/
theorem key_to_int_int_to_key_inverse :
    (∀ key : SlotMapKey, key.idx < 2 ^ 16 → key.gen < 2 ^ 16 →
      int_to_key (key_to_int key) = key ∧
      key_to_int key = key.gen <<< 16 ||| key.idx ∧
      key_to_int key = key.gen * 2 ^ 16 + key.idx ∧
      key_to_int key < 2 ^ 32) ∧
    (∀ v : Nat, v < 2 ^ 32 → key_to_int (int_to_key v) = v) := by
  constructor
  · intro key hi hg
    have h1 := key_to_int_eq key hg hi
    have h2 := shiftLeft_or_eq_add key.gen key.idx hi
    refine ⟨?_, h1, by rw [h1, h2]; norm_num, by rw [h1, h2]; omega⟩
    rw [int_to_key_eq, h1, h2]
    cases key with
    | mk idx gen =>
      simp only [SlotMapKey.mk.injEq]
      simp only at hi hg
      omega
  · intro v hv
    have hlo : v % 65536 < 2 ^ 16 := by omega
    have hhi : v / 65536 % 65536 < 2 ^ 16 := by omega
    rw [int_to_key_eq, key_to_int_eq _ hhi hlo]
    simp only
    rw [shiftLeft_or_eq_add _ _ hlo]
    omega

/-- Witness of C23: the key with index 1 and generation `2 ^ 15`, whose shift leaves the
range of `int`, and the integer `2 ^ 31 + 1`. -/
theorem key_to_int_int_to_key_inverse_witness :
    (1 : Nat) < 2 ^ 16 ∧ (32768 : Nat) < 2 ^ 16 ∧ (2147483649 : Nat) < 2 ^ 32 ∧
    int_to_key (key_to_int ⟨1, 32768⟩) = ⟨1, 32768⟩ ∧
    key_to_int (int_to_key 2147483649) = 2147483649 :=
  ⟨by decide, by decide, by decide,
    (key_to_int_int_to_key_inverse.1 ⟨1, 32768⟩ (by decide) (by decide)).1,
    key_to_int_int_to_key_inverse.2 2147483649 (by decide)⟩

/-! ## Component type ids -/

theorem note_ref_extends {T : Type} [DecidableEq T] (seen : List T) (t : T) :
    seen <+: note_ref seen t := by
  unfold note_ref
  split
  · exact List.prefix_refl _
  · exact List.prefix_append _ _

theorem foldl_note_ref_extends {T : Type} [DecidableEq T] (calls : List T) (seen : List T) :
    seen <+: calls.foldl note_ref seen := by
  induction calls generalizing seen with
  | nil => exact List.prefix_refl _
  | cons t ts ih => exact (note_ref_extends seen t).trans (ih _)

theorem mem_note_ref {T : Type} [DecidableEq T] (seen : List T) (t : T) :
    t ∈ note_ref seen t := by
  unfold note_ref
  split
  · assumption
  · simp

theorem mem_foldl_note_ref {T : Type} [DecidableEq T] (calls : List T) (seen : List T)
    (t : T) (h : t ∈ calls) : t ∈ calls.foldl note_ref seen := by
  induction calls generalizing seen with
  | nil => simp at h
  | cons u us ih =>
    rcases List.mem_cons.1 h with rfl | h
    · exact (foldl_note_ref_extends us _).subset (mem_note_ref seen t)
    · exact ih _ h

theorem indexOf_of_extension {T : Type} [DecidableEq T] (l1 l2 : List T) (t : T)
    (hp : l1 <+: l2) (h : t ∈ l1) : l2.indexOf t = l1.indexOf t := by
  obtain ⟨r, rfl⟩ := hp
  exact List.indexOf_append_of_mem h

/-- One call of `component_id` on a registry that tracks `seen`: the id is the position of
the type among the types referenced so far, the call itself included, and the call fails
exactly when this position is not below `MaxComponents`. -/
theorem component_id_step {T : Type} [DecidableEq T] (r : Registry T) (seen : List T) (t : T)
    (h : r.Tracks seen) :
    ∃ r1, r1.Tracks (note_ref seen t) ∧
      r.component_id t =
        if (note_ref seen t).indexOf t < MaxComponents then
          .ok ((note_ref seen t).indexOf t, r1)
        else .error .assertion := by
  obtain ⟨hc, hnd, hid⟩ := h
  by_cases hm : t ∈ seen
  · refine ⟨r, ?_, ?_⟩
    · simpa [note_ref, hm] using ⟨hc, hnd, hid⟩
    · unfold Registry.component_id
      rw [hid t]
      simp [note_ref, hm]
  · have hidx : (seen ++ [t]).indexOf t = seen.length := by
      rw [List.indexOf_append_of_not_mem hm]
      simp
    refine ⟨⟨r.counter + 1, Function.update r.id t (some r.counter)⟩, ?_, ?_⟩
    · simp only [note_ref, hm, if_false]
      refine ⟨by simp [hc], ?_, ?_⟩
      · rw [List.nodup_append]
        refine ⟨hnd, List.nodup_singleton t, ?_⟩
        intro a ha hb
        rw [List.mem_singleton] at hb
        exact hm (hb ▸ ha)
      · intro u
        by_cases hu : u = t
        · subst hu
          simp [hidx, hc]
        · have hmem : u ∈ seen ++ [t] ↔ u ∈ seen := by simp [hu]
          show Function.update r.id t (some r.counter) u = _
          rw [Function.update_noteq hu, hid u]
          by_cases hus : u ∈ seen
          · simp [hus, List.indexOf_append_of_mem hus]
          · simp [hus, hu]
    · unfold Registry.component_id
      rw [hid t]
      simp only [hm, if_false, note_ref]
      rw [hidx, hc]

/-- A run of calls on a registry that tracks `seen`, when at most `MaxComponents` types are
referenced in all: every call returns the position of its type in the order of first
reference. -/
theorem registry_run_ok {T : Type} [DecidableEq T] (calls : List T) (r : Registry T)
    (seen : List T) (h : r.Tracks seen)
    (hlen : (calls.foldl note_ref seen).length ≤ MaxComponents) :
    ∃ r1, r1.Tracks (calls.foldl note_ref seen) ∧
      r.run calls = .ok (calls.map (fun t => (calls.foldl note_ref seen).indexOf t), r1) := by
  induction calls generalizing r seen with
  | nil => exact ⟨r, h, rfl⟩
  | cons t ts ih =>
    obtain ⟨r1, h1, hstep⟩ := component_id_step r seen t h
    have hp := foldl_note_ref_extends ts (note_ref seen t)
    have hlt : (note_ref seen t).indexOf t < MaxComponents := by
      have h2 : (note_ref seen t).indexOf t < (note_ref seen t).length :=
        List.indexOf_lt_length.2 (mem_note_ref seen t)
      have h3 := hp.length_le
      simp only [List.foldl_cons] at hlen
      omega
    rw [if_pos hlt] at hstep
    obtain ⟨r2, h2, hrun⟩ := ih r1 (note_ref seen t) h1 hlen
    refine ⟨r2, h2, ?_⟩
    simp only [Registry.run, hstep, hrun, List.foldl_cons, List.map_cons]
    rw [indexOf_of_extension _ _ t hp (mem_note_ref seen t)]

/-- A run of calls that references more than `MaxComponents` types fails on the assertion of
`component_id`. -/
theorem registry_run_overflow {T : Type} [DecidableEq T] (calls : List T) (r : Registry T)
    (seen : List T) (h : r.Tracks seen) (hseen : seen.length ≤ MaxComponents)
    (hlen : MaxComponents < (calls.foldl note_ref seen).length) :
    r.run calls = .error .assertion := by
  induction calls generalizing r seen with
  | nil =>
    simp only [List.foldl_nil] at hlen
    omega
  | cons t ts ih =>
    obtain ⟨r1, h1, hstep⟩ := component_id_step r seen t h
    by_cases hlt : (note_ref seen t).indexOf t < MaxComponents
    · rw [if_pos hlt] at hstep
      have hlen1 : (note_ref seen t).length ≤ MaxComponents := by
        unfold note_ref at hlt ⊢
        split
        · exact hseen
        · rename_i hm
          rw [if_neg hm, List.indexOf_append_of_not_mem hm] at hlt
          simp at hlt ⊢
          omega
      have := ih r1 (note_ref seen t) h1 hlen1 hlen
      simp only [Registry.run, hstep, this]
    · rw [if_neg hlt] at hstep
      simp only [Registry.run, hstep]

/-- C22: in a run of calls of `component_id` from program start that references at most
`MaxComponents` distinct types, every call for a type returns the same id, the position of
the type in the order of first reference: the `n`-th distinct type, counted from 0, receives
`n`, distinct types receive distinct ids, every id is below `MaxComponents`, and the counter
ends at the number of distinct types. -/
theorem component_id_by_first_reference {T : Type} [DecidableEq T] (calls : List T)
    (h : (first_refs calls).length ≤ MaxComponents) :
    ∃ r : Registry T,
      Registry.fresh.run calls
        = .ok (calls.map (fun t => (first_refs calls).indexOf t), r) ∧
      r.counter = (first_refs calls).length ∧
      (first_refs calls).Nodup ∧
      (∀ t ∈ calls, t ∈ first_refs calls ∧ (first_refs calls).indexOf t < MaxComponents) ∧
      (∀ (n : Nat) (hn : n < (first_refs calls).length),
        (first_refs calls).indexOf ((first_refs calls).get ⟨n, hn⟩) = n) ∧
      (∀ t u, t ∈ calls → u ∈ calls →
        (first_refs calls).indexOf t = (first_refs calls).indexOf u → t = u) := by
  have h0 : (Registry.fresh : Registry T).Tracks [] :=
    ⟨rfl, List.nodup_nil, fun t => by simp [Registry.fresh]⟩
  obtain ⟨r, ⟨hc, hnd, -⟩, hrun⟩ := registry_run_ok calls Registry.fresh [] h0 h
  have hmem : ∀ t ∈ calls, t ∈ first_refs calls := fun t ht => mem_foldl_note_ref calls [] t ht
  refine ⟨r, hrun, hc, hnd, ?_, ?_, ?_⟩
  · intro t ht
    have := List.indexOf_lt_length.2 (hmem t ht)
    exact ⟨hmem t ht, by omega⟩
  · intro n hn
    exact List.indexOf_getElem hnd n hn
  · intro t u ht hu heq
    exact (List.indexOf_inj (hmem t ht) (hmem u hu)).1 heq

/-- Witness of C22: three types referenced in five calls. -/
theorem component_id_by_first_reference_witness :
    (first_refs [7, 3, 7, 9, 3]).length ≤ MaxComponents ∧
    first_refs [7, 3, 7, 9, 3] = [7, 3, 9] ∧
    ∃ r : Registry Nat,
      Registry.fresh.run [7, 3, 7, 9, 3] = .ok ([0, 1, 0, 2, 1], r) ∧ r.counter = 3 := by
  obtain ⟨r, hrun, hc, -⟩ := component_id_by_first_reference [7, 3, 7, 9, 3] (by decide)
  exact ⟨by decide, by decide, r, hrun, hc⟩

/-! ## Runs on live entities -/

theorem liveInv_fresh (zero : V) : LiveInv (World.fresh zero) [] where
  slot_idx := slotIdx_fresh zero
  next_le := Nat.zero_le _
  live_nodup := List.nodup_nil
  live_slot := fun e he => by simp at he
  free_nodup := List.nodup_nil
  free_slot := fun j hj => by simp [World.fresh] at hj
  unused_slot := fun _ _ => rfl
  used_slot := fun i hi => by simp [World.fresh] at hi

/-- A successful `create()` on a world that satisfies the invariant returns an id whose slot
no live entity uses, and keeps the invariant with the id added to the live entities. -/
theorem liveInv_create (w w1 : World V) (live : List Entity) (e : Entity)
    (h : LiveInv w live) (hc : w.create_entity = .ok (e, w1)) :
    LiveInv w1 (e :: live) ∧ (∀ e1 ∈ live, e1.idx ≠ e.idx) ∧
      w.next_entity_idx_ ≤ w1.next_entity_idx_ := by
  obtain ⟨hw1, hlt, he, -, -⟩ := create_entity_ok w w1 e hc
  by_cases hf : w.free_list_ = []
  · rw [get_free_entity_idx_nil w hf] at hw1 hlt he
    simp only at hw1 hlt he
    have hen : e = ⟨w.next_entity_idx_, 1⟩ := by
      rw [he, h.unused_slot _ (Nat.le_refl _)]
    have hidx : e.idx = w.next_entity_idx_ := by rw [hen]
    have hnot : ∀ e1 ∈ live, e1.idx ≠ e.idx := by
      intro e1 h1
      have := (h.live_slot e1 h1).1
      omega
    subst hw1
    refine ⟨?_, hnot, Nat.le_succ _⟩
    refine ⟨h.slot_idx, hlt, ?_, ?_, ?_, ?_, ?_, ?_⟩
    · exact List.nodup_cons.2 ⟨fun hm => hnot e hm rfl, h.live_nodup⟩
    · intro e1 h1
      rcases List.mem_cons.1 h1 with rfl | h1
      · refine ⟨by simp only [hidx]; omega, by simp [hf], ?_⟩
        show (w.entities_ e1.idx).id = e1
        rw [hidx, ← he]
      · obtain ⟨a, b, c⟩ := h.live_slot e1 h1
        exact ⟨Nat.lt_succ_of_lt a, b, c⟩
    · exact h.free_nodup
    · intro j hj
      obtain ⟨a, b⟩ := h.free_slot j hj
      exact ⟨Nat.lt_succ_of_lt a, b⟩
    · intro i hi
      exact h.unused_slot i (Nat.le_of_succ_le hi)
    · intro i hi
      right
      show (w.entities_ i).id ∈ e :: live
      by_cases hin : i < w.next_entity_idx_
      · rcases h.used_slot i hin with hfr | hl
        · rw [hf] at hfr
          simp at hfr
        · exact List.mem_cons_of_mem _ hl
      · have : i = w.next_entity_idx_ := by
          have : i < w.next_entity_idx_ + 1 := hi
          omega
        rw [this, ← he]
        exact List.mem_cons_self _ _
  · rw [get_free_entity_idx_ne_nil w hf] at hw1 hlt he
    simp only at hw1 hlt he
    have htop := (pq_top_spec w.free_list_ hf).1
    have hidx : e.idx = pq_top w.free_list_ := by rw [he, h.slot_idx]
    have hnot : ∀ e1 ∈ live, e1.idx ≠ e.idx := by
      intro e1 h1 heq
      exact (h.live_slot e1 h1).2.1 (by rw [heq, hidx]; exact htop)
    subst hw1
    refine ⟨?_, hnot, Nat.le_refl _⟩
    refine ⟨h.slot_idx, h.next_le, ?_, ?_, ?_, ?_, h.unused_slot, ?_⟩
    · exact List.nodup_cons.2 ⟨fun hm => hnot e hm rfl, h.live_nodup⟩
    · intro e1 h1
      rcases List.mem_cons.1 h1 with rfl | h1
      · refine ⟨?_, ?_, ?_⟩
        · rw [hidx]
          exact (h.free_slot _ htop).1
        · show e1.idx ∉ pq_pop w.free_list_
          unfold pq_pop
          rw [hidx]
          exact fun hm => (h.free_nodup.mem_erase_iff.1 hm).1 rfl
        · show (w.entities_ e1.idx).id = e1
          rw [hidx, ← he]
      · obtain ⟨a, b, c⟩ := h.live_slot e1 h1
        exact ⟨a, fun hm => b (List.mem_of_mem_erase hm), c⟩
    · exact h.free_nodup.erase _
    · intro j hj
      exact h.free_slot j (List.mem_of_mem_erase hj)
    · intro i hi
      show i ∈ pq_pop w.free_list_ ∨ (w.entities_ i).id ∈ e :: live
      rcases h.used_slot i hi with hfr | hl
      · by_cases hit : i = pq_top w.free_list_
        · right
          rw [hit, ← he]
          exact List.mem_cons_self _ _
        · left
          unfold pq_pop
          exact (List.mem_erase_of_ne hit).2 hfr
      · exact Or.inr (List.mem_cons_of_mem _ hl)

/-- The slot of a live entity is the slot of no other live entity. -/
theorem liveInv_idx_inj (w : World V) (live : List Entity) (h : LiveInv w live)
    (e1 e2 : Entity) (h1 : e1 ∈ live) (h2 : e2 ∈ live) (heq : e1.idx = e2.idx) : e1 = e2 := by
  rw [← (h.live_slot e1 h1).2.2, ← (h.live_slot e2 h2).2.2, heq]

/-- A successful `destroy` of a live entity keeps the invariant with the entity removed from
the live entities. -/
theorem liveInv_destroy (w w1 : World V) (live : List Entity) (e : Entity)
    (h : LiveInv w live) (he : e ∈ live) (hd : w.destroy_entity e = .ok w1) :
    LiveInv w1 (live.erase e) := by
  have hslot1 := slotIdx_step w w1 (Op.destroy e) hd h.slot_idx
  obtain ⟨-, hw1⟩ := destroy_entity_ok w w1 e hd
  obtain ⟨helt, hefree, heid⟩ := h.live_slot e he
  subst hw1
  refine ⟨hslot1, h.next_le, h.live_nodup.erase _, ?_, ?_, ?_, ?_, ?_⟩
  · intro e1 h1
    obtain ⟨hne, hm⟩ := h.live_nodup.mem_erase_iff.1 h1
    obtain ⟨a, b, c⟩ := h.live_slot e1 hm
    have hidx : e1.idx ≠ e.idx := fun heq => hne (liveInv_idx_inj w live h e1 e hm he heq)
    refine ⟨a, ?_, ?_⟩
    · show e1.idx ∉ e.idx :: w.free_list_
      simp [hidx, b]
    · show (Function.update w.entities_ e.idx _ e1.idx).id = e1
      rw [Function.update_noteq hidx, c]
  · exact List.nodup_cons.2 ⟨hefree, h.free_nodup⟩
  · intro j hj
    rcases List.mem_cons.1 hj with rfl | hj
    · exact ⟨helt, by simp⟩
    · have hne : j ≠ e.idx := fun heq => hefree (heq ▸ hj)
      obtain ⟨a, b⟩ := h.free_slot j hj
      refine ⟨a, ?_⟩
      show (Function.update w.entities_ e.idx _ j).cmask = 0
      rw [Function.update_noteq hne, b]
  · intro i hi
    have hne : i ≠ e.idx := by
      have : w.next_entity_idx_ ≤ i := hi
      omega
    show Function.update w.entities_ e.idx _ i = _
    rw [Function.update_noteq hne]
    exact h.unused_slot i hi
  · intro i hi
    show i ∈ e.idx :: w.free_list_ ∨ (Function.update w.entities_ e.idx _ i).id ∈ live.erase e
    by_cases hie : i = e.idx
    · left
      rw [hie]
      exact List.mem_cons_self _ _
    · rw [Function.update_noteq hie]
      rcases h.used_slot i hi with hfr | hl
      · exact Or.inl (List.mem_cons_of_mem _ hfr)
      · right
        refine h.live_nodup.mem_erase_iff.2 ⟨?_, hl⟩
        intro heq
        apply hie
        rw [← h.slot_idx i, heq]

/-- A change of the mask of the slot of a live entity, and any change of the pools, keeps the
invariant: this is what `add<T>` and `remove<T>` do. -/
theorem liveInv_set_mask (w : World V) (live : List Entity) (e : Entity) (m : ComponentMask)
    (p : Nat → Nat → V) (h : LiveInv w live) (he : e ∈ live) :
    LiveInv { w with
      entities_ := Function.update w.entities_ e.idx ⟨(w.entities_ e.idx).id, m⟩
      pool := p } live := by
  obtain ⟨helt, hefree, heid⟩ := h.live_slot e he
  have hid : ∀ i, (Function.update w.entities_ e.idx ⟨(w.entities_ e.idx).id, m⟩ i).id
      = (w.entities_ i).id := by
    intro i
    by_cases hi : i = e.idx
    · subst hi; simp
    · rw [Function.update_noteq hi]
  refine ⟨?_, h.next_le, h.live_nodup, ?_, h.free_nodup, ?_, ?_, ?_⟩
  · intro i
    show (Function.update w.entities_ e.idx _ i).id.idx = i
    rw [hid]
    exact h.slot_idx i
  · intro e1 h1
    obtain ⟨a, b, c⟩ := h.live_slot e1 h1
    refine ⟨a, b, ?_⟩
    show (Function.update w.entities_ e.idx _ e1.idx).id = e1
    rw [hid, c]
  · intro j hj
    have hne : j ≠ e.idx := fun heq => hefree (heq ▸ hj)
    obtain ⟨a, b⟩ := h.free_slot j hj
    refine ⟨a, ?_⟩
    show (Function.update w.entities_ e.idx _ j).cmask = 0
    rw [Function.update_noteq hne, b]
  · intro i hi
    have hne : i ≠ e.idx := by
      have : w.next_entity_idx_ ≤ i := hi
      omega
    show Function.update w.entities_ e.idx _ i = _
    rw [Function.update_noteq hne]
    exact h.unused_slot i hi
  · intro i hi
    show i ∈ w.free_list_ ∨ (Function.update w.entities_ e.idx _ i).id ∈ live
    rw [hid]
    exact h.used_slot i hi

/-- Every run on live entities ends in a world that satisfies the invariant. -/
theorem liveInv_of_liveRun (zero : V) (w : World V) (live : List Entity)
    (h : LiveRun zero w live) : LiveInv w live := by
  induction h with
  | fresh => exact liveInv_fresh zero
  | create w w1 live e _ hc ih => exact (liveInv_create w w1 live e ih hc).1
  | destroy w w1 live e _ he hd ih => exact liveInv_destroy w w1 live e ih he hd
  | add w w1 live e k v c _ he ha ih =>
    obtain ⟨-, -, -, m, -, hw1⟩ := add_component_ok w w1 e k v c ha
    rw [hw1]
    exact liveInv_set_mask w live e _ _ ih he
  | remove w w1 live e k _ he hr ih =>
    obtain ⟨-, m, -, hw1⟩ := remove_component_ok w w1 e k hr
    rw [hw1]
    exact liveInv_set_mask w live e _ w.pool ih he

/-- A run on live entities is a run: its world is reachable. -/
theorem reachable_of_liveRun (zero : V) (w : World V) (live : List Entity)
    (h : LiveRun zero w live) : Reachable zero w := by
  induction h with
  | fresh => exact ⟨[], rfl⟩
  | create w w1 live e _ hc ih =>
    exact reachable_run zero w w1 [Op.create] ih (by simp [run, Op.step, hc])
  | destroy w w1 live e _ _ hd ih =>
    exact reachable_run zero w w1 [Op.destroy e] ih (by simp [run, Op.step, hd])
  | add w w1 live e k v c _ _ ha ih =>
    exact reachable_run zero w w1 [Op.add e k v] ih (by simp [run, Op.step, ha])
  | remove w w1 live e k _ _ hr ih =>
    exact reachable_run zero w w1 [Op.remove e k] ih (by simp [run, Op.step, hr])

/-- No call of the interface decreases `next_entity_idx_`. -/
theorem step_next_mono (w w1 : World V) (op : Op V) (h : op.step w = .ok w1) :
    w.next_entity_idx_ ≤ w1.next_entity_idx_ := by
  cases op with
  | create =>
    obtain ⟨e, hc⟩ := step_create_ok w w1 h
    obtain ⟨hw1, -⟩ := create_entity_ok w w1 e hc
    subst hw1
    unfold World.get_free_entity_idx
    split
    · exact Nat.le_succ _
    · exact Nat.le_refl _
  | destroy e =>
    obtain ⟨-, hw1⟩ := destroy_entity_ok w w1 e h
    rw [hw1]
  | add e k v =>
    obtain ⟨c, ha⟩ := step_add_ok w w1 e k v h
    obtain ⟨-, -, -, m, -, hw1⟩ := add_component_ok w w1 e k v c ha
    rw [hw1]
  | remove e k =>
    obtain ⟨-, m, -, hw1⟩ := remove_component_ok w w1 e k h
    rw [hw1]

/-- A run on live entities for concrete scenarios: two entities are created and the first is
destroyed; the entity `(1, 1)` is live, slot 0 is free. -/
theorem liveRun_two_created_one_destroyed :
    LiveRun (0 : Nat)
      (world_after (0 : Nat) [Op.create, Op.create, Op.destroy ⟨0, 1⟩]) [⟨1, 1⟩] := by
  have h1 : LiveRun (0 : Nat) (world_after (0 : Nat) [Op.create]) [⟨0, 1⟩] :=
    LiveRun.create _ _ _ _ LiveRun.fresh rfl
  have h2 : LiveRun (0 : Nat) (world_after (0 : Nat) [Op.create, Op.create])
      [⟨1, 1⟩, ⟨0, 1⟩] :=
    LiveRun.create _ _ _ _ h1 rfl
  exact LiveRun.destroy _ _ _ ⟨0, 1⟩ h2 (by decide) rfl

/-- Counterexample to C26 as stated, with every call made on an id for which `exists` is
true: on the constructed world `exists((5, 1))` is true and `destroy((5, 1))` puts 5 on the
free list while `next_entity_idx_` is 0; and after `create()` and `destroy((0, 1))`,
`exists((0, 2))` is true and `destroy((0, 2))` puts 0 on the free list a second time. -/
theorem destroy_of_unallocated_or_free_slot_breaks_free_list :
    (World.fresh (0 : Nat)).exists_ ⟨5, 1⟩ = .ok true ∧
    (world_after (0 : Nat) [Op.destroy ⟨5, 1⟩]).free_list_ = [5] ∧
    (world_after (0 : Nat) [Op.destroy ⟨5, 1⟩]).next_entity_idx_ = 0 ∧
    ¬ (∀ j ∈ (world_after (0 : Nat) [Op.destroy ⟨5, 1⟩]).free_list_,
      j < (world_after (0 : Nat) [Op.destroy ⟨5, 1⟩]).next_entity_idx_) ∧
    (world_after (0 : Nat) [Op.create, Op.destroy ⟨0, 1⟩]).exists_ ⟨0, 2⟩ = .ok true ∧
    (world_after (0 : Nat) [Op.create, Op.destroy ⟨0, 1⟩, Op.destroy ⟨0, 2⟩]).free_list_
      = [0, 0] ∧
    ¬ (world_after (0 : Nat)
      [Op.create, Op.destroy ⟨0, 1⟩, Op.destroy ⟨0, 2⟩]).free_list_.Nodup := by
  refine ⟨by decide, by decide, by decide, ?_, by decide, by decide, by decide⟩
  intro h
  have := h 5 (by decide)
  exact absurd this (by decide)

/-- C26 (as amended): in every state reached from the constructed world by `create`,
`destroy`, `add` and `remove` calls made only on live entities, `next_entity_idx_` is at most
`MaxEntities` and no call decreases it, the index of every live entity and every index in
the free list is below `next_entity_idx_`, no index is twice in the free list, and every
slot in the free list or at an index from `next_entity_idx_` on has the mask 0. -/
theorem live_run_allocator_invariants (zero : V) (w : World V) (live : List Entity)
    (h : LiveRun zero w live) :
    w.next_entity_idx_ ≤ MaxEntities ∧
    (∀ (op : Op V) (w1 : World V), op.step w = .ok w1 →
      w.next_entity_idx_ ≤ w1.next_entity_idx_) ∧
    (∀ e ∈ live, e.idx < w.next_entity_idx_) ∧
    (∀ j ∈ w.free_list_, j < w.next_entity_idx_) ∧
    (∀ j, w.free_list_.count j ≤ 1) ∧
    (∀ i, i ∈ w.free_list_ ∨ w.next_entity_idx_ ≤ i → (w.entities_ i).cmask = 0) := by
  have hinv := liveInv_of_liveRun zero w live h
  refine ⟨hinv.next_le, fun op w1 hs => step_next_mono w w1 op hs,
    fun e he => (hinv.live_slot e he).1, fun j hj => (hinv.free_slot j hj).1,
    fun j => List.nodup_iff_count_le_one.1 hinv.free_nodup j, ?_⟩
  intro i hi
  rcases hi with hi | hi
  · exact (hinv.free_slot i hi).2
  · rw [hinv.unused_slot i hi]

/-- Witness of C26 (as amended): the run that creates two entities and destroys the first. -/
theorem live_run_allocator_invariants_witness :
    LiveRun (0 : Nat)
      (world_after (0 : Nat) [Op.create, Op.create, Op.destroy ⟨0, 1⟩]) [⟨1, 1⟩] ∧
    (world_after (0 : Nat) [Op.create, Op.create, Op.destroy ⟨0, 1⟩]).free_list_ = [0] ∧
    (∀ j ∈ (world_after (0 : Nat) [Op.create, Op.create, Op.destroy ⟨0, 1⟩]).free_list_,
      j < (world_after (0 : Nat)
        [Op.create, Op.create, Op.destroy ⟨0, 1⟩]).next_entity_idx_) :=
  ⟨liveRun_two_created_one_destroyed, by decide,
    (live_run_allocator_invariants (0 : Nat) _ _ liveRun_two_created_one_destroyed).2.2.2.1⟩

/-- Counterexample to C27 as stated: on the constructed world no slot has been allocated
(`next_entity_idx_` is 0) and `exists((0, 1))` is true; after `create()` and
`destroy((0, 1))` slot 0 is in the free list, no entity is live, and `exists((0, 2))` is
true. -/
theorem exists_true_for_unallocated_and_free_slot :
    (World.fresh (0 : Nat)).next_entity_idx_ = 0 ∧
    (World.fresh (0 : Nat)).exists_ ⟨0, 1⟩ = .ok true ∧
    (world_after (0 : Nat) [Op.create, Op.destroy ⟨0, 1⟩]).free_list_ = [0] ∧
    (world_after (0 : Nat) [Op.create, Op.destroy ⟨0, 1⟩]).exists_ ⟨0, 2⟩ = .ok true :=
  ⟨by decide, by decide, by decide, by decide⟩

/-- C27 (as amended): in every state reached by calls made only on live entities, `exists`
is true for every live entity, and for an in-range id it is true exactly when the id is a
live entity, or the id that a slot in the free list currently stores, or the id `(i, 1)` of
a slot `i` that has never been allocated; it is false for every other in-range id. -/
theorem exists_iff_live_or_current_id (zero : V) (w : World V) (live : List Entity)
    (h : LiveRun zero w live) :
    (∀ e ∈ live, w.exists_ e = .ok true) ∧
    (∀ id : Entity, w.exists_ id = .ok true ↔
      id.idx < MaxEntities ∧
      (id ∈ live ∨ (id.idx ∈ w.free_list_ ∧ id = (w.entities_ id.idx).id) ∨
        (w.next_entity_idx_ ≤ id.idx ∧ id = ⟨id.idx, 1⟩))) ∧
    (∀ id : Entity, id.idx < MaxEntities → id ∉ live →
      ¬ (id.idx ∈ w.free_list_ ∧ id = (w.entities_ id.idx).id) →
      ¬ (w.next_entity_idx_ ≤ id.idx ∧ id = ⟨id.idx, 1⟩) → w.exists_ id = .ok false) := by
  have hinv := liveInv_of_liveRun zero w live h
  have hlive : ∀ e ∈ live, w.exists_ e = .ok true := by
    intro e he
    obtain ⟨a, -, c⟩ := hinv.live_slot e he
    refine (exists_ok_true_iff w e).2 ⟨lt_of_lt_of_le a hinv.next_le, by rw [c]⟩
  have hiff : ∀ id : Entity, w.exists_ id = .ok true ↔
      id.idx < MaxEntities ∧
      (id ∈ live ∨ (id.idx ∈ w.free_list_ ∧ id = (w.entities_ id.idx).id) ∨
        (w.next_entity_idx_ ≤ id.idx ∧ id = ⟨id.idx, 1⟩)) := by
    intro id
    constructor
    · intro hex
      obtain ⟨hlt, hg⟩ := (exists_ok_true_iff w id).1 hex
      have hid : id = (w.entities_ id.idx).id := by
        have hi := hinv.slot_idx id.idx
        cases hs : (w.entities_ id.idx).id with
        | mk i g =>
          rw [hs] at hi hg
          cases id
          simp_all
      refine ⟨hlt, ?_⟩
      by_cases hn : id.idx < w.next_entity_idx_
      · rcases hinv.used_slot id.idx hn with hf | hl
        · exact Or.inr (Or.inl ⟨hf, hid⟩)
        · exact Or.inl (hid ▸ hl)
      · refine Or.inr (Or.inr ⟨Nat.le_of_not_lt hn, ?_⟩)
        rw [hinv.unused_slot id.idx (Nat.le_of_not_lt hn)] at hid
        exact hid
    · rintro ⟨hlt, hl | ⟨-, hid⟩ | ⟨hn, hid⟩⟩
      · exact hlive id hl
      · exact (exists_ok_true_iff w id).2 ⟨hlt, by rw [← hid]⟩
      · refine (exists_ok_true_iff w id).2 ⟨hlt, ?_⟩
        rw [hinv.unused_slot id.idx hn]
        show 1 = id.gen
        rw [hid]
  refine ⟨hlive, hiff, ?_⟩
  intro id hlt h1 h2 h3
  have hne : ¬ w.exists_ id = .ok true := by
    intro hex
    rcases ((hiff id).1 hex).2 with a | a | a
    · exact h1 a
    · exact h2 a
    · exact h3 a
  unfold World.exists_ at hne ⊢
  simp only [hlt, if_true] at hne ⊢
  simpa using hne

/-- Witness of C27 (as amended): after two entities are created and the first is destroyed,
`exists` is true for the live entity `(1, 1)`. -/
theorem exists_iff_live_or_current_id_witness :
    LiveRun (0 : Nat)
      (world_after (0 : Nat) [Op.create, Op.create, Op.destroy ⟨0, 1⟩]) [⟨1, 1⟩] ∧
    (world_after (0 : Nat) [Op.create, Op.create, Op.destroy ⟨0, 1⟩]).exists_ ⟨1, 1⟩
      = .ok true :=
  ⟨liveRun_two_created_one_destroyed,
    (exists_iff_live_or_current_id (0 : Nat) _ _ liveRun_two_created_one_destroyed).1
      ⟨1, 1⟩ (by decide)⟩

/-- Counterexample to C28 as stated, with every call made on an id for which `exists` is
true: after `create()` and `destroy((0, 1))`, `exists((0, 2))` is true and
`destroy((0, 2))` succeeds; the next `create()` returns `(0, 3)`, which is then live, and
the `create()` after it returns an id of the same slot 0. -/
theorem create_returns_slot_of_live_entity :
    ∃ (w0 w1 w2 w3 : World Nat),
      run (World.fresh 0) [Op.create, Op.destroy ⟨0, 1⟩] = .ok w0 ∧
      w0.exists_ ⟨0, 2⟩ = .ok true ∧
      w0.destroy_entity ⟨0, 2⟩ = .ok w1 ∧
      w1.create_entity = .ok (⟨0, 3⟩, w2) ∧
      w2.exists_ ⟨0, 3⟩ = .ok true ∧
      w2.create_entity = .ok (⟨0, 3⟩, w3) :=
  ⟨_, _, _, _, rfl, by decide, rfl, rfl, by decide, rfl⟩

/-- C28 (as amended): in every state reached by calls made only on live entities, a
successful `create()` returns an id whose slot index differs from the index of every live
entity, and two live entities with the same slot index are the same entity. -/
theorem create_returns_slot_of_no_live_entity (zero : V) (w : World V) (live : List Entity)
    (h : LiveRun zero w live) :
    (∀ (e : Entity) (w1 : World V), w.create_entity = .ok (e, w1) →
      ∀ e1 ∈ live, e1.idx ≠ e.idx) ∧
    (∀ e1 ∈ live, ∀ e2 ∈ live, e1.idx = e2.idx → e1 = e2) := by
  have hinv := liveInv_of_liveRun zero w live h
  exact ⟨fun e w1 hc => (liveInv_create w w1 live e hinv hc).2.1,
    fun e1 h1 e2 h2 heq => liveInv_idx_inj w live hinv e1 e2 h1 h2 heq⟩

/-- Witness of C28 (as amended): after two entities are created and the first is destroyed,
`create()` returns `(0, 2)`, in another slot than the live entity `(1, 1)`. -/
theorem create_returns_slot_of_no_live_entity_witness :
    LiveRun (0 : Nat)
      (world_after (0 : Nat) [Op.create, Op.create, Op.destroy ⟨0, 1⟩]) [⟨1, 1⟩] ∧
    (∃ w1, (world_after (0 : Nat) [Op.create, Op.create, Op.destroy ⟨0, 1⟩]).create_entity
      = .ok (⟨0, 2⟩, w1)) ∧
    (⟨1, 1⟩ : Entity).idx ≠ (⟨0, 2⟩ : Entity).idx :=
  ⟨liveRun_two_created_one_destroyed, ⟨_, rfl⟩,
    (create_returns_slot_of_no_live_entity (0 : Nat) _ _
      liveRun_two_created_one_destroyed).1 ⟨0, 2⟩ _ rfl ⟨1, 1⟩ (by decide)⟩

end ecs
